import Mathlib

/-!
# Real-estate transaction chaincode (`transaction_contract.go`)

A shallow embedding of the Hyperledger Fabric chaincode `RealEstateTransaction`
and of the library routines it calls (`strconv.Itoa`, `strconv.Atoi`,
`encoding/json` on the `Transaction` struct, `time.Unix(..).Format`).

* Go `string` and `[]byte` are byte sequences (`GoString`).
* Go `int` is the 64-bit machine integer of the platforms chaincode runs on:
  values are `Int`, and the one arithmetic operation of the program
  (`idCounter++`) wraps with `wrapInt`.
* The world state is a map from keys to byte values (`Store`). The stub, the
  client identity and the clock belong to the host and are described by a
  `Ctx`, which says what they answer during one invocation. Each method is a
  function from the state before to its result and the state after.
* An invocation as the ledger commits it is `invoke`: the writes of an
  invocation that returns an error are discarded.

The definitions come first, then the lemmas about them, then the theorems on
the behaviour of the contract, each with the number of the statement it
settles.
-/

namespace Chaincode

/-! ## Bytes and strings -/

/-- A byte. -/
abbrev Byte := UInt8

/-- Go `string` and `[]byte`: an arbitrary sequence of bytes. -/
abbrev GoString := List Byte

/-- The bytes of an ASCII literal. -/
def ascii (s : String) : GoString := s.toList.map (fun c => c.toNat.toUInt8)

/-! ## Machine integers and `strconv` -/

/-- Smallest value of Go `int` (64-bit). -/
def minInt : Int := -9223372036854775808

/-- Largest value of Go `int` (64-bit). -/
def maxInt : Int := 9223372036854775807

/-- The value of a 64-bit two's complement computation whose exact result is `x`. -/
def wrapInt (x : Int) : Int :=
  (x + 9223372036854775808) % 18446744073709551616 - 9223372036854775808

/-- The ASCII digit of `d < 10`. -/
def digitChar (d : Nat) : Byte := (48 + d).toUInt8

/-- Decimal digits of `n`, most significant first, in front of `acc`. -/
def natDigitsAux : Nat → Nat → GoString → GoString
  | 0, _, acc => acc
  | fuel + 1, n, acc =>
    if n < 10 then digitChar n :: acc
    else natDigitsAux fuel (n / 10) (digitChar (n % 10) :: acc)

/-- Decimal text of a natural number. -/
def formatNat (n : Nat) : GoString := natDigitsAux (n + 1) n []

/-- Go `strconv.Itoa`: decimal text, with a leading `-` for negative numbers. -/
def Itoa (i : Int) : GoString :=
  if i < 0 then 0x2d :: formatNat i.natAbs else formatNat i.natAbs

/-- Whether the byte is an ASCII digit. -/
def isDigit (b : Byte) : Bool := 48 ≤ b.toNat && b.toNat ≤ 57

/-- Value of a run of decimal digits read after the value `acc`, without a
bound. -/
def digitsValue : Nat → GoString → Nat
  | acc, [] => acc
  | acc, b :: rest => digitsValue (acc * 10 + (b.toNat - 48)) rest

/-- The two errors of `strconv`: `ErrSyntax` and `ErrRange`. -/
inductive NumError
  | invalid
  | outOfRange
deriving DecidableEq

/-- Largest value of `uint64`. -/
def maxUint64 : Nat := 18446744073709551615

/-- The loop of Go `strconv.ParseUint(s, 10, 64)` over the bytes still to be
read, `n` being the value of the digits read so far. The bytes are read from
left to right: a byte that is not a decimal digit is a syntax error (value 0);
a digit that takes the value beyond `uint64` is a range error (value
`maxUint64`), returned at once, without a look at the bytes after it. -/
def parseUintLoop : Nat → GoString → Nat × Option NumError
  | n, [] => (n, none)
  | n, c :: rest =>
    if isDigit c = false then (0, some .invalid)
    else if 1844674407370955162 ≤ n then (maxUint64, some .outOfRange)
    else if maxUint64 < n * 10 + (c.toNat - 48) then (maxUint64, some .outOfRange)
    else parseUintLoop (n * 10 + (c.toNat - 48)) rest

/-- Go `strconv.ParseUint(s, 10, 64)`: the empty text is a syntax error. -/
def ParseUint (s : GoString) : Nat × Option NumError :=
  if s = [] then (0, some .invalid) else parseUintLoop 0 s

/-- Go `strconv.ParseInt(s, 10, 64)`: an optional sign, then `ParseUint`. A
syntax error of `ParseUint` is returned with the value 0; otherwise (no error,
or a range error with the value `maxUint64`) a magnitude that does not fit is
a range error with the nearest bound as value. -/
def ParseInt (s : GoString) : Int × Option NumError :=
  match s with
  | [] => (0, some .invalid)
  | b :: rest =>
    let neg : Bool := b = 0x2d
    let ds : GoString := if b = 0x2b ∨ b = 0x2d then rest else s
    match ParseUint ds with
    | (_, some .invalid) => (0, some .invalid)
    | (un, _) =>
      if neg = false ∧ 9223372036854775808 ≤ un then (maxInt, some .outOfRange)
      else if neg = true ∧ 9223372036854775808 < un then (minInt, some .outOfRange)
      else (if neg then -(un : Int) else (un : Int), none)

/-- Go `strconv.Atoi`: on 64-bit platforms the same function as
`ParseInt(s, 10, 0)` (its fast path for short texts computes the same result). -/
def Atoi (s : GoString) : Int × Option NumError := ParseInt s

/-! ## The record -/

/-- The Go struct `Transaction`. -/
structure Transaction where
  ID : Int
  PartidaRegistral : GoString
  CompradorDNI : GoString
  CompradorNombre : GoString
  CompradorApellidos : GoString
  VendedorDNI : GoString
  VendedorNombre : GoString
  VendedorApellidos : GoString
  EmpleadoID : GoString
  FechaAdquisicion : GoString
  ArchivoNombre : GoString
  CreatedBy : GoString
deriving DecidableEq

/-- The zero value of `Transaction` (`var transaction Transaction`). -/
def Transaction.zero : Transaction :=
  ⟨0, [], [], [], [], [], [], [], [], [], [], []⟩

/-! ## UTF-8 (`unicode/utf8`) -/

/-- Whether `lo ≤ b ≤ hi`. -/
def inRange (lo hi : Nat) (b : Byte) : Bool := lo ≤ b.toNat && b.toNat ≤ hi

/-- The size `utf8.DecodeRune` reports for the sequence starting with the
non-ASCII byte `b0` followed by `rest`: 2, 3 or 4 for a well-formed encoding,
and 1 (with `RuneError`) for an invalid or truncated one. -/
def runeSize (b0 : Byte) (rest : GoString) : Nat :=
  let x := b0.toNat
  if x < 0xC2 then 1
  else if x ≤ 0xDF then
    match rest with
    | b1 :: _ => if inRange 0x80 0xBF b1 then 2 else 1
    | _ => 1
  else if x ≤ 0xEF then
    match rest with
    | b1 :: b2 :: _ =>
      if inRange (if x = 0xE0 then 0xA0 else 0x80) (if x = 0xED then 0x9F else 0xBF) b1
          && inRange 0x80 0xBF b2 then 3 else 1
    | _ => 1
  else if x ≤ 0xF4 then
    match rest with
    | b1 :: b2 :: b3 :: _ =>
      if inRange (if x = 0xF0 then 0x90 else 0x80) (if x = 0xF4 then 0x8F else 0xBF) b1
          && inRange 0x80 0xBF b2 && inRange 0x80 0xBF b3 then 4 else 1
    | _ => 1
  else 1

/-- Go `utf8.AppendRune`: the UTF-8 encoding of the code point `r`; surrogates and
values past U+10FFFF are encoded as U+FFFD. -/
def encodeRune (r : Nat) : GoString :=
  if r ≤ 0x7F then [r.toUInt8]
  else if r ≤ 0x7FF then [(0xC0 + r / 64).toUInt8, (0x80 + r % 64).toUInt8]
  else if 0x10FFFF < r ∨ (0xD800 ≤ r ∧ r ≤ 0xDFFF) then [0xEF, 0xBF, 0xBD]
  else if r ≤ 0xFFFF then
    [(0xE0 + r / 4096).toUInt8, (0x80 + r / 64 % 64).toUInt8, (0x80 + r % 64).toUInt8]
  else
    [(0xF0 + r / 262144).toUInt8, (0x80 + r / 4096 % 64).toUInt8,
     (0x80 + r / 64 % 64).toUInt8, (0x80 + r % 64).toUInt8]

/-- The bytes of the rune that starts at the first byte of the string, with
every invalid byte replaced by U+FFFD, and the number of further bytes the
rune occupies. -/
def validRune (b : Byte) (rest : GoString) : GoString × Nat :=
  if b.toNat < 0x80 then ([b], 0)
  else if runeSize b rest = 1 then ([0xEF, 0xBF, 0xBD], 0)
  else (b :: rest.take (runeSize b rest - 1), runeSize b rest - 1)

/-- The string with every byte that is not part of a well-formed UTF-8
sequence replaced by U+FFFD; the first argument counts the bytes still
belonging to the rune already emitted. -/
def toValidUTF8Aux : Nat → GoString → GoString
  | _, [] => []
  | k + 1, _ :: rest => toValidUTF8Aux k rest
  | 0, b :: rest => (validRune b rest).1 ++ toValidUTF8Aux (validRune b rest).2 rest

/-- Go `strings.ToValidUTF8(s, "\uFFFD")` with one replacement per invalid byte:
what a JSON round trip makes of a Go string. -/
def toValidUTF8 (s : GoString) : GoString := toValidUTF8Aux 0 s

/-- Go `utf8.ValidString`, the first argument counting the bytes still belonging
to the rune already checked. -/
def validUTF8Aux : Nat → GoString → Bool
  | _, [] => true
  | k + 1, _ :: rest => validUTF8Aux k rest
  | 0, b :: rest =>
    if b.toNat < 0x80 then validUTF8Aux 0 rest
    else if runeSize b rest = 1 then false
    else validUTF8Aux (runeSize b rest - 1) rest

/-- Go `utf8.ValidString`. -/
def validUTF8 (s : GoString) : Bool := validUTF8Aux 0 s

/-! ## `json.Marshal` of a `Transaction` -/

/-- Lower-case hexadecimal digit of `n < 16` (`hex[n]`). -/
def hexDigit (n : Nat) : Byte := (if n < 10 then 48 + n else 87 + n).toUInt8

/-- The table `htmlSafeSet`: the ASCII bytes written verbatim inside a JSON
string, i.e. everything from space up except `"`, `&`, `<`, `>` and `\`. -/
def htmlSafe (b : Byte) : Bool :=
  0x20 ≤ b.toNat && b.toNat < 0x80 && b ≠ 0x22 && b ≠ 0x26 && b ≠ 0x3c && b ≠ 0x3e && b ≠ 0x5c

/-- What `appendString` (with `escapeHTML`) writes for the rune starting at
byte `b` followed by `rest`, and the number of further bytes of the input the
rune occupies. -/
def appendRune (b : Byte) (rest : GoString) : GoString × Nat :=
  if b.toNat < 0x80 then
    (if htmlSafe b then [b]
     else if b = 0x5c ∨ b = 0x22 then [0x5c, b]
     else if b = 0x08 then [0x5c, 0x62]
     else if b = 0x0c then [0x5c, 0x66]
     else if b = 0x0a then [0x5c, 0x6e]
     else if b = 0x0d then [0x5c, 0x72]
     else if b = 0x09 then [0x5c, 0x74]
     else [0x5c, 0x75, 0x30, 0x30, hexDigit (b.toNat / 16), hexDigit (b.toNat % 16)], 0)
  else if runeSize b rest = 1 then ([0x5c, 0x75, 0x66, 0x66, 0x66, 0x64], 0)
  else if b = 0xE2 ∧ rest.take 2 = [0x80, 0xA8] then ([0x5c, 0x75, 0x32, 0x30, 0x32, 0x38], 2)
  else if b = 0xE2 ∧ rest.take 2 = [0x80, 0xA9] then ([0x5c, 0x75, 0x32, 0x30, 0x32, 0x39], 2)
  else (b :: rest.take (runeSize b rest - 1), runeSize b rest - 1)

/-- The loop of `appendString`: the escaped text of the string, the first
argument counting the input bytes still belonging to the rune already written. -/
def appendStringBody : Nat → GoString → GoString
  | _, [] => []
  | k + 1, _ :: rest => appendStringBody k rest
  | 0, b :: rest => (appendRune b rest).1 ++ appendStringBody (appendRune b rest).2 rest

/-- The JSON string literal `encoding/json` writes for a Go string. -/
def appendString (s : GoString) : GoString := 0x22 :: (appendStringBody 0 s ++ [0x22])

/-- Go `json.Marshal(transaction)`: the object with the twelve tagged fields in
declaration order. It cannot fail on this struct. -/
def Marshal (t : Transaction) : GoString :=
  ascii "\x7b\"id\":" ++ Itoa t.ID ++
  ascii ",\"partidaRegistral\":" ++ appendString t.PartidaRegistral ++
  ascii ",\"compradorDni\":" ++ appendString t.CompradorDNI ++
  ascii ",\"compradorNombre\":" ++ appendString t.CompradorNombre ++
  ascii ",\"compradorApellidos\":" ++ appendString t.CompradorApellidos ++
  ascii ",\"vendedorDni\":" ++ appendString t.VendedorDNI ++
  ascii ",\"vendedorNombre\":" ++ appendString t.VendedorNombre ++
  ascii ",\"vendedorApellidos\":" ++ appendString t.VendedorApellidos ++
  ascii ",\"empleadoId\":" ++ appendString t.EmpleadoID ++
  ascii ",\"fechaAdquisicion\":" ++ appendString t.FechaAdquisicion ++
  ascii ",\"archivoNombre\":" ++ appendString t.ArchivoNombre ++
  ascii ",\"createdBy\":" ++ appendString t.CreatedBy ++
  ascii "\x7d"

/-! ## `json.Unmarshal` into a `Transaction` -/

/-- Value of a hexadecimal digit. -/
def hexVal (b : Byte) : Option Nat :=
  if 48 ≤ b.toNat ∧ b.toNat ≤ 57 then some (b.toNat - 48)
  else if 97 ≤ b.toNat ∧ b.toNat ≤ 102 then some (b.toNat - 87)
  else if 65 ≤ b.toNat ∧ b.toNat ≤ 70 then some (b.toNat - 55)
  else none

/-- The function `getu4`: the code unit of a `\uXXXX` escape at the head of the text. -/
def getu4 : GoString → Option Nat
  | 0x5c :: 0x75 :: h1 :: h2 :: h3 :: h4 :: _ =>
    match hexVal h1, hexVal h2, hexVal h3, hexVal h4 with
    | some a, some b, some c, some d => some (a * 4096 + b * 256 + c * 16 + d)
    | _, _, _, _ => none
  | _ => none

/-- What the decoder makes of the item of a string literal that starts at byte
`b` (not the closing quote) followed by `rest`: the decoded bytes and the
number of further bytes the item occupies; `none` when the scanner rejects it. -/
def unquoteRune (b : Byte) (rest : GoString) : Option (GoString × Nat) :=
  if b = 0x5c then
    match rest with
    | [] => none
    | e :: _ =>
      if e = 0x22 ∨ e = 0x5c ∨ e = 0x2f then some ([e], 1)
      else if e = 0x62 then some ([0x08], 1)
      else if e = 0x66 then some ([0x0c], 1)
      else if e = 0x6e then some ([0x0a], 1)
      else if e = 0x72 then some ([0x0d], 1)
      else if e = 0x74 then some ([0x09], 1)
      else if e = 0x75 then
        match getu4 (b :: rest) with
        | none => none
        | some rr =>
          if 0xD800 ≤ rr ∧ rr < 0xE000 then
            match getu4 (rest.drop 5) with
            | some rr1 =>
              if rr < 0xDC00 ∧ 0xDC00 ≤ rr1 ∧ rr1 < 0xE000 then
                some (encodeRune ((rr - 0xD800) * 1024 + (rr1 - 0xDC00) + 0x10000), 11)
              else some ([0xEF, 0xBF, 0xBD], 5)
            | none => some ([0xEF, 0xBF, 0xBD], 5)
          else some (encodeRune rr, 5)
      else none
  else if b.toNat < 0x20 then none
  else if b.toNat < 0x80 then some ([b], 0)
  else if runeSize b rest = 1 then some ([0xEF, 0xBF, 0xBD], 0)
  else some (b :: rest.take (runeSize b rest - 1), runeSize b rest - 1)

/-- Reads a string literal after its opening quote: the decoded string and the
text after the closing quote. The first argument counts the bytes still
belonging to the item already decoded. -/
def unquoteBody : Nat → GoString → Option (GoString × GoString)
  | _, [] => none
  | k + 1, _ :: rest => unquoteBody k rest
  | 0, b :: rest =>
    if b = 0x22 then some ([], rest)
    else
      match unquoteRune b rest with
      | none => none
      | some (out, k) =>
        match unquoteBody k rest with
        | none => none
        | some (s, r) => some (out ++ s, r)

/-- JSON white space: space, tab, line feed, carriage return. -/
def isSpace (b : Byte) : Bool := b = 0x20 || b = 0x09 || b = 0x0a || b = 0x0d

/-- Drops leading white space. -/
def skipSpace : GoString → GoString
  | [] => []
  | b :: rest => if isSpace b then skipSpace rest else b :: rest

/-- Splits off the leading run of digits. -/
def spanDigits : GoString → GoString × GoString
  | [] => ([], [])
  | b :: rest =>
    if isDigit b then ((b :: (spanDigits rest).1), (spanDigits rest).2) else ([], b :: rest)

/-- The integer part of a JSON number: `0`, or a non-zero digit and more digits. -/
def scanIntPart : GoString → Option (GoString × GoString)
  | [] => none
  | d :: rest =>
    if d = 0x30 then some ([d], rest)
    else if isDigit d then some (d :: (spanDigits rest).1, (spanDigits rest).2)
    else none

/-- The optional fraction of a JSON number: `.` and one or more digits. -/
def scanFracPart : GoString → Option (GoString × GoString)
  | 0x2e :: rest =>
    if (spanDigits rest).1 = [] then none
    else some (0x2e :: (spanDigits rest).1, (spanDigits rest).2)
  | bs => some ([], bs)

/-- The optional exponent of a JSON number: `e` or `E`, an optional sign, and
one or more digits. -/
def scanExpPart : GoString → Option (GoString × GoString)
  | [] => some ([], [])
  | e :: rest =>
    if e = 0x65 ∨ e = 0x45 then
      match rest with
      | [] => none
      | s :: rest1 =>
        if s = 0x2b ∨ s = 0x2d then
          (if (spanDigits rest1).1 = [] then none
           else some (e :: s :: (spanDigits rest1).1, (spanDigits rest1).2))
        else
          (if (spanDigits rest).1 = [] then none
           else some (e :: (spanDigits rest).1, (spanDigits rest).2))
    else some ([], e :: rest)

/-- Reads a JSON number literal: the literal and the text after it. -/
def scanNumber (bs : GoString) : Option (GoString × GoString) :=
  let sign : GoString := match bs with | 0x2d :: _ => [0x2d] | _ => []
  let r0 : GoString := match bs with | 0x2d :: r => r | _ => bs
  match scanIntPart r0 with
  | none => none
  | some (ip, r1) =>
    match scanFracPart r1 with
    | none => none
    | some (fp, r2) =>
      match scanExpPart r2 with
      | none => none
      | some (ep, r3) => some (sign ++ ip ++ fp ++ ep, r3)

/-- The scanner's `maxNestingDepth`. -/
def maxNestingDepth : Nat := 10000

mutual
/-- Checks one JSON value of any kind at the head of the text (no leading
white space) and returns the text after it; `depth` is the number of arrays and
objects already open. -/
def skipValue : Nat → Nat → GoString → Option GoString
  | 0, _, _ => none
  | fuel + 1, depth, bs =>
    match bs with
    | 0x22 :: r => (unquoteBody 0 r).map (fun p => p.2)
    | 0x7b :: r =>
      if maxNestingDepth ≤ depth then none
      else
        match skipSpace r with
        | 0x7d :: r1 => some r1
        | r1 => skipMembers fuel (depth + 1) r1
    | 0x5b :: r =>
      if maxNestingDepth ≤ depth then none
      else
        match skipSpace r with
        | 0x5d :: r1 => some r1
        | r1 => skipElements fuel (depth + 1) r1
    | 0x74 :: 0x72 :: 0x75 :: 0x65 :: r => some r
    | 0x66 :: 0x61 :: 0x6c :: 0x73 :: 0x65 :: r => some r
    | 0x6e :: 0x75 :: 0x6c :: 0x6c :: r => some r
    | _ => (scanNumber bs).map (fun p => p.2)
/-- Checks the members of an object from the first key on, up to and including
the closing brace. -/
def skipMembers : Nat → Nat → GoString → Option GoString
  | 0, _, _ => none
  | fuel + 1, depth, bs =>
    match bs with
    | 0x22 :: r =>
      match unquoteBody 0 r with
      | none => none
      | some (_, r1) =>
        match skipSpace r1 with
        | 0x3a :: r2 =>
          match skipValue fuel depth (skipSpace r2) with
          | none => none
          | some r3 =>
            match skipSpace r3 with
            | 0x2c :: r4 => skipMembers fuel depth (skipSpace r4)
            | 0x7d :: r4 => some r4
            | _ => none
        | _ => none
    | _ => none
/-- Checks the elements of an array from the first element on, up to and
including the closing bracket. -/
def skipElements : Nat → Nat → GoString → Option GoString
  | 0, _, _ => none
  | fuel + 1, depth, bs =>
    match skipValue fuel depth bs with
    | none => none
    | some r1 =>
      match skipSpace r1 with
      | 0x2c :: r2 => skipElements fuel depth (skipSpace r2)
      | 0x5d :: r2 => some r2
      | _ => none
end

/-- Go `foldName`: the key with ASCII letters in upper case and the two non-ASCII
letters that fold to ASCII ones (U+017F long s, U+212A Kelvin sign) replaced by
`S` and `K`. Other runes are left as they are: they never match an ASCII name. -/
def foldName : GoString → GoString
  | [] => []
  | 0xC5 :: 0xBF :: rest => 0x53 :: foldName rest
  | 0xE2 :: 0x84 :: 0xAA :: rest => 0x4b :: foldName rest
  | b :: rest =>
    (if 97 ≤ b.toNat ∧ b.toNat ≤ 122 then (b.toNat - 32).toUInt8 else b) :: foldName rest

/-- The fields of `Transaction`, by JSON tag. -/
inductive Field
  | id | partidaRegistral | compradorDni | compradorNombre | compradorApellidos
  | vendedorDni | vendedorNombre | vendedorApellidos | empleadoId
  | fechaAdquisicion | archivoNombre | createdBy
deriving DecidableEq

/-- The JSON tag of a field. -/
def Field.tag : Field → GoString
  | .id => ascii "id"
  | .partidaRegistral => ascii "partidaRegistral"
  | .compradorDni => ascii "compradorDni"
  | .compradorNombre => ascii "compradorNombre"
  | .compradorApellidos => ascii "compradorApellidos"
  | .vendedorDni => ascii "vendedorDni"
  | .vendedorNombre => ascii "vendedorNombre"
  | .vendedorApellidos => ascii "vendedorApellidos"
  | .empleadoId => ascii "empleadoId"
  | .fechaAdquisicion => ascii "fechaAdquisicion"
  | .archivoNombre => ascii "archivoNombre"
  | .createdBy => ascii "createdBy"

/-- All fields, in declaration order. -/
def Field.all : List Field :=
  [.id, .partidaRegistral, .compradorDni, .compradorNombre, .compradorApellidos,
   .vendedorDni, .vendedorNombre, .vendedorApellidos, .empleadoId,
   .fechaAdquisicion, .archivoNombre, .createdBy]

/-- The field an object key selects: the one whose tag equals the key up to
case folding, if any. -/
def lookupField (key : GoString) : Option Field :=
  Field.all.find? (fun f => foldName f.tag = foldName key)

/-- Stores a decoded string in a string field. -/
def Transaction.setString (t : Transaction) (f : Field) (v : GoString) : Transaction :=
  match f with
  | .id => t
  | .partidaRegistral => { t with PartidaRegistral := v }
  | .compradorDni => { t with CompradorDNI := v }
  | .compradorNombre => { t with CompradorNombre := v }
  | .compradorApellidos => { t with CompradorApellidos := v }
  | .vendedorDni => { t with VendedorDNI := v }
  | .vendedorNombre => { t with VendedorNombre := v }
  | .vendedorApellidos => { t with VendedorApellidos := v }
  | .empleadoId => { t with EmpleadoID := v }
  | .fechaAdquisicion => { t with FechaAdquisicion := v }
  | .archivoNombre => { t with ArchivoNombre := v }
  | .createdBy => { t with CreatedBy := v }

/-- Decodes the value of one object member (no leading white space) into the
record: `null` leaves the field as it is, a string field takes a string
literal, `id` takes a number literal that `strconv.ParseInt` accepts, a key
that names no field takes any value, which is skipped. Any other value makes
`Unmarshal` return an error. Returns the record and the text after the value. -/
def decodeMember (fuel : Nat) (key : GoString) (t : Transaction) (bs : GoString) :
    Option (Transaction × GoString) :=
  match lookupField key with
  | none => (skipValue fuel 1 bs).map (fun r => (t, r))
  | some f =>
    match bs with
    | 0x6e :: 0x75 :: 0x6c :: 0x6c :: r => some (t, r)
    | 0x22 :: r =>
      if f = .id then none
      else
        match unquoteBody 0 r with
        | none => none
        | some (v, r1) => some (t.setString f v, r1)
    | _ =>
      if f = .id then
        match scanNumber bs with
        | none => none
        | some (lit, r1) =>
          match ParseInt lit with
          | (n, none) => some ({ t with ID := n }, r1)
          | (_, some _) => none
      else none

/-- Decodes the members of the top-level object from the first key on, up to
and including the closing brace. -/
def decodeMembers : Nat → Transaction → GoString → Option (Transaction × GoString)
  | 0, _, _ => none
  | fuel + 1, t, bs =>
    match bs with
    | 0x22 :: r =>
      match unquoteBody 0 r with
      | none => none
      | some (key, r1) =>
        match skipSpace r1 with
        | 0x3a :: r2 =>
          match decodeMember fuel key t (skipSpace r2) with
          | none => none
          | some (t1, r3) =>
            match skipSpace r3 with
            | 0x2c :: r4 => decodeMembers fuel t1 (skipSpace r4)
            | 0x7d :: r4 => some (t1, r4)
            | _ => none
        | _ => none
    | _ => none

/-- Go `json.Unmarshal(data, &transaction)` on a zero `Transaction`: `none` when
it returns an error (invalid JSON, or a value of the wrong type), otherwise the
record it leaves. The text must be one JSON value between optional white space:
an object fills the fields its keys name, `null` changes nothing. The length of
the text serves as fuel: it bounds the number of members and of nested values. -/
def Unmarshal (data : GoString) : Option Transaction :=
  match skipSpace data with
  | 0x6e :: 0x75 :: 0x6c :: 0x6c :: r =>
    if skipSpace r = [] then some Transaction.zero else none
  | 0x7b :: r =>
    match skipSpace r with
    | 0x7d :: r1 => if skipSpace r1 = [] then some Transaction.zero else none
    | r1 =>
      match decodeMembers data.length Transaction.zero r1 with
      | none => none
      | some (t, r2) => if skipSpace r2 = [] then some t else none
  | _ => none

/-- What a JSON round trip makes of a record: every string field loses its
invalid bytes. -/
def Transaction.coerce (t : Transaction) : Transaction :=
  { ID := t.ID
    PartidaRegistral := toValidUTF8 t.PartidaRegistral
    CompradorDNI := toValidUTF8 t.CompradorDNI
    CompradorNombre := toValidUTF8 t.CompradorNombre
    CompradorApellidos := toValidUTF8 t.CompradorApellidos
    VendedorDNI := toValidUTF8 t.VendedorDNI
    VendedorNombre := toValidUTF8 t.VendedorNombre
    VendedorApellidos := toValidUTF8 t.VendedorApellidos
    EmpleadoID := toValidUTF8 t.EmpleadoID
    FechaAdquisicion := toValidUTF8 t.FechaAdquisicion
    ArchivoNombre := toValidUTF8 t.ArchivoNombre
    CreatedBy := toValidUTF8 t.CreatedBy }

/-! ## `time.Unix(sec, 0).Format("2006-01-02")` -/

/-- The protobuf `Timestamp` returned by `GetTxTimestamp`. -/
structure Timestamp where
  Seconds : Int
  Nanos : Int
deriving DecidableEq

/-- The constant `unixToInternal + internalToAbsolute` of package `time`:
seconds from the absolute zero (1 January of the year -292277022399) to the
Unix epoch. -/
def unixToAbsolute : Int := 9223372028715321600

/-- The constant `absoluteZeroYear`. -/
def absoluteZeroYear : Int := -292277022399

/-- Go `Time.abs`: the instant `sec`, shifted by the zone offset, in seconds since
the absolute zero, as a `uint64`. -/
def absSeconds (offset sec : Int) : Nat :=
  ((sec + offset + unixToAbsolute) % 18446744073709551616).toNat

/-- The function `isLeap`. -/
def isLeap (year : Int) : Bool := year % 4 = 0 && (year % 100 ≠ 0 || year % 400 = 0)

/-- The table `daysBefore`. -/
def daysBefore : List Nat := [0, 31, 59, 90, 120, 151, 181, 212, 243, 273, 304, 334, 365]

/-- Month (1 to 12) and day of the month of the `yday`-th day (from 0) of a year. -/
def monthDay (leap : Bool) (yday : Nat) : Nat × Nat :=
  if leap ∧ yday = 59 then (2, 29)
  else
    let day := if leap ∧ 59 < yday then yday - 1 else yday
    let month := day / 31
    let stop := daysBefore.getD (month + 1) 0
    if stop ≤ day then (month + 2, day - stop + 1)
    else (month + 1, day - daysBefore.getD month 0 + 1)

/-- The function `absDate` (as up to Go 1.22; later versions compute the same
dates): year, month and day of an absolute time. -/
def absDate (abs : Nat) : Int × Nat × Nat :=
  let d0 := abs / 86400
  let n400 := d0 / 146097
  let d1 := d0 - 146097 * n400
  let n100 := d1 / 36524 - d1 / 36524 / 4
  let d2 := d1 - 36524 * n100
  let n4 := d2 / 1461
  let d3 := d2 - 1461 * n4
  let n1 := d3 / 365 - d3 / 365 / 4
  let yday := d3 - 365 * n1
  let year : Int := ((400 * n400 + 100 * n100 + 4 * n4 + n1 : Nat) : Int) + absoluteZeroYear
  (year, monthDay (isLeap year) yday)

/-- Zero padding of a decimal text up to `width` digits. -/
def padDigits (width : Nat) (ds : GoString) : GoString :=
  List.replicate (width - ds.length) 0x30 ++ ds

/-- The function `appendInt` of package `time`: a sign for negative numbers,
then the decimal digits padded with zeros to `width`. -/
def appendInt (x : Int) (width : Nat) : GoString :=
  if x < 0 then 0x2d :: padDigits width (formatNat x.natAbs)
  else padDigits width (formatNat x.natAbs)

/-- Go `time.Unix(sec, 0).In(loc).Format("2006-01-02")` where `loc` has the given
offset (seconds east of UTC) at that instant. -/
def formatDate (offset sec : Int) : GoString :=
  let ymd := absDate (absSeconds offset sec)
  appendInt ymd.1 4 ++ [0x2d] ++ appendInt ymd.2.1 2 ++ [0x2d] ++ appendInt ymd.2.2 2

/-! ## The host: world state, stub, client identity -/

/-- The world state: the value stored under each key, if any. -/
abbrev Store := GoString → Option GoString

/-- The world state with no key. -/
def Store.empty : Store := fun _ => none

/-- The world state after writing `value` under `key`. -/
def Store.put (s : Store) (key value : GoString) : Store :=
  fun k => if k = key then some value else s k

/-- The world state after removing `key`. -/
def Store.del (s : Store) (key : GoString) : Store :=
  fun k => if k = key then none else s k

/-- What the host answers during one invocation: the transaction timestamp
(`GetTxTimestamp`), the identity of the caller (`GetClientIdentity().GetID()`),
which stub calls it fails (with which message), and the offset of the process's
local time zone at each instant. The identity `GetID` returns is base64 text,
so it is well-formed UTF-8. -/
structure Ctx where
  txTimestamp : Except String Timestamp
  clientID : Except String GoString
  getStateErr : GoString → Option String
  putStateErr : GoString → GoString → Option String
  delStateErr : GoString → Option String
  zoneOffset : Int → Int
  clientID_valid : ∀ c, clientID = .ok c → validUTF8 c = true

/-- Go `ctx.GetStub().GetState(key)`: the stored bytes, `nil` for an absent key. -/
def GetState (ctx : Ctx) (s : Store) (key : GoString) : Except String (Option GoString) :=
  match ctx.getStateErr key with
  | some err => .error err
  | none => .ok (s key)

/-- Go `ctx.GetStub().PutState(key, value)`: the state after the write. -/
def PutState (ctx : Ctx) (s : Store) (key value : GoString) : Except String Store :=
  match ctx.putStateErr key value with
  | some err => .error err
  | none => .ok (s.put key value)

/-- Go `ctx.GetStub().DelState(key)`: the state after the removal. -/
def DelState (ctx : Ctx) (s : Store) (key : GoString) : Except String Store :=
  match ctx.delStateErr key with
  | some err => .error err
  | none => .ok (s.del key)

/-! ## The contract -/

/-- The errors the contract returns, one constructor per `fmt.Errorf` site
(the host's own message as `cause`), and `host` for an error of `PutState` or
`DelState` that is returned as it is. The text of a JSON error is not kept. -/
inductive Error
  | counterRead (cause : String)
  | counterWrite (cause : String)
  | timestamp (cause : String)
  | nextID (cause : Error)
  | clientID (cause : String)
  | host (cause : String)
  | getState (id : Int) (cause : String)
  | notFound (id : Int)
  | unmarshal
  | notCreator
deriving DecidableEq

/-- The constant `idCounterKey`. -/
def idCounterKey : GoString := ascii "ID_COUNTER"

/-- The key of the record with the given id: `"TRANSACTION" + strconv.Itoa(id)`. -/
def transactionKey (id : Int) : GoString := ascii "TRANSACTION" ++ Itoa id

/-- The method `getNextID`: the result and the state it leaves. -/
def getNextID (ctx : Ctx) (s : Store) : Except Error Int × Store :=
  match GetState ctx s idCounterKey with
  | .error err => (.error (.counterRead err), s)
  | .ok counterBytes =>
    let idCounter : Int :=
      match counterBytes with
      | none => 1
      | some bs => wrapInt ((Atoi bs).1 + 1)
    match PutState ctx s idCounterKey (Itoa idCounter) with
    | .error err => (.error (.counterWrite err), s)
    | .ok s1 => (.ok idCounter, s1)

/-- The nine string parameters of `CreateTransaction`. -/
structure Args where
  partidaRegistral : GoString
  compradorDNI : GoString
  compradorNombre : GoString
  compradorApellidos : GoString
  vendedorDNI : GoString
  vendedorNombre : GoString
  vendedorApellidos : GoString
  empleadoID : GoString
  archivoNombre : GoString
deriving DecidableEq

/-- The method `CreateTransaction`: the result and the state it leaves. The Go
method returns only the error; on success the embedding also returns the local
`transactionID`, the id the record was given. `json.Marshal` cannot fail on a
`Transaction`, so its error branch does not appear. -/
def CreateTransaction (ctx : Ctx) (a : Args) (s : Store) : Except Error Int × Store :=
  match ctx.txTimestamp with
  | .error err => (.error (.timestamp err), s)
  | .ok timestamp =>
    match getNextID ctx s with
    | (.error err, s1) => (.error (.nextID err), s1)
    | (.ok transactionID, s1) =>
      match ctx.clientID with
      | .error err => (.error (.clientID err), s1)
      | .ok clientID =>
        let transaction : Transaction :=
          { ID := transactionID
            PartidaRegistral := a.partidaRegistral
            CompradorDNI := a.compradorDNI
            CompradorNombre := a.compradorNombre
            CompradorApellidos := a.compradorApellidos
            VendedorDNI := a.vendedorDNI
            VendedorNombre := a.vendedorNombre
            VendedorApellidos := a.vendedorApellidos
            EmpleadoID := a.empleadoID
            FechaAdquisicion :=
              formatDate (ctx.zoneOffset timestamp.Seconds) timestamp.Seconds
            ArchivoNombre := a.archivoNombre
            CreatedBy := clientID }
        let transactionJSON := Marshal transaction
        match PutState ctx s1 (transactionKey transaction.ID) transactionJSON with
        | .error err => (.error (.host err), s1)
        | .ok s2 => (.ok transactionID, s2)

/-- The method `GetTransaction`; it writes nothing. -/
def GetTransaction (ctx : Ctx) (id : Int) (s : Store) : Except Error Transaction :=
  match GetState ctx s (transactionKey id) with
  | .error err => .error (.getState id err)
  | .ok none => .error (.notFound id)
  | .ok (some transactionBytes) =>
    match Unmarshal transactionBytes with
    | none => .error .unmarshal
    | some transaction => .ok transaction

/-- The method `DeleteTransaction`: the result and the state it leaves. -/
def DeleteTransaction (ctx : Ctx) (id : Int) (s : Store) : Except Error Unit × Store :=
  match GetTransaction ctx id s with
  | .error err => (.error err, s)
  | .ok transaction =>
    match ctx.clientID with
    | .error err => (.error (.clientID err), s)
    | .ok clientID =>
      if transaction.CreatedBy ≠ clientID then (.error .notCreator, s)
      else
        match DelState ctx s (transactionKey id) with
        | .error err => (.error (.host err), s)
        | .ok s1 => (.ok (), s1)

/-- The id `getNextID` computes from the counter entry it reads. -/
def nextOf (counterBytes : Option GoString) : Int :=
  match counterBytes with
  | none => 1
  | some bs => wrapInt ((Atoi bs).1 + 1)

/-- The record with the given id, arguments, acquisition date and creator. -/
def Args.toRecord (a : Args) (id : Int) (date creator : GoString) : Transaction :=
  { ID := id
    PartidaRegistral := a.partidaRegistral
    CompradorDNI := a.compradorDNI
    CompradorNombre := a.compradorNombre
    CompradorApellidos := a.compradorApellidos
    VendedorDNI := a.vendedorDNI
    VendedorNombre := a.vendedorNombre
    VendedorApellidos := a.vendedorApellidos
    EmpleadoID := a.empleadoID
    FechaAdquisicion := date
    ArchivoNombre := a.archivoNombre
    CreatedBy := creator }

/-- Whether the nine arguments are well-formed UTF-8. -/
def Args.valid (a : Args) : Bool :=
  validUTF8 a.partidaRegistral && validUTF8 a.compradorDNI && validUTF8 a.compradorNombre &&
  validUTF8 a.compradorApellidos && validUTF8 a.vendedorDNI && validUTF8 a.vendedorNombre &&
  validUTF8 a.vendedorApellidos && validUTF8 a.empleadoID && validUTF8 a.archivoNombre

/-! ## Invocations and executions -/

/-- An invocation of the contract. -/
inductive Op
  | create (a : Args)
  | get (id : Int)
  | delete (id : Int)

/-- The outcome of an invocation. -/
inductive Response
  | created (id : Int)
  | found (t : Transaction)
  | deleted
  | failed (err : Error)
deriving DecidableEq

/-- One invocation as the ledger commits it: the writes of an invocation that
returns an error are discarded, those of a successful one are applied. -/
def invoke (ctx : Ctx) (op : Op) (s : Store) : Response × Store :=
  match op with
  | .create a =>
    match CreateTransaction ctx a s with
    | (.ok id, s1) => (.created id, s1)
    | (.error err, _) => (.failed err, s)
  | .get id =>
    match GetTransaction ctx id s with
    | .ok t => (.found t, s)
    | .error err => (.failed err, s)
  | .delete id =>
    match DeleteTransaction ctx id s with
    | (.ok _, s1) => (.deleted, s1)
    | (.error err, _) => (.failed err, s)

/-- An execution: the invocations, each with what the host answers during it,
in the order the ledger commits them. -/
abbrev Trace := List (Ctx × Op)

/-- The state after an execution that starts in `s`. -/
def run : Trace → Store → Store
  | [], s => s
  | (ctx, op) :: rest, s => run rest (invoke ctx op s).2

/-- The number of successful `CreateTransaction` invocations of an execution
that starts in `s`. -/
def createCount : Trace → Store → Nat
  | [], _ => 0
  | (ctx, op) :: rest, s =>
    (match (invoke ctx op s).1 with
      | .created _ => 1
      | _ => 0) + createCount rest (invoke ctx op s).2

/-- The counter entry and the record keys after `c` successful creations: the
entry is absent for `c = 0` and otherwise the decimal text of `c` as a machine
integer, and only the ids given so far have a record key. -/
def CounterIs (s : Store) (c : Nat) : Prop :=
  ((c = 0 ∧ s idCounterKey = none) ∨
    (0 < c ∧ s idCounterKey = some (Itoa (wrapInt (c : Int))))) ∧
  ∀ id : Int, s (transactionKey id) ≠ none → ∃ j : Nat, 1 ≤ j ∧ j ≤ c ∧ id = wrapInt (j : Int)

/-- A host on which every call succeeds, for the caller `who` at the Unix time
`seconds`, in a process whose local time zone is UTC. -/
def hostOK (who : GoString) (hw : validUTF8 who = true) (seconds : Int) : Ctx :=
  { txTimestamp := .ok ⟨seconds, 0⟩
    clientID := .ok who
    getStateErr := fun _ => none
    putStateErr := fun _ _ => none
    delStateErr := fun _ => none
    zoneOffset := fun _ => 0
    clientID_valid := fun c h => by cases h; exact hw }

/-- The identity of a first caller (base64 of `x509::CN=alice::CN=ca`). -/
def aliceID : GoString := ascii "eDUwOTo6Q049YWxpY2U6OkNOPWNh"

/-- The identity of a second caller (base64 of `x509::CN=bob::CN=ca`). -/
def bobID : GoString := ascii "eDUwOTo6Q049Ym9iOjpDTj1jYQ=="

/-- An invocation by the first caller on 14 November 2023. -/
def alice : Ctx := hostOK aliceID (by decide) 1700000000

/-- An invocation by the second caller on 14 November 2023. -/
def bob : Ctx := hostOK bobID (by decide) 1700000100

/-- An invocation whose caller identity the host cannot give. -/
def anonymous : Ctx :=
  { txTimestamp := .ok ⟨1700000000, 0⟩
    clientID := .error "cannot determine identity"
    getStateErr := fun _ => none
    putStateErr := fun _ _ => none
    delStateErr := fun _ => none
    zoneOffset := fun _ => 0
    clientID_valid := fun c h => by cases h }

/-- A sale, as arguments of `CreateTransaction`. -/
def sampleArgs : Args :=
  { partidaRegistral := ascii "P-11001"
    compradorDNI := ascii "40302010"
    compradorNombre := ascii "Ana"
    compradorApellidos := ascii "Quispe"
    vendedorDNI := ascii "10203040"
    vendedorNombre := ascii "Luis"
    vendedorApellidos := ascii "Rojas"
    empleadoID := ascii "E-7"
    archivoNombre := ascii "minuta.pdf" }

/-- The same sale with a registry entry that is not well-formed UTF-8 (the
single byte `0xFF`). -/
def rawArgs : Args := { sampleArgs with partidaRegistral := [0xFF] }

/-- The state after the first caller has recorded the sample sale in the
empty world state. -/
def storeOne : Store := (CreateTransaction alice sampleArgs Store.empty).2

/-- The execution in which the first caller records the sample sale `m` times. -/
def manyCreates (m : Nat) : Trace := List.replicate m (alice, Op.create sampleArgs)

/-! ## The calendar

The proleptic Gregorian calendar as the reference for `formatDate`: these
definitions follow the calendar's rules, not the code of package `time`. -/

/-- Days from 1 January of the year 1 to 1 January of the year `y`: 365 for
every year, and one more for every fourth year, except every hundredth, but
with every four-hundredth. -/
def daysBeforeYear (y : Int) : Int :=
  365 * (y - 1) + (y - 1) / 4 - (y - 1) / 100 + (y - 1) / 400

/-- Number of days of the month `m` (1 to 12) of the year `y`; February has
the day by which the year is longer than 365 days. -/
def daysInMonth (y : Int) (m : Nat) : Int :=
  if m = 2 then 28 + (daysBeforeYear (y + 1) - daysBeforeYear y - 365)
  else if m = 4 ∨ m = 6 ∨ m = 9 ∨ m = 11 then 30
  else 31

/-- Days from 1 January of the year `y` to the first of its month `m`: the
lengths of the months before `m`. -/
def monthStart (y : Int) : Nat → Int
  | 0 => 0
  | m + 1 => if m = 0 then 0 else monthStart y m + daysInMonth y m

/-- The day number of the date `y-m-d`: days from 1 January 1970 to it. -/
def civilDay (y : Int) (m d : Nat) : Int :=
  daysBeforeYear y + monthStart y m + ((d : Int) - 1) - 719162

/-- The text `YYYY-MM-DD` of a date: four digits, two digits, two digits. -/
def isoDate (y m d : Nat) : GoString :=
  [digitChar (y / 1000 % 10), digitChar (y / 100 % 10), digitChar (y / 10 % 10),
    digitChar (y % 10), 0x2d, digitChar (m / 10 % 10), digitChar (m % 10), 0x2d,
    digitChar (d / 10 % 10), digitChar (d % 10)]

/-! ## Further invariants and samples -/

/-- The counter entry stands for the integer `c`: it is absent and `c = 0`, or
it is the decimal text of `c`. -/
def CounterHolds (s : Store) (c : Int) : Prop :=
  (s idCounterKey = none ∧ c = 0) ∨ s idCounterKey = some (Itoa c)

/-- Every record key that is present holds bytes that decode to a record whose
ID is the id of the key. -/
def RecordsOk (s : Store) : Prop :=
  ∀ (id : Int) (bs : GoString), s (transactionKey id) = some bs →
    ∃ t, Unmarshal bs = some t ∧ t.ID = id

/-- An invocation by the first caller at 2025-01-01T00:00:00Z, on a host whose
process runs in a local time zone five hours behind UTC. -/
def aliceInLima : Ctx :=
  { txTimestamp := .ok ⟨1735689600, 0⟩
    clientID := .ok aliceID
    getStateErr := fun _ => none
    putStateErr := fun _ _ => none
    delStateErr := fun _ => none
    zoneOffset := fun _ => -18000
    clientID_valid := fun c h => by cases h; decide }

/-- The state `storeOne` without its counter entry: the sample sale is stored
under id 1 and no counter entry is present. -/
def storeNoCounter : Store := storeOne.del idCounterKey

/-! ## Bytes -/

theorem toNat_toUInt8 (n : Nat) : (n.toUInt8).toNat = n % 256 := by
  simp [Nat.toUInt8, UInt8.toNat, UInt8.ofNat]

theorem byte_eq_iff (a b : Byte) : a = b ↔ a.toNat = b.toNat :=
  ⟨fun h => by rw [h], fun h => UInt8.ext h⟩

theorem toNat_lt (b : Byte) : b.toNat < 256 := UInt8.toNat_lt_size b

/-! ## Decimal texts -/

theorem digitChar_toNat (d : Nat) (h : d < 10) : (digitChar d).toNat = 48 + d := by
  unfold digitChar
  rw [toNat_toUInt8]
  omega

theorem isDigit_digitChar (d : Nat) (h : d < 10) : isDigit (digitChar d) = true := by
  simp [isDigit, digitChar_toNat d h]
  omega

theorem digitsValue_cons (a : Nat) (b : Byte) (rest : GoString) :
    digitsValue a (b :: rest) = digitsValue (a * 10 + (b.toNat - 48)) rest := rfl

theorem digitsValue_nil (a : Nat) : digitsValue a [] = a := rfl

theorem digitsValue_append (a : Nat) (xs ys : GoString) :
    digitsValue a (xs ++ ys) = digitsValue (digitsValue a xs) ys := by
  induction xs generalizing a with
  | nil => rfl
  | cons x xs ih =>
    rw [List.cons_append, digitsValue_cons, digitsValue_cons]
    exact ih _

/-- What `natDigitsAux` computes, given enough fuel: a non-empty run of digits
of value `n`, with a leading zero only for `n = 0`. -/
theorem natDigitsAux_spec (fuel : Nat) : ∀ (n : Nat) (acc : GoString), n < fuel →
    ∃ ds : GoString, natDigitsAux fuel n acc = ds ++ acc ∧ ds ≠ [] ∧
      ds.all isDigit = true ∧ digitsValue 0 ds = n ∧
      (∀ rest, ds = 0x30 :: rest → rest = []) := by
  induction fuel with
  | zero => intro n acc h; omega
  | succ fuel ih =>
    intro n acc h
    unfold natDigitsAux
    by_cases h10 : n < 10
    · refine ⟨[digitChar n], ?_, ?_, ?_, ?_, ?_⟩
      · simp [h10]
      · simp
      · simp [isDigit_digitChar n h10]
      · rw [digitsValue_cons, digitsValue_nil, digitChar_toNat n h10]
        omega
      · intro rest hr
        simp at hr
        exact hr.2
    · have hlt : n / 10 < fuel := by omega
      obtain ⟨ds, h1, h2, h3, h4, h5⟩ := ih (n / 10) (digitChar (n % 10) :: acc) hlt
      have hmod : n % 10 < 10 := Nat.mod_lt _ (by norm_num)
      refine ⟨ds ++ [digitChar (n % 10)], ?_, ?_, ?_, ?_, ?_⟩
      · simp [h10, h1]
      · simp
      · simp [List.all_append, h3, isDigit_digitChar _ hmod]
      · rw [digitsValue_append, h4, digitsValue_cons, digitsValue_nil, digitChar_toNat _ hmod]
        omega
      · intro rest hr
        exfalso
        cases ds with
        | nil => exact h2 rfl
        | cons d ds' =>
          simp only [List.cons_append, List.cons.injEq] at hr
          have hnil := h5 ds' (by rw [hr.1])
          subst hnil
          rw [hr.1] at h4
          have h0 : digitsValue 0 [(0x30 : Byte)] = 0 := rfl
          omega

theorem formatNat_spec (n : Nat) :
    formatNat n ≠ [] ∧ (formatNat n).all isDigit = true ∧ digitsValue 0 (formatNat n) = n ∧
      (∀ rest, formatNat n = 0x30 :: rest → rest = []) := by
  obtain ⟨ds, h1, h2, h3, h4, h5⟩ := natDigitsAux_spec (n + 1) n [] (by omega)
  have : formatNat n = ds := by simp [formatNat, h1]
  rw [this]
  exact ⟨h2, h3, h4, h5⟩

theorem formatNat_head_isDigit (n : Nat) :
    ∃ d rest, formatNat n = d :: rest ∧ isDigit d = true ∧ rest.all isDigit = true := by
  obtain ⟨h1, h2, _, _⟩ := formatNat_spec n
  cases h : formatNat n with
  | nil => exact absurd h h1
  | cons d rest =>
    rw [h] at h2
    simp only [List.all_cons, Bool.and_eq_true] at h2
    exact ⟨d, rest, rfl, h2.1, h2.2⟩

theorem isDigit_ne_minus (d : Byte) (h : isDigit d = true) : d ≠ 0x2d ∧ d ≠ 0x2b := by
  simp only [isDigit, Bool.and_eq_true, decide_eq_true_eq] at h
  constructor <;> (intro hd; rw [hd] at h; revert h; decide)

/-! ## Reading decimal texts -/

theorem parseUintLoop_nil (n : Nat) : parseUintLoop n [] = (n, none) := rfl

theorem parseUintLoop_cons (n : Nat) (c : Byte) (rest : GoString) :
    parseUintLoop n (c :: rest) =
      if isDigit c = false then (0, some .invalid)
      else if 1844674407370955162 ≤ n then (maxUint64, some .outOfRange)
      else if maxUint64 < n * 10 + (c.toNat - 48) then (maxUint64, some .outOfRange)
      else parseUintLoop (n * 10 + (c.toNat - 48)) rest := rfl

theorem le_digitsValue (ds : GoString) : ∀ a : Nat, a ≤ digitsValue a ds := by
  induction ds with
  | nil => intro a; exact Nat.le_refl a
  | cons b rest ih =>
    intro a
    rw [digitsValue_cons]
    have := ih (a * 10 + (b.toNat - 48))
    omega

/-- On a run of digits the loop of `ParseUint` returns their value, or the
range error when the value does not fit `uint64`. -/
theorem parseUintLoop_digits (ds : GoString) (hall : ds.all isDigit = true) :
    ∀ n : Nat, n ≤ maxUint64 →
      parseUintLoop n ds =
        if digitsValue n ds ≤ maxUint64 then (digitsValue n ds, none)
        else (maxUint64, some .outOfRange) := by
  induction ds with
  | nil =>
    intro n hn
    rw [parseUintLoop_nil, digitsValue_nil, if_pos hn]
  | cons c rest ih =>
    intro n hn
    simp only [List.all_cons, Bool.and_eq_true] at hall
    have hge := le_digitsValue rest (n * 10 + (c.toNat - 48))
    rw [parseUintLoop_cons, digitsValue_cons]
    unfold maxUint64 at hn hge ⊢
    simp only [hall.1, Bool.true_eq_false, if_false]
    by_cases h1 : 1844674407370955162 ≤ n
    · rw [if_pos h1, if_neg (by omega)]
    · rw [if_neg h1]
      by_cases h2 : 18446744073709551615 < n * 10 + (c.toNat - 48)
      · rw [if_pos h2, if_neg (by omega)]
      · rw [if_neg h2]
        have := ih hall.2 (n * 10 + (c.toNat - 48)) (by unfold maxUint64; omega)
        unfold maxUint64 at this
        exact this

theorem ParseUint_digits (ds : GoString) (hne : ds ≠ []) (hall : ds.all isDigit = true) :
    ParseUint ds =
      if digitsValue 0 ds ≤ maxUint64 then (digitsValue 0 ds, none)
      else (maxUint64, some .outOfRange) := by
  unfold ParseUint
  rw [if_neg hne]
  exact parseUintLoop_digits ds hall 0 (by decide)

theorem ParseInt_cons (b : Byte) (rest : GoString) :
    ParseInt (b :: rest) =
      match ParseUint (if b = 0x2b ∨ b = 0x2d then rest else b :: rest) with
      | (_, some .invalid) => (0, some .invalid)
      | (un, _) =>
        if decide (b = 0x2d) = false ∧ 9223372036854775808 ≤ un then
          (maxInt, some .outOfRange)
        else if decide (b = 0x2d) = true ∧ 9223372036854775808 < un then
          (minInt, some .outOfRange)
        else (if decide (b = 0x2d) = true then -(un : Int) else (un : Int), none) := rfl

/-- Go `ParseInt` on a `-` followed by one or more digits. -/
theorem ParseInt_minus (ds : GoString) (hne : ds ≠ []) (hall : ds.all isDigit = true) :
    ParseInt (0x2d :: ds) =
      if 9223372036854775808 < digitsValue 0 ds then (minInt, some .outOfRange)
      else (-((digitsValue 0 ds : Nat) : Int), none) := by
  have hu := ParseUint_digits ds hne hall
  unfold maxUint64 at hu
  have hds : (if (0x2d : Byte) = 0x2b ∨ (0x2d : Byte) = 0x2d then ds else 0x2d :: ds) = ds := by
    simp
  rw [ParseInt_cons, hds]
  by_cases hfit : digitsValue 0 ds ≤ 18446744073709551615
  · rw [if_pos hfit] at hu
    rw [hu]
    simp
  · rw [if_neg hfit] at hu
    rw [hu]
    have : 9223372036854775808 < digitsValue 0 ds := by omega
    simp [this]

/-- Go `ParseInt` on one or more digits. -/
theorem ParseInt_plain (d : Byte) (rest : GoString) (hd : isDigit d = true)
    (hall : rest.all isDigit = true) :
    ParseInt (d :: rest) =
      if 9223372036854775808 ≤ digitsValue 0 (d :: rest) then (maxInt, some .outOfRange)
      else (((digitsValue 0 (d :: rest) : Nat) : Int), none) := by
  have hu := ParseUint_digits (d :: rest) (List.cons_ne_nil d rest)
    (by simp only [List.all_cons, hd, hall, Bool.and_self])
  unfold maxUint64 at hu
  obtain ⟨hm, hp⟩ := isDigit_ne_minus d hd
  have hds : (if d = 0x2b ∨ d = 0x2d then rest else d :: rest) = d :: rest := by
    simp [hm, hp]
  rw [ParseInt_cons, hds]
  by_cases hfit : digitsValue 0 (d :: rest) ≤ 18446744073709551615
  · rw [if_pos hfit] at hu
    rw [hu]
    simp [hm]
  · rw [if_neg hfit] at hu
    rw [hu]
    have : 9223372036854775808 ≤ digitsValue 0 (d :: rest) := by omega
    simp [this, hm]

/-- The integer a decimal text denotes: an optional `-` and digits. -/
theorem ParseInt_Itoa (n : Int) (hlo : minInt ≤ n) (hhi : n ≤ maxInt) :
    ParseInt (Itoa n) = (n, none) := by
  obtain ⟨hne, hall, hval, _⟩ := formatNat_spec n.natAbs
  obtain ⟨d, rest, hd, hdig, hrest⟩ := formatNat_head_isDigit n.natAbs
  unfold minInt at hlo
  unfold maxInt at hhi
  by_cases hneg : n < 0
  · have hcast : ((n.natAbs : Nat) : Int) = -n := by omega
    have hle : ¬ (9223372036854775808 < n.natAbs) := by omega
    simp only [Itoa, hneg, if_true]
    rw [ParseInt_minus _ hne hall, hval, if_neg hle, hcast, neg_neg]
  · have hcast : ((n.natAbs : Nat) : Int) = n := by omega
    have hle : ¬ (9223372036854775808 ≤ n.natAbs) := by omega
    simp only [Itoa, hneg, if_false]
    rw [hd, ParseInt_plain d rest hdig hrest, ← hd, hval, if_neg hle, hcast]

theorem Atoi_Itoa (n : Int) (hlo : minInt ≤ n) (hhi : n ≤ maxInt) :
    Atoi (Itoa n) = (n, none) := ParseInt_Itoa n hlo hhi

/-- The integer a decimal text of `Itoa` denotes, without a bound. -/
theorem Itoa_value (n : Int) :
    (if (Itoa n).head? = some 0x2d then -((digitsValue 0 (Itoa n).tail : Nat) : Int)
      else ((digitsValue 0 (Itoa n) : Nat) : Int)) = n := by
  obtain ⟨_, _, hval, _⟩ := formatNat_spec n.natAbs
  obtain ⟨d, rest, hd, hdig, _⟩ := formatNat_head_isDigit n.natAbs
  by_cases hneg : n < 0
  · have hcast : ((n.natAbs : Nat) : Int) = -n := by omega
    simp only [Itoa, hneg, if_true, List.head?_cons, List.tail_cons, hval, hcast, neg_neg]
  · have hm := (isDigit_ne_minus d hdig).1
    simp only [Itoa, hneg, if_false]
    rw [hd]
    simp only [List.head?_cons, Option.some.injEq, hm, if_false]
    rw [← hd, hval]
    omega

theorem Itoa_injective (a b : Int) (h : Itoa a = Itoa b) : a = b := by
  rw [← Itoa_value a, ← Itoa_value b, h]

theorem transactionKey_injective (a b : Int) (h : transactionKey a = transactionKey b) : a = b := by
  unfold transactionKey at h
  exact Itoa_injective a b (List.append_cancel_left h)

theorem transactionKey_ne_counter (a : Int) : transactionKey a ≠ idCounterKey := by
  intro h
  have h1 : (transactionKey a).head? = some 0x54 := rfl
  have h2 : idCounterKey.head? = some 0x49 := rfl
  rw [h, h2] at h1
  revert h1
  decide

theorem wrapInt_range (x : Int) : minInt ≤ wrapInt x ∧ wrapInt x ≤ maxInt := by
  unfold wrapInt minInt maxInt
  omega

theorem wrapInt_of_range (x : Int) (hlo : minInt ≤ x) (hhi : x ≤ maxInt) : wrapInt x = x := by
  unfold wrapInt
  unfold minInt at hlo
  unfold maxInt at hhi
  omega

/-! ## The rune-by-rune loops -/

theorem appendStringBody_nil (k : Nat) : appendStringBody k [] = [] := by
  cases k <;> rfl

theorem appendStringBody_skip (k : Nat) (b : Byte) (rest : GoString) :
    appendStringBody (k + 1) (b :: rest) = appendStringBody k rest := rfl

theorem appendStringBody_cons (b : Byte) (rest : GoString) :
    appendStringBody 0 (b :: rest) =
      (appendRune b rest).1 ++ appendStringBody (appendRune b rest).2 rest := rfl

theorem appendStringBody_drop (k : Nat) : ∀ s : GoString,
    appendStringBody k s = appendStringBody 0 (s.drop k) := by
  induction k with
  | zero => intro s; rfl
  | succ k ih =>
    intro s
    cases s with
    | nil => rw [appendStringBody_nil]; rfl
    | cons b rest => rw [appendStringBody_skip, List.drop_succ_cons]; exact ih rest

theorem unquoteBody_nil (k : Nat) : unquoteBody k [] = none := by
  cases k <;> rfl

theorem unquoteBody_skip (k : Nat) (b : Byte) (rest : GoString) :
    unquoteBody (k + 1) (b :: rest) = unquoteBody k rest := rfl

theorem unquoteBody_cons (b : Byte) (rest : GoString) :
    unquoteBody 0 (b :: rest) =
      if b = 0x22 then some ([], rest)
      else
        match unquoteRune b rest with
        | none => none
        | some (out, k) =>
          match unquoteBody k rest with
          | none => none
          | some (s, r) => some (out ++ s, r) := rfl

theorem unquoteBody_drop (k : Nat) : ∀ s : GoString,
    unquoteBody k s = unquoteBody 0 (s.drop k) := by
  induction k with
  | zero => intro s; rfl
  | succ k ih =>
    intro s
    cases s with
    | nil => rw [unquoteBody_nil]; rfl
    | cons b rest => rw [unquoteBody_skip, List.drop_succ_cons]; exact ih rest

theorem toValidUTF8Aux_nil (k : Nat) : toValidUTF8Aux k [] = [] := by
  cases k <;> rfl

theorem toValidUTF8Aux_skip (k : Nat) (b : Byte) (rest : GoString) :
    toValidUTF8Aux (k + 1) (b :: rest) = toValidUTF8Aux k rest := rfl

theorem toValidUTF8Aux_cons (b : Byte) (rest : GoString) :
    toValidUTF8Aux 0 (b :: rest) =
      (validRune b rest).1 ++ toValidUTF8Aux (validRune b rest).2 rest := rfl

theorem toValidUTF8Aux_drop (k : Nat) : ∀ s : GoString,
    toValidUTF8Aux k s = toValidUTF8Aux 0 (s.drop k) := by
  induction k with
  | zero => intro s; rfl
  | succ k ih =>
    intro s
    cases s with
    | nil => rw [toValidUTF8Aux_nil]; rfl
    | cons b rest => rw [toValidUTF8Aux_skip, List.drop_succ_cons]; exact ih rest

theorem validUTF8Aux_nil (k : Nat) : validUTF8Aux k [] = true := by
  cases k <;> rfl

theorem validUTF8Aux_skip (k : Nat) (b : Byte) (rest : GoString) :
    validUTF8Aux (k + 1) (b :: rest) = validUTF8Aux k rest := rfl

theorem validUTF8Aux_cons (b : Byte) (rest : GoString) :
    validUTF8Aux 0 (b :: rest) =
      if b.toNat < 0x80 then validUTF8Aux 0 rest
      else if runeSize b rest = 1 then false
      else validUTF8Aux (runeSize b rest - 1) rest := rfl

theorem validUTF8Aux_drop (k : Nat) : ∀ s : GoString,
    validUTF8Aux k s = validUTF8Aux 0 (s.drop k) := by
  induction k with
  | zero => intro s; rfl
  | succ k ih =>
    intro s
    cases s with
    | nil => rw [validUTF8Aux_nil]; rfl
    | cons b rest => rw [validUTF8Aux_skip, List.drop_succ_cons]; exact ih rest

/-! ## Well-formed sequences -/

/-- A well-formed multi-byte sequence lies within the text, and its size
depends only on its own bytes. -/
theorem runeSize_take (b : Byte) (rest : GoString) (h : runeSize b rest ≠ 1) :
    (rest.take (runeSize b rest - 1)).length = runeSize b rest - 1 ∧
      ∀ X : GoString, runeSize b (rest.take (runeSize b rest - 1) ++ X) = runeSize b rest := by
  unfold runeSize at h ⊢
  simp only at h ⊢
  by_cases h1 : b.toNat < 0xC2
  · simp only [h1, if_true, ne_eq, not_true_eq_false] at h
  simp only [h1, if_false] at h ⊢
  by_cases h2 : b.toNat ≤ 0xDF
  · simp only [h2, if_true] at h ⊢
    match rest, h with
    | [], h => simp at h
    | b1 :: r, h =>
      by_cases c : inRange 0x80 0xBF b1 = true
      · simp [c]
      · simp [c] at h
  simp only [h2, if_false] at h ⊢
  by_cases h3 : b.toNat ≤ 0xEF
  · simp only [h3, if_true] at h ⊢
    match rest, h with
    | [], h => simp at h
    | [_], h => simp at h
    | b1 :: b2 :: r, h =>
      by_cases c : (inRange (if b.toNat = 0xE0 then 0xA0 else 0x80)
          (if b.toNat = 0xED then 0x9F else 0xBF) b1 && inRange 0x80 0xBF b2) = true
      · simp [c]
      · simp [c] at h
  simp only [h3, if_false] at h ⊢
  by_cases h4 : b.toNat ≤ 0xF4
  · simp only [h4, if_true] at h ⊢
    match rest, h with
    | [], h => simp at h
    | [_], h => simp at h
    | [_, _], h => simp at h
    | b1 :: b2 :: b3 :: r, h =>
      by_cases c : (inRange (if b.toNat = 0xF0 then 0x90 else 0x80)
          (if b.toNat = 0xF4 then 0x8F else 0xBF) b1 && inRange 0x80 0xBF b2
          && inRange 0x80 0xBF b3) = true
      · simp [c]
      · simp [c] at h
  · simp only [h4, if_false, ne_eq, not_true_eq_false] at h

/-! ## One rune through `appendString` and back -/

theorem hexVal_hexDigit (n : Nat) (h : n < 16) : hexVal (hexDigit n) = some n := by
  interval_cases n <;> rfl

theorem toUInt8_toNat (b : Byte) : b.toNat.toUInt8 = b := by
  rw [byte_eq_iff, toNat_toUInt8]
  exact Nat.mod_eq_of_lt (toNat_lt b)

theorem getu4_cons (h1 h2 h3 h4 : Byte) (X : GoString) :
    getu4 (0x5c :: 0x75 :: h1 :: h2 :: h3 :: h4 :: X) =
      match hexVal h1, hexVal h2, hexVal h3, hexVal h4 with
      | some a, some b, some c, some d => some (a * 4096 + b * 256 + c * 16 + d)
      | _, _, _, _ => none := rfl

/-- An escape `\u00XY` of an ASCII byte reads back as that byte. -/
theorem unquoteRune_u00 (b : Byte) (hb : b.toNat < 0x80) (X : GoString) :
    unquoteRune 0x5c (0x75 :: 0x30 :: 0x30 :: hexDigit (b.toNat / 16) ::
      hexDigit (b.toNat % 16) :: X) = some ([b], 5) := by
  have hhi : hexVal (hexDigit (b.toNat / 16)) = some (b.toNat / 16) :=
    hexVal_hexDigit _ (by omega)
  have hlo : hexVal (hexDigit (b.toNat % 16)) = some (b.toNat % 16) :=
    hexVal_hexDigit _ (by omega)
  have h0 : hexVal 0x30 = some 0 := rfl
  have hg : getu4 (0x5c :: 0x75 :: 0x30 :: 0x30 :: hexDigit (b.toNat / 16) ::
      hexDigit (b.toNat % 16) :: X) = some (b.toNat) := by
    rw [getu4_cons, h0, hhi, hlo]
    simp only
    congr 1
    omega
  have hsur : ¬ (0xD800 ≤ b.toNat ∧ b.toNat < 0xE000) := by omega
  have henc : encodeRune b.toNat = [b] := by
    unfold encodeRune
    rw [if_pos (by omega), toUInt8_toNat]
  unfold unquoteRune
  simp only [if_true, hg, hsur, if_false, henc]
  rfl

/-- The text `appendString` writes for one rune reads back, whatever follows
it, as the rune itself, or as U+FFFD for an invalid byte. -/
theorem unquoteRune_appendRune (b : Byte) (rest : GoString) :
    ∃ (c : Byte) (cs : GoString), (appendRune b rest).1 = c :: cs ∧ c ≠ 0x22 ∧
      (appendRune b rest).2 = (validRune b rest).2 ∧
      ∀ X : GoString, unquoteRune c (cs ++ X) = some ((validRune b rest).1, cs.length) := by
  by_cases hb : b.toNat < 0x80
  · -- an ASCII byte
    have hv : validRune b rest = ([b], 0) := by simp only [validRune, hb, if_true]
    rw [hv]
    by_cases hs : htmlSafe b = true
    · refine ⟨b, [], ?_, ?_, ?_, ?_⟩
      · simp only [appendRune, hb, if_true, hs]
      · intro h; rw [h] at hs; revert hs; decide
      · simp only [appendRune, hb, if_true]
      · intro X
        have h5c : b ≠ 0x5c := by intro h; rw [h] at hs; revert hs; decide
        have h20 : ¬ b.toNat < 0x20 := by
          simp only [htmlSafe, Bool.and_eq_true, decide_eq_true_eq] at hs
          omega
        simp only [List.nil_append, unquoteRune, h5c, if_false, h20, hb, if_true, List.length_nil]
    · by_cases e1 : b = 0x5c ∨ b = 0x22
      · refine ⟨0x5c, [b], ?_, by decide, ?_, ?_⟩
        · simp only [appendRune, hb, if_true, hs, e1, if_false, Bool.false_eq_true]
        · simp only [appendRune, hb, if_true]
        · intro X
          have : b = 0x22 ∨ b = 0x5c ∨ b = 0x2f := by tauto
          simp only [List.cons_append, List.nil_append, unquoteRune, if_true, this,
            List.length_singleton]
      · have n5c : b ≠ 0x5c := fun h => e1 (Or.inl h)
        have n22 : b ≠ 0x22 := fun h => e1 (Or.inr h)
        by_cases e2 : b = 0x08
        · subst e2
          exact ⟨0x5c, [0x62], rfl, by decide, rfl, fun X => rfl⟩
        by_cases e3 : b = 0x0c
        · subst e3
          exact ⟨0x5c, [0x66], rfl, by decide, rfl, fun X => rfl⟩
        by_cases e4 : b = 0x0a
        · subst e4
          exact ⟨0x5c, [0x6e], rfl, by decide, rfl, fun X => rfl⟩
        by_cases e5 : b = 0x0d
        · subst e5
          exact ⟨0x5c, [0x72], rfl, by decide, rfl, fun X => rfl⟩
        by_cases e6 : b = 0x09
        · subst e6
          exact ⟨0x5c, [0x74], rfl, by decide, rfl, fun X => rfl⟩
        refine ⟨0x5c, [0x75, 0x30, 0x30, hexDigit (b.toNat / 16), hexDigit (b.toNat % 16)],
          ?_, by decide, ?_, ?_⟩
        · simp only [appendRune, hb, if_true, hs, e1, e2, e3, e4, e5, e6, if_false,
            Bool.false_eq_true]
        · simp only [appendRune, hb, if_true]
        · intro X
          exact unquoteRune_u00 b hb X
  · -- a byte of a multi-byte sequence
    by_cases h1 : runeSize b rest = 1
    · have hv : validRune b rest = ([0xEF, 0xBF, 0xBD], 0) := by
        simp only [validRune, hb, if_false, h1, if_true]
      rw [hv]
      refine ⟨0x5c, [0x75, 0x66, 0x66, 0x66, 0x64], ?_, by decide, ?_, fun X => rfl⟩
      · simp only [appendRune, hb, if_false, h1, if_true]
      · simp only [appendRune, hb, if_false, h1, if_true]
    · have hv : validRune b rest = (b :: rest.take (runeSize b rest - 1), runeSize b rest - 1) := by
        simp only [validRune, hb, if_false, h1]
      obtain ⟨hlen, hsz⟩ := runeSize_take b rest h1
      rw [hv]
      by_cases l1 : b = 0xE2 ∧ rest.take 2 = [0x80, 0xA8]
      · obtain ⟨rfl, ht⟩ := l1
        match rest, ht with
        | b1 :: b2 :: r, ht =>
          simp only [List.take_succ_cons, List.take_zero, List.cons.injEq, and_true] at ht
          obtain ⟨rfl, rfl⟩ := ht
          exact ⟨0x5c, [0x75, 0x32, 0x30, 0x32, 0x38], rfl, by decide, rfl, fun X => rfl⟩
      by_cases l2 : b = 0xE2 ∧ rest.take 2 = [0x80, 0xA9]
      · obtain ⟨rfl, ht⟩ := l2
        match rest, ht with
        | b1 :: b2 :: r, ht =>
          simp only [List.take_succ_cons, List.take_zero, List.cons.injEq, and_true] at ht
          obtain ⟨rfl, rfl⟩ := ht
          exact ⟨0x5c, [0x75, 0x32, 0x30, 0x32, 0x39], rfl, by decide, rfl, fun X => rfl⟩
      refine ⟨b, rest.take (runeSize b rest - 1), ?_, ?_, ?_, ?_⟩
      · simp only [appendRune, hb, if_false, h1, l1, l2]
      · intro h; rw [h] at hb; exact hb (by decide)
      · simp only [appendRune, hb, if_false, h1, l1, l2]
      · intro X
        have h5c : b ≠ 0x5c := by intro h; rw [h] at hb; exact hb (by decide)
        have h20 : ¬ b.toNat < 0x20 := by omega
        simp only [unquoteRune, h5c, if_false, h20, hb, hsz X, h1, hlen]
        rw [List.take_left' hlen]

/-! ## A whole string through `appendString` and back -/

/-- Reading what `appendString` wrote gives the string with its invalid bytes
replaced, and leaves what follows the closing quote. -/
theorem unquoteBody_appendStringBody (n : Nat) : ∀ (s : GoString), s.length ≤ n →
    ∀ tail : GoString, unquoteBody 0 (appendStringBody 0 s ++ 0x22 :: tail) =
      some (toValidUTF8Aux 0 s, tail) := by
  induction n with
  | zero =>
    intro s hs tail
    have : s = [] := List.length_eq_zero.mp (by omega)
    subst this
    rfl
  | succ n ih =>
    intro s hs tail
    cases s with
    | nil => rfl
    | cons b rest =>
      obtain ⟨c, cs, hc, hne, hj, hX⟩ := unquoteRune_appendRune b rest
      have hlen : (rest.drop (validRune b rest).2).length ≤ n := by
        rw [List.length_drop]
        simp only [List.length_cons] at hs
        omega
      rw [appendStringBody_cons, hc, hj, appendStringBody_drop, toValidUTF8Aux_cons,
        toValidUTF8Aux_drop]
      simp only [List.cons_append, List.append_assoc]
      rw [unquoteBody_cons, if_neg hne, hX]
      simp only
      rw [unquoteBody_drop, List.drop_left, ih _ hlen tail]

theorem unquoteBody_appendString (s tail : GoString) :
    unquoteBody 0 (appendStringBody 0 s ++ 0x22 :: tail) = some (toValidUTF8 s, tail) :=
  unquoteBody_appendStringBody s.length s (le_refl _) tail

/-- A well-formed UTF-8 string has no byte to replace. -/
theorem toValidUTF8Aux_of_valid (n : Nat) : ∀ (s : GoString), s.length ≤ n →
    validUTF8Aux 0 s = true → toValidUTF8Aux 0 s = s := by
  induction n with
  | zero =>
    intro s hs _
    have : s = [] := List.length_eq_zero.mp (by omega)
    subst this
    rfl
  | succ n ih =>
    intro s hs hv
    cases s with
    | nil => rfl
    | cons b rest =>
      simp only [List.length_cons] at hs
      rw [validUTF8Aux_cons] at hv
      rw [toValidUTF8Aux_cons]
      by_cases hb : b.toNat < 0x80
      · rw [if_pos hb] at hv
        simp only [validRune, hb, if_true]
        rw [ih rest (by omega) hv]
        rfl
      · rw [if_neg hb] at hv
        by_cases h1 : runeSize b rest = 1
        · rw [if_pos h1] at hv
          exact absurd hv (by decide)
        · rw [if_neg h1, validUTF8Aux_drop] at hv
          simp only [validRune, hb, if_false, h1]
          rw [toValidUTF8Aux_drop, ih _ (by rw [List.length_drop]; omega) hv]
          simp only [List.cons_append, List.take_append_drop]

theorem toValidUTF8_of_valid (s : GoString) (h : validUTF8 s = true) : toValidUTF8 s = s :=
  toValidUTF8Aux_of_valid s.length s (le_refl _) h

/-! ## Numbers in JSON -/

theorem spanDigits_nil : spanDigits [] = ([], []) := rfl

theorem spanDigits_cons (b : Byte) (rest : GoString) :
    spanDigits (b :: rest) =
      if isDigit b then ((b :: (spanDigits rest).1), (spanDigits rest).2) else ([], b :: rest) := rfl

theorem spanDigits_append (ds : GoString) (h : ds.all isDigit = true) (b : Byte)
    (hb : isDigit b = false) (X : GoString) : spanDigits (ds ++ b :: X) = (ds, b :: X) := by
  induction ds with
  | nil => rw [List.nil_append, spanDigits_cons, hb]; rfl
  | cons d ds ih =>
    simp only [List.all_cons, Bool.and_eq_true] at h
    rw [List.cons_append, spanDigits_cons, h.1, ih h.2]
    rfl

theorem scanIntPart_cons (d : Byte) (rest : GoString) :
    scanIntPart (d :: rest) =
      if d = 0x30 then some ([d], rest)
      else if isDigit d then some (d :: (spanDigits rest).1, (spanDigits rest).2)
      else none := rfl

theorem scanIntPart_formatNat (m : Nat) (X : GoString) :
    scanIntPart (formatNat m ++ 0x2c :: X) = some (formatNat m, 0x2c :: X) := by
  obtain ⟨_, _, _, hz⟩ := formatNat_spec m
  obtain ⟨d, rest, hd, hdig, hrest⟩ := formatNat_head_isDigit m
  rw [hd] at hz ⊢
  rw [List.cons_append, scanIntPart_cons]
  by_cases h0 : d = 0x30
  · have := hz rest (by rw [h0])
    subst this
    rw [if_pos h0]
    rfl
  · rw [if_neg h0, hdig, spanDigits_append rest hrest 0x2c (by decide) X]
    rfl

theorem scanNumber_Itoa (n : Int) (X : GoString) :
    scanNumber (Itoa n ++ 0x2c :: X) = some (Itoa n, 0x2c :: X) := by
  by_cases hneg : n < 0
  · have hI : Itoa n = 0x2d :: formatNat n.natAbs := by simp only [Itoa, hneg, if_true]
    rw [hI]
    show (match scanIntPart (formatNat n.natAbs ++ 0x2c :: X) with
      | none => none
      | some (ip, r1) =>
        match scanFracPart r1 with
        | none => none
        | some (fp, r2) =>
          match scanExpPart r2 with
          | none => none
          | some (ep, r3) => some ([0x2d] ++ ip ++ fp ++ ep, r3)) = _
    rw [scanIntPart_formatNat]
    simp only
    show some ([0x2d] ++ formatNat n.natAbs ++ [] ++ [], 0x2c :: X) = _
    simp
  · have hI : Itoa n = formatNat n.natAbs := by simp only [Itoa, hneg, if_false]
    rw [hI]
    obtain ⟨d, rest, hd, hdig, _⟩ := formatNat_head_isDigit n.natAbs
    have hm := (isDigit_ne_minus d hdig).1
    have hsign : scanNumber (formatNat n.natAbs ++ 0x2c :: X) =
        (match scanIntPart (formatNat n.natAbs ++ 0x2c :: X) with
        | none => none
        | some (ip, r1) =>
          match scanFracPart r1 with
          | none => none
          | some (fp, r2) =>
            match scanExpPart r2 with
            | none => none
            | some (ep, r3) => some ([] ++ ip ++ fp ++ ep, r3)) := by
      rw [hd, List.cons_append]
      unfold scanNumber
      split
      · next r heq =>
        simp only [List.cons.injEq] at heq
        exact absurd heq.1 hm
      · rfl
    rw [hsign, scanIntPart_formatNat]
    simp only
    show some ([] ++ formatNat n.natAbs ++ [] ++ [], 0x2c :: X) = _
    simp

/-! ## `Unmarshal` after `Marshal` -/

theorem skipSpace_cons (b : Byte) (rest : GoString) :
    skipSpace (b :: rest) = if isSpace b then skipSpace rest else b :: rest := rfl

theorem unquoteBody_tag (f : Field) (X : GoString) :
    unquoteBody 0 (f.tag ++ 0x22 :: X) = some (f.tag, X) := by
  have h1 : appendStringBody 0 f.tag = f.tag := by cases f <;> rfl
  have h2 : toValidUTF8 f.tag = f.tag := by cases f <;> rfl
  have := unquoteBody_appendString f.tag X
  rw [h1, h2] at this
  exact this

theorem lookupField_tag (f : Field) : lookupField f.tag = some f := by
  cases f <;> rfl

theorem decodeMember_string (fuel : Nat) (f : Field) (hf : f ≠ .id) (t : Transaction)
    (v X : GoString) :
    decodeMember fuel f.tag t (0x22 :: (appendStringBody 0 v ++ 0x22 :: X)) =
      some (t.setString f (toValidUTF8 v), X) := by
  unfold decodeMember
  rw [lookupField_tag]
  simp only [hf, if_false, unquoteBody_appendString]

theorem decodeMember_id (fuel : Nat) (t : Transaction) (n : Int) (hlo : minInt ≤ n)
    (hhi : n ≤ maxInt) (X : GoString) :
    decodeMember fuel Field.id.tag t (Itoa n ++ 0x2c :: X) =
      some ({ t with ID := n }, 0x2c :: X) := by
  have hhead : ∃ d rest, Itoa n = d :: rest ∧ d ≠ 0x6e ∧ d ≠ 0x22 := by
    obtain ⟨d, rest, hd, hdig, _⟩ := formatNat_head_isDigit n.natAbs
    by_cases hneg : n < 0
    · exact ⟨0x2d, formatNat n.natAbs, by simp only [Itoa, hneg, if_true], by decide, by decide⟩
    · refine ⟨d, rest, by simp only [Itoa, hneg, if_false, hd], ?_, ?_⟩ <;>
        (intro h; rw [h] at hdig; revert hdig; decide)
  obtain ⟨d, rest, hd, h6e, h22⟩ := hhead
  have hscan := scanNumber_Itoa n X
  have hparse := ParseInt_Itoa n hlo hhi
  unfold decodeMember
  rw [lookupField_tag]
  simp only
  rw [hd] at hparse
  rw [hd, List.cons_append] at hscan ⊢
  split
  · next r heq =>
    simp only [List.cons.injEq] at heq
    exact absurd heq.1 h6e
  · next r heq =>
    simp only [List.cons.injEq] at heq
    exact absurd heq.1 h22
  · simp only [if_true, hscan, hparse]

theorem decodeMembers_succ (fuel : Nat) (t : Transaction) (r : GoString) :
    decodeMembers (fuel + 1) t (0x22 :: r) =
      match unquoteBody 0 r with
      | none => none
      | some (key, r1) =>
        match skipSpace r1 with
        | 0x3a :: r2 =>
          match decodeMember fuel key t (skipSpace r2) with
          | none => none
          | some (t1, r3) =>
            match skipSpace r3 with
            | 0x2c :: r4 => decodeMembers fuel t1 (skipSpace r4)
            | 0x7d :: r4 => some (t1, r4)
            | _ => none
        | _ => none := rfl

theorem step_id (fuel : Nat) (t : Transaction) (n : Int) (hlo : minInt ≤ n)
    (hhi : n ≤ maxInt) (X : GoString) :
    decodeMembers (fuel + 1) t
        (0x22 :: (Field.id.tag ++ 0x22 :: 0x3a :: (Itoa n ++ 0x2c :: 0x22 :: X))) =
      decodeMembers fuel { t with ID := n } (0x22 :: X) := by
  have hhead : ∃ d rest, Itoa n = d :: rest ∧ isSpace d = false := by
    obtain ⟨d, rest, hd, hdig, _⟩ := formatNat_head_isDigit n.natAbs
    by_cases hneg : n < 0
    · exact ⟨0x2d, formatNat n.natAbs, by simp only [Itoa, hneg, if_true], by decide⟩
    · refine ⟨d, rest, by simp only [Itoa, hneg, if_false, hd], ?_⟩
      cases hsp : isSpace d
      · rfl
      · exfalso
        simp only [isSpace, Bool.or_eq_true, decide_eq_true_eq] at hsp
        rcases hsp with ((h | h) | h) | h <;> (rw [h] at hdig; revert hdig; decide)
  obtain ⟨d, rest, hd, hsp⟩ := hhead
  have hskip : skipSpace (Itoa n ++ 0x2c :: 0x22 :: X) = Itoa n ++ 0x2c :: 0x22 :: X := by
    rw [hd, List.cons_append, skipSpace_cons, hsp]
    rfl
  rw [decodeMembers_succ, unquoteBody_tag]
  simp only
  have h1 : skipSpace (0x3a :: (Itoa n ++ 0x2c :: 0x22 :: X)) =
      0x3a :: (Itoa n ++ 0x2c :: 0x22 :: X) := rfl
  rw [h1]
  simp only
  rw [hskip, decodeMember_id fuel t n hlo hhi]
  rfl

theorem step_string (fuel : Nat) (f : Field) (hf : f ≠ .id) (t : Transaction)
    (v X : GoString) :
    decodeMembers (fuel + 1) t
        (0x22 :: (f.tag ++ 0x22 :: 0x3a :: 0x22 ::
          (appendStringBody 0 v ++ 0x22 :: 0x2c :: 0x22 :: X))) =
      decodeMembers fuel (t.setString f (toValidUTF8 v)) (0x22 :: X) := by
  rw [decodeMembers_succ, unquoteBody_tag]
  simp only
  have h1 : skipSpace (0x3a :: 0x22 :: (appendStringBody 0 v ++ 0x22 :: 0x2c :: 0x22 :: X)) =
      0x3a :: 0x22 :: (appendStringBody 0 v ++ 0x22 :: 0x2c :: 0x22 :: X) := rfl
  rw [h1]
  simp only
  have h2 : skipSpace (0x22 :: (appendStringBody 0 v ++ 0x22 :: 0x2c :: 0x22 :: X)) =
      0x22 :: (appendStringBody 0 v ++ 0x22 :: 0x2c :: 0x22 :: X) := rfl
  rw [h2, decodeMember_string fuel f hf]
  rfl

theorem step_last (fuel : Nat) (f : Field) (hf : f ≠ .id) (t : Transaction)
    (v X : GoString) :
    decodeMembers (fuel + 1) t
        (0x22 :: (f.tag ++ 0x22 :: 0x3a :: 0x22 ::
          (appendStringBody 0 v ++ 0x22 :: 0x7d :: X))) =
      some (t.setString f (toValidUTF8 v), X) := by
  rw [decodeMembers_succ, unquoteBody_tag]
  simp only
  have h1 : skipSpace (0x3a :: 0x22 :: (appendStringBody 0 v ++ 0x22 :: 0x7d :: X)) =
      0x3a :: 0x22 :: (appendStringBody 0 v ++ 0x22 :: 0x7d :: X) := rfl
  rw [h1]
  simp only
  have h2 : skipSpace (0x22 :: (appendStringBody 0 v ++ 0x22 :: 0x7d :: X)) =
      0x22 :: (appendStringBody 0 v ++ 0x22 :: 0x7d :: X) := rfl
  rw [h2, decodeMember_string fuel f hf]
  rfl

/-- The text of `Marshal`, member by member. -/
theorem Marshal_members (t : Transaction) :
    Marshal t = 0x7b :: 0x22 :: (Field.id.tag ++ 0x22 :: 0x3a :: (Itoa t.ID ++ 0x2c :: 0x22 ::
      (Field.partidaRegistral.tag ++ 0x22 :: 0x3a :: 0x22 ::
        (appendStringBody 0 t.PartidaRegistral ++ 0x22 :: 0x2c :: 0x22 ::
      (Field.compradorDni.tag ++ 0x22 :: 0x3a :: 0x22 ::
        (appendStringBody 0 t.CompradorDNI ++ 0x22 :: 0x2c :: 0x22 ::
      (Field.compradorNombre.tag ++ 0x22 :: 0x3a :: 0x22 ::
        (appendStringBody 0 t.CompradorNombre ++ 0x22 :: 0x2c :: 0x22 ::
      (Field.compradorApellidos.tag ++ 0x22 :: 0x3a :: 0x22 ::
        (appendStringBody 0 t.CompradorApellidos ++ 0x22 :: 0x2c :: 0x22 ::
      (Field.vendedorDni.tag ++ 0x22 :: 0x3a :: 0x22 ::
        (appendStringBody 0 t.VendedorDNI ++ 0x22 :: 0x2c :: 0x22 ::
      (Field.vendedorNombre.tag ++ 0x22 :: 0x3a :: 0x22 ::
        (appendStringBody 0 t.VendedorNombre ++ 0x22 :: 0x2c :: 0x22 ::
      (Field.vendedorApellidos.tag ++ 0x22 :: 0x3a :: 0x22 ::
        (appendStringBody 0 t.VendedorApellidos ++ 0x22 :: 0x2c :: 0x22 ::
      (Field.empleadoId.tag ++ 0x22 :: 0x3a :: 0x22 ::
        (appendStringBody 0 t.EmpleadoID ++ 0x22 :: 0x2c :: 0x22 ::
      (Field.fechaAdquisicion.tag ++ 0x22 :: 0x3a :: 0x22 ::
        (appendStringBody 0 t.FechaAdquisicion ++ 0x22 :: 0x2c :: 0x22 ::
      (Field.archivoNombre.tag ++ 0x22 :: 0x3a :: 0x22 ::
        (appendStringBody 0 t.ArchivoNombre ++ 0x22 :: 0x2c :: 0x22 ::
      (Field.createdBy.tag ++ 0x22 :: 0x3a :: 0x22 ::
        (appendStringBody 0 t.CreatedBy ++ 0x22 :: 0x7d ::
          [])))))))))))))))))))))))) := by
  have e0 : ascii "\x7b\"id\":" = 0x7b :: 0x22 :: (Field.id.tag ++ [0x22, 0x3a]) := rfl
  have e1 : ascii ",\"partidaRegistral\":" =
      0x2c :: 0x22 :: (Field.partidaRegistral.tag ++ [0x22, 0x3a]) := rfl
  have e2 : ascii ",\"compradorDni\":" =
      0x2c :: 0x22 :: (Field.compradorDni.tag ++ [0x22, 0x3a]) := rfl
  have e3 : ascii ",\"compradorNombre\":" =
      0x2c :: 0x22 :: (Field.compradorNombre.tag ++ [0x22, 0x3a]) := rfl
  have e4 : ascii ",\"compradorApellidos\":" =
      0x2c :: 0x22 :: (Field.compradorApellidos.tag ++ [0x22, 0x3a]) := rfl
  have e5 : ascii ",\"vendedorDni\":" =
      0x2c :: 0x22 :: (Field.vendedorDni.tag ++ [0x22, 0x3a]) := rfl
  have e6 : ascii ",\"vendedorNombre\":" =
      0x2c :: 0x22 :: (Field.vendedorNombre.tag ++ [0x22, 0x3a]) := rfl
  have e7 : ascii ",\"vendedorApellidos\":" =
      0x2c :: 0x22 :: (Field.vendedorApellidos.tag ++ [0x22, 0x3a]) := rfl
  have e8 : ascii ",\"empleadoId\":" =
      0x2c :: 0x22 :: (Field.empleadoId.tag ++ [0x22, 0x3a]) := rfl
  have e9 : ascii ",\"fechaAdquisicion\":" =
      0x2c :: 0x22 :: (Field.fechaAdquisicion.tag ++ [0x22, 0x3a]) := rfl
  have e10 : ascii ",\"archivoNombre\":" =
      0x2c :: 0x22 :: (Field.archivoNombre.tag ++ [0x22, 0x3a]) := rfl
  have e11 : ascii ",\"createdBy\":" =
      0x2c :: 0x22 :: (Field.createdBy.tag ++ [0x22, 0x3a]) := rfl
  have e12 : ascii "\x7d" = [0x7d] := rfl
  unfold Marshal appendString
  rw [e0, e1, e2, e3, e4, e5, e6, e7, e8, e9, e10, e11, e12]
  simp only [List.cons_append, List.append_assoc, List.nil_append]

/-- Decoding what `Marshal` wrote gives the record back, up to the
replacement of invalid bytes in its strings. -/
theorem Unmarshal_Marshal (t : Transaction) (hlo : minInt ≤ t.ID) (hhi : t.ID ≤ maxInt) :
    Unmarshal (Marshal t) = some t.coerce := by
  have hlen : ∃ k, (Marshal t).length = k + 12 := by
    refine ⟨(Marshal t).length - 12, ?_⟩
    have : 12 ≤ (Marshal t).length := by
      rw [Marshal_members]
      simp only [List.length_cons, List.length_append]
      omega
    omega
  obtain ⟨k, hk⟩ := hlen
  unfold Unmarshal
  rw [hk, Marshal_members]
  have hs1 : ∀ X : GoString, skipSpace (0x7b :: X) = 0x7b :: X := fun X => rfl
  have hs2 : ∀ X : GoString, skipSpace (0x22 :: X) = 0x22 :: X := fun X => rfl
  rw [hs1]
  simp only
  rw [hs2]
  split
  · next r1 heq =>
    simp only [List.cons.injEq] at heq
    exact absurd heq.1 (by decide)
  rw [step_id _ _ _ hlo hhi,
    step_string _ .partidaRegistral (by decide),
    step_string _ .compradorDni (by decide),
    step_string _ .compradorNombre (by decide),
    step_string _ .compradorApellidos (by decide),
    step_string _ .vendedorDni (by decide),
    step_string _ .vendedorNombre (by decide),
    step_string _ .vendedorApellidos (by decide),
    step_string _ .empleadoId (by decide),
    step_string _ .fechaAdquisicion (by decide),
    step_string _ .archivoNombre (by decide),
    step_last _ .createdBy (by decide)]
  rfl

/-! ## The world state -/

theorem Store.put_same (s : Store) (k v : GoString) : s.put k v k = some v := by
  simp [Store.put]

theorem Store.put_other (s : Store) (k v k' : GoString) (h : k' ≠ k) : s.put k v k' = s k' := by
  simp [Store.put, h]

theorem Store.del_same (s : Store) (k : GoString) : s.del k k = none := by
  simp [Store.del]

theorem Store.del_other (s : Store) (k k' : GoString) (h : k' ≠ k) : s.del k k' = s k' := by
  simp [Store.del, h]

/-! ## Dates are ASCII -/

theorem validUTF8Aux_ascii (s : GoString) (h : ∀ b ∈ s, b.toNat < 0x80) :
    validUTF8Aux 0 s = true := by
  induction s with
  | nil => rfl
  | cons b rest ih =>
    rw [validUTF8Aux_cons, if_pos (h b (List.mem_cons_self _ _))]
    exact ih (fun x hx => h x (List.mem_cons_of_mem _ hx))

theorem isDigit_lt (b : Byte) (h : isDigit b = true) : b.toNat < 0x80 := by
  simp only [isDigit, Bool.and_eq_true, decide_eq_true_eq] at h
  omega

theorem formatNat_ascii (n : Nat) : ∀ b ∈ formatNat n, b.toNat < 0x80 := by
  intro b hb
  have h := (formatNat_spec n).2.1
  rw [List.all_eq_true] at h
  exact isDigit_lt b (h b hb)

theorem appendInt_ascii (x : Int) (w : Nat) : ∀ b ∈ appendInt x w, b.toNat < 0x80 := by
  intro b hb
  have hpad : ∀ b ∈ padDigits w (formatNat x.natAbs), b.toNat < 0x80 := by
    intro c hc
    unfold padDigits at hc
    rcases List.mem_append.mp hc with h | h
    · rw [List.eq_of_mem_replicate h]; decide
    · exact formatNat_ascii _ c h
  unfold appendInt at hb
  split at hb
  · rcases List.mem_cons.mp hb with h | h
    · rw [h]; decide
    · exact hpad b h
  · exact hpad b hb

theorem formatDate_valid (offset sec : Int) : validUTF8 (formatDate offset sec) = true := by
  apply validUTF8Aux_ascii
  intro b hb
  unfold formatDate at hb
  simp only [List.mem_append, List.mem_singleton] at hb
  rcases hb with (((h | h) | h) | h) | h
  · exact appendInt_ascii _ _ b h
  · rw [h]; decide
  · exact appendInt_ascii _ _ b h
  · rw [h]; decide
  · exact appendInt_ascii _ _ b h

/-! ## The record of a creation -/

theorem coerce_toRecord (a : Args) (id : Int) (date creator : GoString)
    (ha : a.valid = true) (hd : validUTF8 date = true) (hc : validUTF8 creator = true) :
    (a.toRecord id date creator).coerce = a.toRecord id date creator := by
  simp only [Args.valid, Bool.and_eq_true] at ha
  obtain ⟨⟨⟨⟨⟨⟨⟨⟨h1, h2⟩, h3⟩, h4⟩, h5⟩, h6⟩, h7⟩, h8⟩, h9⟩ := ha
  simp only [Transaction.coerce, Args.toRecord, toValidUTF8_of_valid _ h1,
    toValidUTF8_of_valid _ h2, toValidUTF8_of_valid _ h3, toValidUTF8_of_valid _ h4,
    toValidUTF8_of_valid _ h5, toValidUTF8_of_valid _ h6, toValidUTF8_of_valid _ h7,
    toValidUTF8_of_valid _ h8, toValidUTF8_of_valid _ h9, toValidUTF8_of_valid _ hd,
    toValidUTF8_of_valid _ hc]

/-! ## `getNextID` -/

theorem getNextID_readErr (ctx : Ctx) (s : Store) (e : String)
    (h : ctx.getStateErr idCounterKey = some e) :
    getNextID ctx s = (.error (.counterRead e), s) := by
  simp only [getNextID, GetState, h]

theorem getNextID_writeErr (ctx : Ctx) (s : Store) (e : String)
    (h1 : ctx.getStateErr idCounterKey = none)
    (h2 : ctx.putStateErr idCounterKey (Itoa (nextOf (s idCounterKey))) = some e) :
    getNextID ctx s = (.error (.counterWrite e), s) := by
  unfold nextOf at h2
  simp only [getNextID, GetState, h1, PutState, h2]

theorem getNextID_ok (ctx : Ctx) (s : Store)
    (h1 : ctx.getStateErr idCounterKey = none)
    (h2 : ctx.putStateErr idCounterKey (Itoa (nextOf (s idCounterKey))) = none) :
    getNextID ctx s =
      (.ok (nextOf (s idCounterKey)), s.put idCounterKey (Itoa (nextOf (s idCounterKey)))) := by
  unfold nextOf at h2 ⊢
  simp only [getNextID, GetState, h1, PutState, h2]

/-- The three outcomes of `getNextID`. -/
theorem getNextID_cases (ctx : Ctx) (s : Store) :
    (∃ e, ctx.getStateErr idCounterKey = some e ∧
        getNextID ctx s = (.error (.counterRead e), s)) ∨
    (∃ e, ctx.getStateErr idCounterKey = none ∧
        ctx.putStateErr idCounterKey (Itoa (nextOf (s idCounterKey))) = some e ∧
        getNextID ctx s = (.error (.counterWrite e), s)) ∨
    (ctx.getStateErr idCounterKey = none ∧
        ctx.putStateErr idCounterKey (Itoa (nextOf (s idCounterKey))) = none ∧
        getNextID ctx s =
          (.ok (nextOf (s idCounterKey)),
            s.put idCounterKey (Itoa (nextOf (s idCounterKey))))) := by
  cases h1 : ctx.getStateErr idCounterKey with
  | some e => exact Or.inl ⟨e, rfl, getNextID_readErr ctx s e h1⟩
  | none =>
    cases h2 : ctx.putStateErr idCounterKey (Itoa (nextOf (s idCounterKey))) with
    | some e => exact Or.inr (Or.inl ⟨e, rfl, rfl, getNextID_writeErr ctx s e h1 h2⟩)
    | none => exact Or.inr (Or.inr ⟨rfl, rfl, getNextID_ok ctx s h1 h2⟩)

theorem nextOf_range (c : Option GoString) : minInt ≤ nextOf c ∧ nextOf c ≤ maxInt := by
  cases c with
  | none => exact ⟨by decide, by decide⟩
  | some bs => exact wrapInt_range _

theorem nextOf_Itoa (c : Int) (hlo : minInt ≤ c) (hhi : c < maxInt) :
    nextOf (some (Itoa c)) = c + 1 := by
  have hc : c ≤ maxInt := le_of_lt hhi
  show wrapInt ((Atoi (Itoa c)).1 + 1) = c + 1
  rw [Atoi_Itoa c hlo hc]
  apply wrapInt_of_range
  · unfold minInt at hlo ⊢; omega
  · unfold maxInt at hhi ⊢; omega

/-! ## `CreateTransaction` -/

/-- The date `CreateTransaction` writes for a timestamp. -/
theorem CreateTransaction_eq (ctx : Ctx) (a : Args) (s : Store) (ts : Timestamp) (n : Int)
    (s1 : Store) (c : GoString) (hts : ctx.txTimestamp = .ok ts)
    (hid : getNextID ctx s = (.ok n, s1)) (hc : ctx.clientID = .ok c) :
    CreateTransaction ctx a s =
      match ctx.putStateErr (transactionKey n)
          (Marshal (a.toRecord n (formatDate (ctx.zoneOffset ts.Seconds) ts.Seconds) c)) with
      | some err => (.error (.host err), s1)
      | none => (.ok n, s1.put (transactionKey n)
          (Marshal (a.toRecord n (formatDate (ctx.zoneOffset ts.Seconds) ts.Seconds) c))) := by
  cases hp : ctx.putStateErr (transactionKey n)
      (Marshal (a.toRecord n (formatDate (ctx.zoneOffset ts.Seconds) ts.Seconds) c)) with
  | some err =>
    simp only [Args.toRecord] at hp
    simp only [CreateTransaction, hts, hid, hc, PutState, hp]
  | none =>
    simp only [Args.toRecord] at hp
    simp only [CreateTransaction, hts, hid, hc, PutState, hp, Args.toRecord]

/-- What a successful `CreateTransaction` did. -/
theorem CreateTransaction_ok (ctx : Ctx) (a : Args) (s : Store) (n : Int) (s' : Store)
    (h : CreateTransaction ctx a s = (.ok n, s')) :
    ∃ ts c, ctx.txTimestamp = .ok ts ∧ ctx.clientID = .ok c ∧
      ctx.getStateErr idCounterKey = none ∧
      n = nextOf (s idCounterKey) ∧
      s' = (s.put idCounterKey (Itoa n)).put (transactionKey n)
        (Marshal (a.toRecord n (formatDate (ctx.zoneOffset ts.Seconds) ts.Seconds) c)) := by
  cases hts : ctx.txTimestamp with
  | error e => simp [CreateTransaction, hts] at h
  | ok ts =>
    rcases getNextID_cases ctx s with ⟨e, _, hg⟩ | ⟨e, _, _, hg⟩ | ⟨hr, _, hg⟩
    · simp [CreateTransaction, hts, hg] at h
    · simp [CreateTransaction, hts, hg] at h
    · cases hc : ctx.clientID with
      | error e => simp [CreateTransaction, hts, hg, hc] at h
      | ok c =>
        rw [CreateTransaction_eq ctx a s ts _ _ c hts hg hc] at h
        split at h
        · simp at h
        · simp only [Prod.mk.injEq, Except.ok.injEq] at h
          obtain ⟨h1, h2⟩ := h
          refine ⟨ts, c, rfl, rfl, hr, h1.symm, ?_⟩
          rw [← h2, h1]

/-- A failed `CreateTransaction` wrote at most the counter entry. -/
theorem CreateTransaction_error (ctx : Ctx) (a : Args) (s : Store) (e : Error) (s' : Store)
    (h : CreateTransaction ctx a s = (.error e, s')) :
    s' = s ∨ s' = s.put idCounterKey (Itoa (nextOf (s idCounterKey))) := by
  cases hts : ctx.txTimestamp with
  | error e1 =>
    simp only [CreateTransaction, hts, Prod.mk.injEq] at h
    exact Or.inl h.2.symm
  | ok ts =>
    rcases getNextID_cases ctx s with ⟨e1, _, hg⟩ | ⟨e1, _, _, hg⟩ | ⟨hr, _, hg⟩
    · simp only [CreateTransaction, hts, hg, Prod.mk.injEq] at h
      exact Or.inl h.2.symm
    · simp only [CreateTransaction, hts, hg, Prod.mk.injEq] at h
      exact Or.inl h.2.symm
    · cases hc : ctx.clientID with
      | error e1 =>
        simp only [CreateTransaction, hts, hg, hc, Prod.mk.injEq] at h
        exact Or.inr h.2.symm
      | ok c =>
        rw [CreateTransaction_eq ctx a s ts _ _ c hts hg hc] at h
        split at h
        · simp only [Prod.mk.injEq] at h
          exact Or.inr h.2.symm
        · simp at h

/-! ## `GetTransaction` and `DeleteTransaction` -/

theorem GetTransaction_eq (ctx : Ctx) (id : Int) (s : Store)
    (h : ctx.getStateErr (transactionKey id) = none) :
    GetTransaction ctx id s =
      match s (transactionKey id) with
      | none => .error (.notFound id)
      | some bs =>
        match Unmarshal bs with
        | none => .error .unmarshal
        | some t => .ok t := by
  simp only [GetTransaction, GetState, h]
  cases s (transactionKey id) <;> rfl

/-- A successful read found bytes that decode to the record. -/
theorem GetTransaction_ok (ctx : Ctx) (id : Int) (s : Store) (t : Transaction)
    (h : GetTransaction ctx id s = .ok t) :
    ctx.getStateErr (transactionKey id) = none ∧
      ∃ bs, s (transactionKey id) = some bs ∧ Unmarshal bs = some t := by
  cases hg : ctx.getStateErr (transactionKey id) with
  | some e => simp [GetTransaction, GetState, hg] at h
  | none =>
    rw [GetTransaction_eq ctx id s hg] at h
    refine ⟨rfl, ?_⟩
    cases hs : s (transactionKey id) with
    | none => simp [hs] at h
    | some bs =>
      simp only [hs] at h
      cases hu : Unmarshal bs with
      | none => simp [hu] at h
      | some t' =>
        simp only [hu, Except.ok.injEq] at h
        exact ⟨bs, rfl, by rw [hu, h]⟩

/-- The outcome of `GetTransaction` depends on the state only through the
entry of the record key. -/
theorem GetTransaction_congr (ctx : Ctx) (id : Int) (s s' : Store)
    (h : s' (transactionKey id) = s (transactionKey id)) :
    GetTransaction ctx id s' = GetTransaction ctx id s := by
  simp only [GetTransaction, GetState, h]

/-- The state `DeleteTransaction` leaves: the given one, or the given one
without the record key when it succeeds. -/
theorem DeleteTransaction_cases (ctx : Ctx) (id : Int) (s : Store) :
    (∃ e, DeleteTransaction ctx id s = (.error e, s)) ∨
    ((∃ t, GetTransaction ctx id s = .ok t ∧ ctx.clientID = .ok t.CreatedBy) ∧
      ctx.delStateErr (transactionKey id) = none ∧
      DeleteTransaction ctx id s = (.ok (), s.del (transactionKey id))) := by
  unfold DeleteTransaction
  cases hg : GetTransaction ctx id s with
  | error e => exact Or.inl ⟨e, rfl⟩
  | ok t =>
    simp only
    cases hc : ctx.clientID with
    | error e => exact Or.inl ⟨_, rfl⟩
    | ok c =>
      simp only
      by_cases hne : t.CreatedBy ≠ c
      · rw [if_pos hne]
        exact Or.inl ⟨_, rfl⟩
      · rw [if_neg hne]
        simp only [DelState]
        cases hd : ctx.delStateErr (transactionKey id) with
        | some e => exact Or.inl ⟨_, rfl⟩
        | none =>
          refine Or.inr ⟨⟨t, rfl, ?_⟩, rfl, rfl⟩
          rw [not_not.mp hne]

/-- Reading a record just written by `CreateTransaction`. -/
theorem GetTransaction_put_Marshal (ctx : Ctx) (id : Int) (s : Store) (t : Transaction)
    (hg : ctx.getStateErr (transactionKey id) = none)
    (hs : s (transactionKey id) = some (Marshal t))
    (hlo : minInt ≤ t.ID) (hhi : t.ID ≤ maxInt) :
    GetTransaction ctx id s = .ok t.coerce := by
  rw [GetTransaction_eq ctx id s hg, hs]
  simp only [Unmarshal_Marshal t hlo hhi]

/-! ## Creation followed by a read -/

/-- Reading the record of a successful creation gives the record back, up to
the replacement of invalid bytes in the arguments. -/
theorem GetTransaction_after_create (ctx ctx' : Ctx) (a : Args) (s s' : Store) (n : Int)
    (ts : Timestamp) (c : GoString) (hts : ctx.txTimestamp = .ok ts)
    (hc : ctx.clientID = .ok c) (hcreate : CreateTransaction ctx a s = (.ok n, s'))
    (hread : ctx'.getStateErr (transactionKey n) = none) :
    GetTransaction ctx' n s' =
      .ok (a.toRecord n (formatDate (ctx.zoneOffset ts.Seconds) ts.Seconds) c).coerce := by
  obtain ⟨ts', c', hts', hc', _, hn, hs'⟩ := CreateTransaction_ok ctx a s n s' hcreate
  rw [hts] at hts'
  rw [hc] at hc'
  cases hts'
  cases hc'
  have hrange := nextOf_range (s idCounterKey)
  rw [← hn] at hrange
  apply GetTransaction_put_Marshal ctx' n s' _ hread
  · rw [hs', Store.put_same]
  · exact hrange.1
  · exact hrange.2

theorem sample_create : CreateTransaction alice sampleArgs Store.empty = (.ok 1, storeOne) := rfl

theorem sample_get (ctx : Ctx) (h : ctx.getStateErr (transactionKey 1) = none) :
    GetTransaction ctx 1 storeOne = .ok (sampleArgs.toRecord 1 (ascii "2023-11-14") aliceID) := by
  have := GetTransaction_after_create alice ctx sampleArgs Store.empty storeOne 1
    ⟨1700000000, 0⟩ aliceID rfl rfl sample_create h
  rw [this, coerce_toRecord _ _ _ _ (by decide) (formatDate_valid _ _) (by decide)]
  rfl

/-! ## Deletion -/

/-- A deletion by a caller other than the creator. -/
theorem DeleteTransaction_notCreator (ctx : Ctx) (id : Int) (s : Store) (t : Transaction)
    (c : GoString) (hrec : GetTransaction ctx id s = .ok t) (hc : ctx.clientID = .ok c)
    (hne : t.CreatedBy ≠ c) : DeleteTransaction ctx id s = (.error .notCreator, s) := by
  simp only [DeleteTransaction, hrec, hc, hne, ne_eq, not_false_eq_true, if_true]

theorem run_cons (ctx : Ctx) (op : Op) (rest : Trace) (s : Store) :
    run ((ctx, op) :: rest) s = run rest (invoke ctx op s).2 := rfl

theorem createCount_cons (ctx : Ctx) (op : Op) (rest : Trace) (s : Store) :
    createCount ((ctx, op) :: rest) s =
      (match (invoke ctx op s).1 with
        | .created _ => 1
        | _ => 0) + createCount rest (invoke ctx op s).2 := rfl

/-- What one committed invocation does to the state: nothing (a read, or a
failure), or the two writes of a creation, or the removal of a deletion. -/
theorem invoke_cases (ctx : Ctx) (op : Op) (s : Store) :
    ((∃ r, invoke ctx op s = (r, s) ∧ (∀ n, r ≠ .created n) ∧ r ≠ .deleted)) ∨
    (∃ a t, op = .create a ∧ t.ID = nextOf (s idCounterKey) ∧
      invoke ctx op s = (.created (nextOf (s idCounterKey)),
        (s.put idCounterKey (Itoa (nextOf (s idCounterKey)))).put
          (transactionKey (nextOf (s idCounterKey))) (Marshal t))) ∨
    (∃ id, op = .delete id ∧ invoke ctx op s = (.deleted, s.del (transactionKey id))) := by
  cases op with
  | create a =>
    cases h : CreateTransaction ctx a s with
    | mk r s' =>
      cases r with
      | error e =>
        refine Or.inl ⟨.failed e, ?_, (by intro n hn; cases hn), (by intro hn; cases hn)⟩
        simp only [invoke, h]
      | ok n =>
        obtain ⟨ts, c, _, _, _, hn, hs'⟩ := CreateTransaction_ok ctx a s n s' h
        refine Or.inr (Or.inl ⟨a, a.toRecord n (formatDate (ctx.zoneOffset ts.Seconds)
          ts.Seconds) c, rfl, hn, ?_⟩)
        simp only [invoke, h]
        rw [hs', ← hn]
  | get id =>
    cases h : GetTransaction ctx id s with
    | error e =>
      refine Or.inl ⟨.failed e, ?_, (by intro n hn; cases hn), (by intro hn; cases hn)⟩
      simp only [invoke, h]
    | ok t =>
      refine Or.inl ⟨.found t, ?_, (by intro n hn; cases hn), (by intro hn; cases hn)⟩
      simp only [invoke, h]
  | delete id =>
    rcases DeleteTransaction_cases ctx id s with ⟨e, h⟩ | ⟨_, _, h⟩
    · refine Or.inl ⟨.failed e, ?_, (by intro n hn; cases hn), (by intro hn; cases hn)⟩
      simp only [invoke, h]
    · refine Or.inr (Or.inr ⟨id, rfl, ?_⟩)
      simp only [invoke, h]

theorem createCount_le_length (tr : Trace) : ∀ s : Store, createCount tr s ≤ tr.length := by
  induction tr with
  | nil => intro s; exact Nat.le_refl 0
  | cons x rest ih =>
    obtain ⟨ctx, op⟩ := x
    intro s
    rw [createCount_cons, List.length_cons]
    have := ih (invoke ctx op s).2
    cases (invoke ctx op s).1 <;> simp only <;> omega

/-! ## The counter along an execution -/

theorem wrapInt_succ (j : Nat) :
    wrapInt (wrapInt (j : Int) + 1) = wrapInt ((j + 1 : Nat) : Int) := by
  unfold wrapInt
  push_cast
  omega

theorem wrapInt_small (j : Nat) (h : j < 9223372036854775808) : wrapInt (j : Int) = (j : Int) := by
  unfold wrapInt
  omega

/-- Within 2^64 consecutive creations no id comes twice. -/
theorem wrapInt_fresh (j c : Nat) (h1 : 1 ≤ j) (h2 : j ≤ c) (h3 : c < 18446744073709551616) :
    wrapInt (j : Int) ≠ wrapInt ((c + 1 : Nat) : Int) := by
  unfold wrapInt
  push_cast
  omega

theorem CounterIs_next (s : Store) (c : Nat) (h : CounterIs s c) :
    nextOf (s idCounterKey) = wrapInt ((c + 1 : Nat) : Int) := by
  rcases h.1 with ⟨h0, hs⟩ | ⟨_, hs⟩
  · rw [hs, h0]; rfl
  · rw [hs]
    show wrapInt ((Atoi (Itoa (wrapInt (c : Int)))).1 + 1) = _
    rw [Atoi_Itoa _ (wrapInt_range _).1 (wrapInt_range _).2]
    exact wrapInt_succ c

theorem CounterIs_create (s : Store) (c : Nat) (h : CounterIs s c) (v : GoString) :
    CounterIs ((s.put idCounterKey (Itoa (wrapInt ((c + 1 : Nat) : Int)))).put
      (transactionKey (wrapInt ((c + 1 : Nat) : Int))) v) (c + 1) := by
  constructor
  · right
    refine ⟨by omega, ?_⟩
    rw [Store.put_other _ _ _ _ (fun hk => transactionKey_ne_counter _ hk.symm),
      Store.put_same]
  · intro id hid
    by_cases e : id = wrapInt ((c + 1 : Nat) : Int)
    · exact ⟨c + 1, by omega, le_refl _, e⟩
    · have hk : transactionKey id ≠ transactionKey (wrapInt ((c + 1 : Nat) : Int)) :=
        fun hk => e (transactionKey_injective _ _ hk)
      rw [Store.put_other _ _ _ _ hk,
        Store.put_other _ _ _ _ (transactionKey_ne_counter id)] at hid
      obtain ⟨j, hj1, hj2, hj3⟩ := h.2 id hid
      exact ⟨j, hj1, by omega, hj3⟩

theorem CounterIs_delete (s : Store) (c : Nat) (h : CounterIs s c) (id : Int) :
    CounterIs (s.del (transactionKey id)) c := by
  constructor
  · rw [Store.del_other _ _ _ (fun hk => transactionKey_ne_counter _ hk.symm)]
    exact h.1
  · intro j hj
    by_cases e : transactionKey j = transactionKey id
    · rw [e, Store.del_same] at hj
      exact absurd rfl hj
    · rw [Store.del_other _ _ _ e] at hj
      exact h.2 j hj

/-- The counter entry follows the number of successful creations. -/
theorem CounterIs_run (tr : Trace) : ∀ (s : Store) (c : Nat), CounterIs s c →
    CounterIs (run tr s) (c + createCount tr s) := by
  induction tr with
  | nil => intro s c h; exact h
  | cons x rest ih =>
    obtain ⟨ctx, op⟩ := x
    intro s c h
    rw [run_cons, createCount_cons]
    rcases invoke_cases ctx op s with ⟨r, hr, hn, _⟩ | ⟨a, t, _, _, hr⟩ | ⟨id, _, hr⟩
    · rw [hr]
      have h0 : (match r with | .created _ => 1 | _ => 0) = 0 := by
        cases r with
        | created n => exact absurd rfl (hn n)
        | _ => rfl
      simp only [h0, Nat.zero_add]
      exact ih s c h
    · rw [hr]
      simp only
      rw [CounterIs_next s c h]
      have := ih _ (c + 1) (CounterIs_create s c h (Marshal t))
      have e : c + (1 + createCount rest
          ((s.put idCounterKey (Itoa (wrapInt ((c + 1 : Nat) : Int)))).put
          (transactionKey (wrapInt ((c + 1 : Nat) : Int))) (Marshal t))) =
          c + 1 + createCount rest
          ((s.put idCounterKey (Itoa (wrapInt ((c + 1 : Nat) : Int)))).put
          (transactionKey (wrapInt ((c + 1 : Nat) : Int))) (Marshal t)) := by omega
      rw [e]
      exact this
    · rw [hr]
      simp only [Nat.zero_add]
      exact ih _ c (CounterIs_delete s c h id)

theorem CounterIs_empty : CounterIs Store.empty 0 :=
  ⟨Or.inl ⟨rfl, rfl⟩, fun _ h => absurd rfl h⟩

/-! ## The record keys along an execution -/

/-- The id and the counter entry of a creation in a state whose counter
follows `c` successful creations. -/
theorem created_after (ctx : Ctx) (a : Args) (s s' : Store) (c : Nat) (n : Int)
    (h : CounterIs s c) (hcreate : invoke ctx (.create a) s = (.created n, s')) :
    n = wrapInt ((c + 1 : Nat) : Int) ∧ s' idCounterKey = some (Itoa n) ∧
      ∀ k, k ≠ idCounterKey → k ≠ transactionKey n → s' k = s k := by
  rcases invoke_cases ctx (.create a) s with ⟨r, hr, hn, _⟩ | ⟨a', t, _, _, hr⟩ | ⟨id, hop, _⟩
  · rw [hr] at hcreate
    simp only [Prod.mk.injEq] at hcreate
    exact absurd hcreate.1 (hn n)
  · rw [hr] at hcreate
    simp only [Prod.mk.injEq, Response.created.injEq] at hcreate
    obtain ⟨h1, h2⟩ := hcreate
    rw [CounterIs_next s c h] at h1
    refine ⟨h1.symm, ?_, ?_⟩
    · rw [← h2, Store.put_other _ _ _ _ (fun hk => transactionKey_ne_counter _ hk.symm),
        Store.put_same, CounterIs_next s c h, h1]
    · intro k hk1 hk2
      rw [← h2, CounterIs_next s c h, h1, Store.put_other _ _ _ _ hk2,
        Store.put_other _ _ _ _ hk1]
  · cases hop

/-! ## Beyond the largest machine integer -/

theorem hostOK_create (who : GoString) (hw : validUTF8 who = true) (seconds : Int) (a : Args)
    (s : Store) :
    invoke (hostOK who hw seconds) (.create a) s =
      (.created (nextOf (s idCounterKey)),
        (s.put idCounterKey (Itoa (nextOf (s idCounterKey)))).put
          (transactionKey (nextOf (s idCounterKey)))
          (Marshal (a.toRecord (nextOf (s idCounterKey)) (formatDate 0 seconds) who))) := by
  rcases invoke_cases (hostOK who hw seconds) (.create a) s with
    ⟨r, hr, hn, _⟩ | ⟨a', t, _, _, hr⟩ | ⟨id, hop, _⟩
  · exfalso
    have h1 : (invoke (hostOK who hw seconds) (.create a) s).1 =
        .created (nextOf (s idCounterKey)) := rfl
    rw [hr] at h1
    exact hn _ h1
  · rfl
  · cases hop

theorem alice_create (s : Store) :
    invoke alice (.create sampleArgs) s =
      (.created (nextOf (s idCounterKey)),
        (s.put idCounterKey (Itoa (nextOf (s idCounterKey)))).put
          (transactionKey (nextOf (s idCounterKey)))
          (Marshal (sampleArgs.toRecord (nextOf (s idCounterKey)) (formatDate 0 1700000000)
            aliceID))) := by
  rcases invoke_cases alice (.create sampleArgs) s with ⟨r, hr, hn, _⟩ | ⟨a', t, _, _, hr⟩ | ⟨id, hop, _⟩
  · exfalso
    have h1 : (invoke alice (.create sampleArgs) s).1 = .created (nextOf (s idCounterKey)) := rfl
    rw [hr] at h1
    exact hn _ h1
  · rfl
  · cases hop

theorem manyCreates_succ (m : Nat) :
    manyCreates (m + 1) = (alice, Op.create sampleArgs) :: manyCreates m := rfl

theorem createCount_manyCreates (m : Nat) : ∀ s : Store, createCount (manyCreates m) s = m := by
  induction m with
  | zero => intro s; rfl
  | succ m ih =>
    intro s
    rw [manyCreates_succ, createCount_cons, alice_create, ih]
    simp only
    omega

theorem wrapInt_ne_one (j : Nat) (h1 : 1 ≤ j) (h2 : j + 1 ≤ 18446744073709551616) :
    wrapInt ((j + 1 : Nat) : Int) ≠ 1 := by
  unfold wrapInt
  push_cast
  omega

/-- While the first caller keeps recording the sample sale, up to 2^64 times,
the counter entry follows the wrapped count and the record of id 1 stays. -/
theorem wrap_run (m : Nat) : ∀ (s : Store) (j : Nat), 1 ≤ j → j + m ≤ 18446744073709551616 →
    s idCounterKey = some (Itoa (wrapInt (j : Int))) →
    s (transactionKey 1) =
      some (Marshal (sampleArgs.toRecord 1 (formatDate 0 1700000000) aliceID)) →
    run (manyCreates m) s idCounterKey = some (Itoa (wrapInt ((j + m : Nat) : Int))) ∧
      run (manyCreates m) s (transactionKey 1) =
        some (Marshal (sampleArgs.toRecord 1 (formatDate 0 1700000000) aliceID)) := by
  induction m with
  | zero => intro s j _ _ h1 h2; exact ⟨h1, h2⟩
  | succ m ih =>
    intro s j hj hb h1 h2
    have hnext : nextOf (s idCounterKey) = wrapInt ((j + 1 : Nat) : Int) := by
      rw [h1]
      show wrapInt ((Atoi (Itoa (wrapInt (j : Int)))).1 + 1) = _
      rw [Atoi_Itoa _ (wrapInt_range _).1 (wrapInt_range _).2]
      exact wrapInt_succ j
    have hne : transactionKey 1 ≠ transactionKey (wrapInt ((j + 1 : Nat) : Int)) :=
      fun hk => wrapInt_ne_one j hj (by omega) (transactionKey_injective _ _ hk).symm
    rw [manyCreates_succ, run_cons, alice_create, hnext]
    have := ih ((s.put idCounterKey (Itoa (wrapInt ((j + 1 : Nat) : Int)))).put
        (transactionKey (wrapInt ((j + 1 : Nat) : Int)))
        (Marshal (sampleArgs.toRecord (wrapInt ((j + 1 : Nat) : Int))
          (formatDate 0 1700000000) aliceID))) (j + 1) (by omega) (by omega)
      (by rw [Store.put_other _ _ _ _ (fun hk => transactionKey_ne_counter _ hk.symm),
            Store.put_same])
      (by rw [Store.put_other _ _ _ _ hne,
            Store.put_other _ _ _ _ (transactionKey_ne_counter 1), h2])
    have e : j + (m + 1) = j + 1 + m := by omega
    rw [e]
    exact this

theorem storeOne_counter : storeOne idCounterKey = some (Itoa (wrapInt ((1 : Nat) : Int))) := by
  decide

theorem storeOne_record : storeOne (transactionKey 1) =
    some (Marshal (sampleArgs.toRecord 1 (formatDate 0 1700000000) aliceID)) := rfl

theorem run_manyCreates_succ (m : Nat) :
    run (manyCreates (m + 1)) Store.empty = run (manyCreates m) storeOne := rfl

/-! ## The calendar -/

theorem yearLength (y : Int) :
    daysBeforeYear (y + 1) - daysBeforeYear y = if isLeap y = true then 366 else 365 := by
  unfold daysBeforeYear isLeap
  by_cases h4 : y % 4 = 0 <;> by_cases h100 : y % 100 = 0 <;> by_cases h400 : y % 400 = 0 <;>
    simp [h4, h100, h400] <;> omega

/-- The cycle arithmetic of `absDate`: the year and the day of the year found
by cutting off cycles of 400, 100, 4 and 1 years. -/
theorem cycles_spec (d0 n400 d1 n100 d2 n4 d3 n1 yday : Nat) (year : Int)
    (e400 : n400 = d0 / 146097) (e1 : d1 = d0 - 146097 * n400)
    (e100 : n100 = d1 / 36524 - d1 / 36524 / 4) (e2 : d2 = d1 - 36524 * n100)
    (e4 : n4 = d2 / 1461) (e3 : d3 = d2 - 1461 * n4)
    (en1 : n1 = d3 / 365 - d3 / 365 / 4) (ey : yday = d3 - 365 * n1)
    (eyear : year = ((400 * n400 + 100 * n100 + 4 * n4 + n1 : Nat) : Int) + (-292277022399)) :
    (yday : Int) < (if isLeap year = true then 366 else 365) ∧
      daysBeforeYear year + yday = (d0 : Int) - 106751990353932 ∧
      (106751990353566 ≤ d0 → 0 ≤ year) ∧ (d0 < 106751994005991 → year ≤ 9999) := by
  have hn100 : n100 ≤ 3 := by omega
  have hd0 : d0 = 146097 * n400 + d1 := by omega
  have hd1 : d1 = 36524 * n100 + d2 := by omega
  have hd2 : d2 ≤ 36523 ∨ (n100 = 3 ∧ d2 = 36524) := by omega
  have hn4 : n4 ≤ 24 := by omega
  have hd2' : d2 = 1461 * n4 + d3 := by omega
  have hd3 : d3 ≤ 1460 := by omega
  have hn1 : n1 ≤ 3 := by omega
  have hd3' : d3 = 365 * n1 + yday := by omega
  have hyd : yday ≤ 364 ∨ (n1 = 3 ∧ yday = 365) := by omega
  clear e400 e1 e100 e2 e4 e3 en1 ey
  have hleap : isLeap year = true ↔ (n1 = 3 ∧ (n4 ≠ 24 ∨ n100 = 3)) := by
    have h4 : year % 4 = 0 ↔ n1 = 3 := by omega
    have h100 : year % 100 = 0 ↔ (n4 = 24 ∧ n1 = 3) := by omega
    have h400 : year % 400 = 0 ↔ (n100 = 3 ∧ n4 = 24 ∧ n1 = 3) := by omega
    unfold isLeap
    simp only [Bool.and_eq_true, Bool.or_eq_true, decide_eq_true_eq, ne_eq,
      decide_not, Bool.not_eq_true', decide_eq_false_iff_not, h4, h100, h400]
    constructor
    · rintro ⟨h, h' | h'⟩
      · exact ⟨h, by omega⟩
      · exact ⟨h, Or.inr h'.1⟩
    · rintro ⟨h, h'⟩
      refine ⟨h, ?_⟩
      by_cases e : n4 = 24
      · right
        exact ⟨by omega, e, h⟩
      · left
        omega
  refine ⟨?_, ?_⟩
  · by_cases hl : isLeap year = true
    · rw [if_pos hl]
      omega
    · rw [if_neg hl]
      have := hleap.not.mp hl
      omega
  refine ⟨?_, ?_, ?_⟩
  · unfold daysBeforeYear
    omega
  · intro hlo
    omega
  · intro hhi
    omega

theorem daysBefore_table :
    daysBefore.getD 0 0 = 0 ∧ daysBefore.getD 1 0 = 31 ∧ daysBefore.getD 2 0 = 59 ∧
      daysBefore.getD 3 0 = 90 ∧ daysBefore.getD 4 0 = 120 ∧ daysBefore.getD 5 0 = 151 ∧
      daysBefore.getD 6 0 = 181 ∧ daysBefore.getD 7 0 = 212 ∧ daysBefore.getD 8 0 = 243 ∧
      daysBefore.getD 9 0 = 273 ∧ daysBefore.getD 10 0 = 304 ∧ daysBefore.getD 11 0 = 334 ∧
      daysBefore.getD 12 0 = 365 :=
  ⟨rfl, rfl, rfl, rfl, rfl, rfl, rfl, rfl, rfl, rfl, rfl, rfl, rfl⟩

/-- The month and day `monthDay` gives once the day left after the leap day
is known, by the month guessed from 31-day months. -/
theorem monthDay_guess (L day yday : Nat) (hL : L ≤ 1) (hday : day < 365)
    (hrel : (L = 1 ∧ 59 < yday ∧ day + 1 = yday) ∨ ((L = 0 ∨ yday < 59) ∧ day = yday)) :
    ∀ md : Nat × Nat,
      md = (if daysBefore.getD (day / 31 + 1) 0 ≤ day then
          (day / 31 + 2, day - daysBefore.getD (day / 31 + 1) 0 + 1)
        else (day / 31 + 1, day - daysBefore.getD (day / 31) 0 + 1)) →
      1 ≤ md.2 ∧
        ((md.1 = 1 ∧ md.2 ≤ 31 ∧ md.2 = yday + 1) ∨
         (md.1 = 2 ∧ md.2 ≤ 28 + L ∧ 31 + md.2 = yday + 1) ∨
         (md.1 = 3 ∧ md.2 ≤ 31 ∧ 59 + L + md.2 = yday + 1) ∨
         (md.1 = 4 ∧ md.2 ≤ 30 ∧ 90 + L + md.2 = yday + 1) ∨
         (md.1 = 5 ∧ md.2 ≤ 31 ∧ 120 + L + md.2 = yday + 1) ∨
         (md.1 = 6 ∧ md.2 ≤ 30 ∧ 151 + L + md.2 = yday + 1) ∨
         (md.1 = 7 ∧ md.2 ≤ 31 ∧ 181 + L + md.2 = yday + 1) ∨
         (md.1 = 8 ∧ md.2 ≤ 31 ∧ 212 + L + md.2 = yday + 1) ∨
         (md.1 = 9 ∧ md.2 ≤ 30 ∧ 243 + L + md.2 = yday + 1) ∨
         (md.1 = 10 ∧ md.2 ≤ 31 ∧ 273 + L + md.2 = yday + 1) ∨
         (md.1 = 11 ∧ md.2 ≤ 30 ∧ 304 + L + md.2 = yday + 1) ∨
         (md.1 = 12 ∧ md.2 ≤ 31 ∧ 334 + L + md.2 = yday + 1)) := by
  intro md hmd
  have hm : day / 31 < 12 := by omega
  generalize hmonth : day / 31 = month at hm hmd
  obtain ⟨m, d⟩ := md
  have hcases : month = 0 ∨ month = 1 ∨ month = 2 ∨ month = 3 ∨ month = 4 ∨ month = 5 ∨
      month = 6 ∨ month = 7 ∨ month = 8 ∨ month = 9 ∨ month = 10 ∨ month = 11 := by omega
  clear hm
  rcases hcases with e | e | e | e | e | e | e | e | e | e | e | e <;> subst e <;>
    simp only [Nat.reduceAdd, daysBefore_table] at hmd <;>
    split_ifs at hmd <;>
    simp only [Prod.mk.injEq] at hmd <;>
    obtain ⟨rfl, hd⟩ := hmd <;>
    simp only [Nat.reduceEqDiff, false_and, true_and, false_or, or_false] <;>
    omega

/-- The month and day that `monthDay` gives for the day `yday` of a year with
`365 + L` days. -/
theorem monthDay_table (leap : Bool) (L yday : Nat) (hL : L ≤ 1) (hLt : leap = true ↔ L = 1)
    (h : yday < 365 + L) :
    1 ≤ (monthDay leap yday).2 ∧
      (((monthDay leap yday).1 = 1 ∧ (monthDay leap yday).2 ≤ 31 ∧
          (monthDay leap yday).2 = yday + 1) ∨
       ((monthDay leap yday).1 = 2 ∧ (monthDay leap yday).2 ≤ 28 + L ∧
          31 + (monthDay leap yday).2 = yday + 1) ∨
       ((monthDay leap yday).1 = 3 ∧ (monthDay leap yday).2 ≤ 31 ∧
          59 + L + (monthDay leap yday).2 = yday + 1) ∨
       ((monthDay leap yday).1 = 4 ∧ (monthDay leap yday).2 ≤ 30 ∧
          90 + L + (monthDay leap yday).2 = yday + 1) ∨
       ((monthDay leap yday).1 = 5 ∧ (monthDay leap yday).2 ≤ 31 ∧
          120 + L + (monthDay leap yday).2 = yday + 1) ∨
       ((monthDay leap yday).1 = 6 ∧ (monthDay leap yday).2 ≤ 30 ∧
          151 + L + (monthDay leap yday).2 = yday + 1) ∨
       ((monthDay leap yday).1 = 7 ∧ (monthDay leap yday).2 ≤ 31 ∧
          181 + L + (monthDay leap yday).2 = yday + 1) ∨
       ((monthDay leap yday).1 = 8 ∧ (monthDay leap yday).2 ≤ 31 ∧
          212 + L + (monthDay leap yday).2 = yday + 1) ∨
       ((monthDay leap yday).1 = 9 ∧ (monthDay leap yday).2 ≤ 30 ∧
          243 + L + (monthDay leap yday).2 = yday + 1) ∨
       ((monthDay leap yday).1 = 10 ∧ (monthDay leap yday).2 ≤ 31 ∧
          273 + L + (monthDay leap yday).2 = yday + 1) ∨
       ((monthDay leap yday).1 = 11 ∧ (monthDay leap yday).2 ≤ 30 ∧
          304 + L + (monthDay leap yday).2 = yday + 1) ∨
       ((monthDay leap yday).1 = 12 ∧ (monthDay leap yday).2 ≤ 31 ∧
          334 + L + (monthDay leap yday).2 = yday + 1)) := by
  by_cases h59 : leap = true ∧ yday = 59
  · have e : monthDay leap yday = (2, 29) := by
      unfold monthDay
      rw [if_pos h59]
    have h1 := h59.2
    have h2 := hLt.mp h59.1
    rw [e]
    simp only [Nat.reduceEqDiff, false_and, true_and, false_or, or_false, Nat.reduceLeDiff]
    omega
  · generalize hday : (if leap = true ∧ 59 < yday then yday - 1 else yday) = day
    have hrel : (L = 1 ∧ 59 < yday ∧ day + 1 = yday) ∨ ((L = 0 ∨ yday < 59) ∧ day = yday) := by
      split_ifs at hday with hc
      · left
        have h1 := hLt.mp hc.1
        have h2 := hc.2
        omega
      · right
        refine ⟨?_, hday.symm⟩
        by_cases e : L = 1
        · have h1 : ¬ 59 < yday := fun h' => hc ⟨hLt.mpr e, h'⟩
          have h2 : yday ≠ 59 := fun h' => h59 ⟨hLt.mpr e, h'⟩
          omega
        · left
          omega
    have hday365 : day < 365 := by omega
    refine monthDay_guess L day yday hL hday365 hrel _ ?_
    unfold monthDay
    rw [if_neg h59]
    simp only [hday]

/-- The year: 365 days and the leap day. -/
theorem leapDays (y : Int) :
    ∃ L : Nat, L ≤ 1 ∧ (isLeap y = true ↔ L = 1) ∧
      daysBeforeYear (y + 1) - daysBeforeYear y = 365 + (L : Int) := by
  have h := yearLength y
  by_cases hl : isLeap y = true
  · rw [if_pos hl] at h
    exact ⟨1, by omega, ⟨fun _ => rfl, fun _ => hl⟩, by omega⟩
  · rw [if_neg hl] at h
    exact ⟨0, by omega, ⟨fun h' => absurd h' hl, fun h' => by omega⟩, by omega⟩

theorem calendar_table (y : Int) (L : Nat)
    (hL : daysBeforeYear (y + 1) - daysBeforeYear y = 365 + (L : Int)) :
    (daysInMonth y 1 = 31 ∧ daysInMonth y 2 = 28 + (L : Int) ∧ daysInMonth y 3 = 31 ∧
      daysInMonth y 4 = 30 ∧ daysInMonth y 5 = 31 ∧ daysInMonth y 6 = 30 ∧
      daysInMonth y 7 = 31 ∧ daysInMonth y 8 = 31 ∧ daysInMonth y 9 = 30 ∧
      daysInMonth y 10 = 31 ∧ daysInMonth y 11 = 30 ∧ daysInMonth y 12 = 31) ∧
    (monthStart y 1 = 0 ∧ monthStart y 2 = 31 ∧ monthStart y 3 = 59 + (L : Int) ∧
      monthStart y 4 = 90 + (L : Int) ∧ monthStart y 5 = 120 + (L : Int) ∧
      monthStart y 6 = 151 + (L : Int) ∧ monthStart y 7 = 181 + (L : Int) ∧
      monthStart y 8 = 212 + (L : Int) ∧ monthStart y 9 = 243 + (L : Int) ∧
      monthStart y 10 = 273 + (L : Int) ∧ monthStart y 11 = 304 + (L : Int) ∧
      monthStart y 12 = 334 + (L : Int)) := by
  have d1 : daysInMonth y 1 = 31 := rfl
  have d2 : daysInMonth y 2 = 28 + (L : Int) := by
    show 28 + (daysBeforeYear (y + 1) - daysBeforeYear y - 365) = 28 + (L : Int)
    omega
  have d3 : daysInMonth y 3 = 31 := rfl
  have d4 : daysInMonth y 4 = 30 := rfl
  have d5 : daysInMonth y 5 = 31 := rfl
  have d6 : daysInMonth y 6 = 30 := rfl
  have d7 : daysInMonth y 7 = 31 := rfl
  have d8 : daysInMonth y 8 = 31 := rfl
  have d9 : daysInMonth y 9 = 30 := rfl
  have d10 : daysInMonth y 10 = 31 := rfl
  have d11 : daysInMonth y 11 = 30 := rfl
  have d12 : daysInMonth y 12 = 31 := rfl
  have step : ∀ m : Nat, monthStart y (m + 2) = monthStart y (m + 1) + daysInMonth y (m + 1) :=
    fun m => rfl
  have t1 : monthStart y 1 = 0 := rfl
  have t2 : monthStart y 2 = 31 := by rw [step 0, t1, d1]; rfl
  have t3 : monthStart y 3 = 59 + (L : Int) := by rw [step 1, t2, d2]; omega
  have t4 : monthStart y 4 = 90 + (L : Int) := by rw [step 2, t3, d3]; omega
  have t5 : monthStart y 5 = 120 + (L : Int) := by rw [step 3, t4, d4]; omega
  have t6 : monthStart y 6 = 151 + (L : Int) := by rw [step 4, t5, d5]; omega
  have t7 : monthStart y 7 = 181 + (L : Int) := by rw [step 5, t6, d6]; omega
  have t8 : monthStart y 8 = 212 + (L : Int) := by rw [step 6, t7, d7]; omega
  have t9 : monthStart y 9 = 243 + (L : Int) := by rw [step 7, t8, d8]; omega
  have t10 : monthStart y 10 = 273 + (L : Int) := by rw [step 8, t9, d9]; omega
  have t11 : monthStart y 11 = 304 + (L : Int) := by rw [step 9, t10, d10]; omega
  have t12 : monthStart y 12 = 334 + (L : Int) := by rw [step 10, t11, d11]; omega
  exact ⟨⟨d1, d2, d3, d4, d5, d6, d7, d8, d9, d10, d11, d12⟩,
    ⟨t1, t2, t3, t4, t5, t6, t7, t8, t9, t10, t11, t12⟩⟩

/-- The month and day of `monthDay` are those of the calendar: a day of the
month that the month has, at the distance `yday` from 1 January. -/
theorem monthDay_spec (y : Int) (yday : Nat)
    (h : (yday : Int) < daysBeforeYear (y + 1) - daysBeforeYear y) :
    1 ≤ (monthDay (isLeap y) yday).1 ∧ (monthDay (isLeap y) yday).1 ≤ 12 ∧
      1 ≤ (monthDay (isLeap y) yday).2 ∧
      ((monthDay (isLeap y) yday).2 : Int) ≤ daysInMonth y (monthDay (isLeap y) yday).1 ∧
      monthStart y (monthDay (isLeap y) yday).1 + ((monthDay (isLeap y) yday).2 : Int) - 1 =
        (yday : Int) := by
  obtain ⟨L, hL, hLt, hlen⟩ := leapDays y
  obtain ⟨hdim, hstart⟩ := calendar_table y L hlen
  have hy : yday < 365 + L := by omega
  obtain ⟨hd, hcase⟩ := monthDay_table (isLeap y) L yday hL hLt hy
  clear hLt hlen h
  generalize monthDay (isLeap y) yday = md at hd hcase ⊢
  obtain ⟨m, d⟩ := md
  simp only at hd hcase ⊢
  rcases hcase with ⟨rfl, h1, h2⟩ | ⟨rfl, h1, h2⟩ | ⟨rfl, h1, h2⟩ | ⟨rfl, h1, h2⟩ |
    ⟨rfl, h1, h2⟩ | ⟨rfl, h1, h2⟩ | ⟨rfl, h1, h2⟩ | ⟨rfl, h1, h2⟩ | ⟨rfl, h1, h2⟩ |
    ⟨rfl, h1, h2⟩ | ⟨rfl, h1, h2⟩ | ⟨rfl, h1, h2⟩ <;>
    simp only [hdim, hstart] <;> clear hdim hstart <;> omega

/-! ## The rendering of small numbers -/

theorem natDigitsAux_succ (fuel n : Nat) (acc : GoString) :
    natDigitsAux (fuel + 1) n acc =
      if n < 10 then digitChar n :: acc
      else natDigitsAux fuel (n / 10) (digitChar (n % 10) :: acc) := rfl

theorem formatNat_one (n : Nat) (h : n < 10) : formatNat n = [digitChar n] := by
  unfold formatNat
  rw [natDigitsAux_succ, if_pos h]

theorem formatNat_two (n : Nat) (h1 : 10 ≤ n) (h2 : n < 100) :
    formatNat n = [digitChar (n / 10), digitChar (n % 10)] := by
  obtain ⟨k, rfl⟩ : ∃ k, n = k + 1 := ⟨n - 1, by omega⟩
  unfold formatNat
  rw [natDigitsAux_succ, if_neg (by omega), natDigitsAux_succ, if_pos (by omega)]

theorem formatNat_three (n : Nat) (h1 : 100 ≤ n) (h2 : n < 1000) :
    formatNat n = [digitChar (n / 10 / 10), digitChar (n / 10 % 10), digitChar (n % 10)] := by
  obtain ⟨k, rfl⟩ : ∃ k, n = k + 2 := ⟨n - 2, by omega⟩
  unfold formatNat
  rw [natDigitsAux_succ, if_neg (by omega), natDigitsAux_succ, if_neg (by omega),
    natDigitsAux_succ, if_pos (by omega)]

theorem formatNat_four (n : Nat) (h1 : 1000 ≤ n) (h2 : n < 10000) :
    formatNat n = [digitChar (n / 10 / 10 / 10), digitChar (n / 10 / 10 % 10),
      digitChar (n / 10 % 10), digitChar (n % 10)] := by
  obtain ⟨k, rfl⟩ : ∃ k, n = k + 3 := ⟨n - 3, by omega⟩
  unfold formatNat
  rw [natDigitsAux_succ, if_neg (by omega), natDigitsAux_succ, if_neg (by omega),
    natDigitsAux_succ, if_neg (by omega), natDigitsAux_succ, if_pos (by omega)]

theorem appendInt_natCast (n width : Nat) :
    appendInt (n : Int) width = padDigits width (formatNat n) := by
  unfold appendInt
  rw [if_neg (by omega), Int.natAbs_ofNat]

/-- Two digits for a number below 100. -/
theorem appendInt_two (n : Nat) (h : n < 100) :
    appendInt (n : Int) 2 = [digitChar (n / 10 % 10), digitChar (n % 10)] := by
  rw [appendInt_natCast]
  by_cases h1 : n < 10
  · have e0 : n / 10 % 10 = 0 := by omega
    have e3 : n % 10 = n := by omega
    rw [formatNat_one n h1, e0, e3]
    rfl
  · have e1 : n / 10 % 10 = n / 10 := by omega
    rw [formatNat_two n (by omega) h, e1]
    rfl

/-- Four digits for a number below 10000. -/
theorem appendInt_four (n : Nat) (h : n < 10000) :
    appendInt (n : Int) 4 = [digitChar (n / 1000 % 10), digitChar (n / 100 % 10),
      digitChar (n / 10 % 10), digitChar (n % 10)] := by
  rw [appendInt_natCast]
  by_cases h1 : n < 10
  · have e0 : n / 1000 % 10 = 0 := by omega
    have e1 : n / 100 % 10 = 0 := by omega
    have e2 : n / 10 % 10 = 0 := by omega
    have e3 : n % 10 = n := by omega
    rw [formatNat_one n h1, e0, e1, e2, e3]
    rfl
  · by_cases h2 : n < 100
    · have e0 : n / 1000 % 10 = 0 := by omega
      have e1 : n / 100 % 10 = 0 := by omega
      have e2 : n / 10 % 10 = n / 10 := by omega
      rw [formatNat_two n (by omega) h2, e0, e1, e2]
      rfl
    · by_cases h3 : n < 1000
      · have e0 : n / 1000 % 10 = 0 := by omega
        have e1 : n / 100 % 10 = n / 10 / 10 := by omega
        rw [formatNat_three n (by omega) h3, e0, e1]
        rfl
      · have e0 : n / 1000 % 10 = n / 10 / 10 / 10 := by omega
        have e1 : n / 100 % 10 = n / 10 / 10 % 10 := by omega
        rw [formatNat_four n (by omega) h, e0, e1]
        rfl

/-! ## The date of an instant -/

theorem absDate_spec (abs : Nat) :
    ∃ yday : Nat,
      absDate abs = ((absDate abs).1, monthDay (isLeap (absDate abs).1) yday) ∧
      (yday : Int) < daysBeforeYear ((absDate abs).1 + 1) - daysBeforeYear (absDate abs).1 ∧
      daysBeforeYear (absDate abs).1 + (yday : Int) =
        ((abs / 86400 : Nat) : Int) - 106751990353932 ∧
      (106751990353566 ≤ abs / 86400 → 0 ≤ (absDate abs).1) ∧
      (abs / 86400 < 106751994005991 → (absDate abs).1 ≤ 9999) := by
  obtain ⟨h1, h2, h3, h4⟩ := cycles_spec (abs / 86400) _ _ _ _ _ _ _ _ (absDate abs).1
    rfl rfl rfl rfl rfl rfl rfl rfl rfl
  rw [← yearLength] at h1
  exact ⟨_, rfl, h1, h2, h3, h4⟩

theorem absSeconds_inRange (off s : Int) (hlo : -62167219200 ≤ s + off)
    (hhi : s + off < 253402300800) :
    ((absSeconds off s / 86400 : Nat) : Int) = (s + off) / 86400 + 106751991073094 := by
  unfold absSeconds unixToAbsolute
  rw [Int.emod_eq_of_lt (by omega) (by omega)]
  obtain ⟨a, ha⟩ : ∃ a : Nat, (a : Int) = s + off + 9223372028715321600 :=
    ⟨(s + off + 9223372028715321600).toNat, Int.toNat_of_nonneg (by omega)⟩
  rw [← ha, Int.toNat_ofNat]
  omega

/-- The text `formatDate` gives for an instant whose local time lies in the
years 0 to 9999 is the `YYYY-MM-DD` text of a date of the calendar, the one
whose day number is the day of the instant. -/
theorem formatDate_civil (off s : Int) (hlo : -62167219200 ≤ s + off)
    (hhi : s + off < 253402300800) :
    ∃ y m d : Nat, y ≤ 9999 ∧ 1 ≤ m ∧ m ≤ 12 ∧ 1 ≤ d ∧ (d : Int) ≤ daysInMonth y m ∧
      civilDay y m d = (s + off) / 86400 ∧ formatDate off s = isoDate y m d := by
  have hday := absSeconds_inRange off s hlo hhi
  obtain ⟨yday, hdate, hyd, hsum, hy0, hy1⟩ := absDate_spec (absSeconds off s)
  have hy0' := hy0 (by omega)
  have hy1' := hy1 (by omega)
  clear hy0 hy1
  have hfmt : formatDate off s =
      appendInt (absDate (absSeconds off s)).1 4 ++ [0x2d] ++
        appendInt (absDate (absSeconds off s)).2.1 2 ++ [0x2d] ++
        appendInt (absDate (absSeconds off s)).2.2 2 := rfl
  generalize absDate (absSeconds off s) = ymd at hdate hyd hsum hfmt hy0' hy1'
  obtain ⟨year, m, d⟩ := ymd
  simp only [Prod.mk.injEq, true_and] at hdate
  simp only at hyd hsum hfmt hy0' hy1'
  rw [hday] at hsum
  obtain ⟨hm1, hm12, hd1, hdim, hstart⟩ := monthDay_spec year yday hyd
  rw [← hdate] at hm1 hm12 hd1 hdim hstart
  simp only at hm1 hm12 hd1 hdim hstart
  have hy : 0 ≤ year ∧ year ≤ 9999 := ⟨hy0', hy1'⟩
  obtain ⟨y, rfl⟩ : ∃ y : Nat, year = (y : Int) := ⟨year.toNat, (Int.toNat_of_nonneg hy.1).symm⟩
  have hdle : d < 100 := by
    have : daysInMonth (y : Int) m ≤ 31 := by
      obtain ⟨L, hL, _, hlen⟩ := leapDays (y : Int)
      unfold daysInMonth
      split_ifs <;> omega
    omega
  refine ⟨y, m, d, by omega, hm1, hm12, hd1, hdim, ?_, ?_⟩
  · unfold civilDay
    omega
  · rw [hfmt, appendInt_four y (by omega), appendInt_two m (by omega), appendInt_two d hdle]
    rfl

theorem daysBeforeYear_mono (y : Int) (k : Nat) :
    daysBeforeYear y + 365 * (k : Int) ≤ daysBeforeYear (y + (k : Int)) := by
  induction k with
  | zero => simp
  | succ k ih =>
    obtain ⟨L, _, _, hlen⟩ := leapDays (y + (k : Int))
    have e : y + ((k + 1 : Nat) : Int) = y + (k : Int) + 1 := by push_cast; ring
    rw [e]
    push_cast
    omega

/-- The day of the year of a date of the calendar, from 0, is below the
length of its year. -/
theorem dayOfYear_range (y : Int) (m d : Nat) (hm1 : 1 ≤ m) (hm12 : m ≤ 12) (hd1 : 1 ≤ d)
    (hd : (d : Int) ≤ daysInMonth y m) :
    0 ≤ monthStart y m + ((d : Int) - 1) ∧
      monthStart y m + ((d : Int) - 1) < daysBeforeYear (y + 1) - daysBeforeYear y := by
  obtain ⟨L, hL, _, hlen⟩ := leapDays y
  obtain ⟨hdim, hstart⟩ := calendar_table y L hlen
  have hc : m = 1 ∨ m = 2 ∨ m = 3 ∨ m = 4 ∨ m = 5 ∨ m = 6 ∨ m = 7 ∨ m = 8 ∨ m = 9 ∨
      m = 10 ∨ m = 11 ∨ m = 12 := by omega
  rcases hc with e | e | e | e | e | e | e | e | e | e | e | e <;> subst e <;>
    simp only [hdim, hstart] at hd ⊢ <;> clear hdim hstart <;> omega

/-- The month and the day of a date of the calendar are determined by its day
of the year. -/
theorem dayOfYear_unique (y : Int) (m d m' d' : Nat) (hm1 : 1 ≤ m) (hm12 : m ≤ 12)
    (hd1 : 1 ≤ d) (hd : (d : Int) ≤ daysInMonth y m) (hm1' : 1 ≤ m') (hm12' : m' ≤ 12)
    (hd1' : 1 ≤ d') (hd' : (d' : Int) ≤ daysInMonth y m')
    (h : monthStart y m + (d : Int) = monthStart y m' + (d' : Int)) : m = m' ∧ d = d' := by
  obtain ⟨L, hL, _, hlen⟩ := leapDays y
  obtain ⟨hdim, hstart⟩ := calendar_table y L hlen
  have hc : m = 1 ∨ m = 2 ∨ m = 3 ∨ m = 4 ∨ m = 5 ∨ m = 6 ∨ m = 7 ∨ m = 8 ∨ m = 9 ∨
      m = 10 ∨ m = 11 ∨ m = 12 := by omega
  have hc' : m' = 1 ∨ m' = 2 ∨ m' = 3 ∨ m' = 4 ∨ m' = 5 ∨ m' = 6 ∨ m' = 7 ∨ m' = 8 ∨ m' = 9 ∨
      m' = 10 ∨ m' = 11 ∨ m' = 12 := by omega
  rcases hc with e | e | e | e | e | e | e | e | e | e | e | e <;> subst e <;>
    simp only [hdim, hstart] at h hd <;>
    rcases hc' with e | e | e | e | e | e | e | e | e | e | e | e <;> subst e <;>
    simp only [hdim, hstart] at h hd' <;> clear hdim hstart hlen <;> omega

/-- The date of the calendar with a given day number is unique. -/
theorem civilDay_unique (y y' : Int) (m d m' d' : Nat) (hm1 : 1 ≤ m) (hm12 : m ≤ 12)
    (hd1 : 1 ≤ d) (hd : (d : Int) ≤ daysInMonth y m) (hm1' : 1 ≤ m') (hm12' : m' ≤ 12)
    (hd1' : 1 ≤ d') (hd' : (d' : Int) ≤ daysInMonth y' m')
    (h : civilDay y m d = civilDay y' m' d') : y = y' ∧ m = m' ∧ d = d' := by
  obtain ⟨r1, r2⟩ := dayOfYear_range y m d hm1 hm12 hd1 hd
  obtain ⟨r1', r2'⟩ := dayOfYear_range y' m' d' hm1' hm12' hd1' hd'
  unfold civilDay at h
  have hy : y = y' := by
    rcases lt_trichotomy y y' with hlt | heq | hgt
    · exfalso
      obtain ⟨k, hk⟩ : ∃ k : Nat, y' = y + 1 + (k : Int) :=
        ⟨(y' - (y + 1)).toNat, by rw [Int.toNat_of_nonneg (by omega)]; ring⟩
      have := daysBeforeYear_mono (y + 1) k
      rw [← hk] at this
      omega
    · exact heq
    · exfalso
      obtain ⟨k, hk⟩ : ∃ k : Nat, y = y' + 1 + (k : Int) :=
        ⟨(y - (y' + 1)).toNat, by rw [Int.toNat_of_nonneg (by omega)]; ring⟩
      have := daysBeforeYear_mono (y' + 1) k
      rw [← hk] at this
      omega
  subst hy
  exact ⟨rfl, dayOfYear_unique y m d m' d' hm1 hm12 hd1 hd hm1' hm12' hd1' hd' (by omega)⟩

/-! ## Keys and frames -/

/-- The ids of a machine integer and of its successor differ. -/
theorem wrapInt_succ_ne (n : Int) : wrapInt (n + 1) ≠ n := by
  unfold wrapInt
  omega

/-- The counter entry `getNextID` writes is never the one it read. -/
theorem Itoa_nextOf_ne (c : Option GoString) : some (Itoa (nextOf c)) ≠ c := by
  intro h
  cases c with
  | none => cases h
  | some bs =>
    simp only [Option.some.injEq] at h
    have h1 : nextOf (some bs) = wrapInt ((Atoi bs).1 + 1) := rfl
    have hr := nextOf_range (some bs)
    generalize nextOf (some bs) = n at h h1 hr
    subst h
    rw [Atoi_Itoa _ hr.1 hr.2] at h1
    exact wrapInt_succ_ne _ h1.symm

/-- The creation of the sample sale by the first caller in a state whose
counter leads to id 1 and whose record key of id 1 already holds that sale. -/
theorem recreate_same (s : Store) (h1 : nextOf (s idCounterKey) = 1)
    (h2 : s (transactionKey 1) =
      some (Marshal (sampleArgs.toRecord 1 (formatDate 0 1700000000) aliceID))) :
    (CreateTransaction alice sampleArgs s).1 = .ok 1 ∧
      ∀ k, k ≠ idCounterKey → (CreateTransaction alice sampleArgs s).2 k = s k := by
  have hres : (CreateTransaction alice sampleArgs s).1 = .ok (nextOf (s idCounterKey)) := rfl
  rw [h1] at hres
  refine ⟨hres, ?_⟩
  obtain ⟨ts, c, hts, hc, _, _, hs'⟩ := CreateTransaction_ok alice sampleArgs s 1
    (CreateTransaction alice sampleArgs s).2 (Prod.ext hres rfl)
  cases hts
  cases hc
  intro k hk
  rw [hs']
  by_cases e : k = transactionKey 1
  · rw [e, Store.put_same, h2]
    rfl
  · rw [Store.put_other _ _ _ _ e, Store.put_other _ _ _ _ hk]

/-! ## The counter value across one invocation -/

/-- The decimal text of an integer below the smallest machine integer parses
to that bound, with a range error. -/
theorem ParseInt_Itoa_below (n : Int) (h : n < minInt) :
    ParseInt (Itoa n) = (minInt, some .outOfRange) := by
  obtain ⟨hne, hall, hval, _⟩ := formatNat_spec n.natAbs
  unfold minInt at h
  have hneg : n < 0 := by omega
  have hgt : 9223372036854775808 < n.natAbs := by omega
  simp only [Itoa, hneg, if_true]
  rw [ParseInt_minus _ hne hall, hval, if_pos hgt]

/-- The id after the counter text of an integer below the largest machine
integer is not smaller than that integer. -/
theorem nextOf_Itoa_ge (c : Int) (h : c < maxInt) : c ≤ nextOf (some (Itoa c)) := by
  by_cases hlo : minInt ≤ c
  · rw [nextOf_Itoa c hlo h]
    omega
  · have hb : c < minInt := by omega
    show c ≤ wrapInt ((Atoi (Itoa c)).1 + 1)
    have hp : Atoi (Itoa c) = (minInt, some .outOfRange) := ParseInt_Itoa_below c hb
    rw [hp]
    unfold minInt at hb
    have : wrapInt (minInt + 1) = -9223372036854775807 := by decide
    simp only [this]
    omega

theorem CounterHolds_next (s : Store) (c : Int) (hc : CounterHolds s c) (hmax : c < maxInt) :
    c ≤ nextOf (s idCounterKey) := by
  rcases hc with ⟨h0, hc0⟩ | h
  · rw [h0, hc0]
    decide
  · rw [h]
    exact nextOf_Itoa_ge c hmax

/-- A syntax error of `strconv.Atoi` comes with the value 0. -/
theorem Atoi_invalid (bs : GoString) (h : (Atoi bs).2 = some .invalid) : (Atoi bs).1 = 0 := by
  unfold Atoi at h ⊢
  cases bs with
  | nil => rfl
  | cons b rest =>
    rw [ParseInt_cons] at h ⊢
    generalize ParseUint (if b = 0x2b ∨ b = 0x2d then rest else b :: rest) = r at h ⊢
    obtain ⟨un, e⟩ := r
    cases e with
    | none =>
      simp only at h ⊢
      split_ifs at h <;> simp at h
    | some e =>
      cases e with
      | invalid => rfl
      | outOfRange =>
        simp only at h ⊢
        split_ifs at h <;> simp at h

/-! ## The stored records along an execution -/

theorem RecordsOk_empty : RecordsOk Store.empty := by
  intro id bs h
  cases h

theorem RecordsOk_invoke (ctx : Ctx) (op : Op) (s : Store) (h : RecordsOk s) :
    RecordsOk (invoke ctx op s).2 := by
  rcases invoke_cases ctx op s with ⟨r, hr, _, _⟩ | ⟨a, t, _, ht, hr⟩ | ⟨d, _, hr⟩
  · rw [hr]
    exact h
  · rw [hr]
    intro id bs hbs
    simp only at hbs
    by_cases hid : id = nextOf (s idCounterKey)
    · rw [hid, Store.put_same] at hbs
      simp only [Option.some.injEq] at hbs
      have hr := nextOf_range (s idCounterKey)
      rw [← ht] at hr
      refine ⟨t.coerce, ?_, ?_⟩
      · rw [← hbs]
        exact Unmarshal_Marshal t hr.1 hr.2
      · rw [hid, ← ht]
        rfl
    · rw [Store.put_other _ _ _ _ (fun hk => hid (transactionKey_injective _ _ hk)),
        Store.put_other _ _ _ _ (transactionKey_ne_counter id)] at hbs
      exact h id bs hbs
  · rw [hr]
    intro id bs hbs
    simp only at hbs
    by_cases hid : id = d
    · rw [hid, Store.del_same] at hbs
      cases hbs
    · rw [Store.del_other _ _ _ (fun hk => hid (transactionKey_injective _ _ hk))] at hbs
      exact h id bs hbs

theorem RecordsOk_run (tr : Trace) : ∀ s : Store, RecordsOk s → RecordsOk (run tr s) := by
  induction tr with
  | nil => intro s h; exact h
  | cons x rest ih =>
    obtain ⟨ctx, op⟩ := x
    intro s h
    rw [run_cons]
    exact ih _ (RecordsOk_invoke ctx op s h)

theorem RecordsOk_get (ctx : Ctx) (id : Int) (s : Store) (h : RecordsOk s) :
    GetTransaction ctx id s ≠ .error .unmarshal ∧
      ∀ t, GetTransaction ctx id s = .ok t → t.ID = id := by
  constructor
  · intro hg
    cases hs : ctx.getStateErr (transactionKey id) with
    | some e => simp [GetTransaction, GetState, hs] at hg
    | none =>
      rw [GetTransaction_eq ctx id s hs] at hg
      cases hb : s (transactionKey id) with
      | none => simp [hb] at hg
      | some bs =>
        obtain ⟨t, hu, _⟩ := h id bs hb
        simp [hb, hu] at hg
  · intro t hg
    obtain ⟨_, bs, hb, hu⟩ := GetTransaction_ok ctx id s t hg
    obtain ⟨t', hu', hid⟩ := h id bs hb
    rw [hu] at hu'
    cases hu'
    exact hid

/-- The counter and the record keys while fewer than 2^63 creations have
succeeded. -/
theorem CounterIs_small (s : Store) (c : Nat) (h : CounterIs s c)
    (hc : c < 9223372036854775808) :
    ((c = 0 ∧ s idCounterKey = none) ∨ (0 < c ∧ s idCounterKey = some (Itoa (c : Int)))) ∧
      ∀ k : Int, s (transactionKey k) ≠ none → 1 ≤ k ∧ k ≤ (c : Int) := by
  constructor
  · rcases h.1 with h0 | ⟨h1, h2⟩
    · exact Or.inl h0
    · rw [wrapInt_small c hc] at h2
      exact Or.inr ⟨h1, h2⟩
  · intro k hk
    obtain ⟨j, h1, h2, h3⟩ := h.2 k hk
    rw [wrapInt_small j (by omega)] at h3
    omega

/-- After one or more creations of the sample sale the record key of the last
id, the one the counter entry shows, is stored. -/
theorem last_create : ∀ (m : Nat) (s : Store), 0 < m →
    ∃ n : Int, run (manyCreates m) s idCounterKey = some (Itoa n) ∧
      run (manyCreates m) s (transactionKey n) ≠ none := by
  intro m
  induction m with
  | zero => intro s h; exact absurd h (by decide)
  | succ m ih =>
    intro s _
    rw [manyCreates_succ, run_cons, alice_create]
    cases m with
    | zero =>
      have e : ∀ t : Store, run (manyCreates 0) t = t := fun _ => rfl
      rw [e]
      dsimp only
      refine ⟨nextOf (s idCounterKey), ?_, ?_⟩
      · rw [Store.put_other _ _ _ _ (fun hk => transactionKey_ne_counter _ hk.symm),
          Store.put_same]
      · rw [Store.put_same]
        exact fun hk => by cases hk
    | succ m => exact ih _ (Nat.succ_pos m)

/-- The counter entry after `m` creations of the sample sale from the empty
state. -/
theorem counter_manyCreates (m : Nat) (hm : 0 < m) :
    run (manyCreates m) Store.empty idCounterKey = some (Itoa (wrapInt (m : Int))) := by
  have hinv := CounterIs_run (manyCreates m) Store.empty 0 CounterIs_empty
  rw [createCount_manyCreates, Nat.zero_add] at hinv
  rcases hinv.1 with ⟨h0, _⟩ | ⟨_, hs⟩
  · omega
  · exact hs

/-- The counter entry along an execution is absent or the text `Itoa` gives
for a machine integer. -/
theorem counter_run (tr : Trace) :
    (createCount tr Store.empty = 0 ∧ run tr Store.empty idCounterKey = none) ∨
      (0 < createCount tr Store.empty ∧
        run tr Store.empty idCounterKey =
          some (Itoa (wrapInt ((createCount tr Store.empty : Nat) : Int)))) := by
  have hinv := CounterIs_run tr Store.empty 0 CounterIs_empty
  rw [Nat.zero_add] at hinv
  exact hinv.1

/-! ## The claims -/

/-- C2, as the code has it: in an execution from the empty state in which the
ledger discards the writes of failed invocations, the `k`-th successful
`CreateTransaction`, for `k` below 2^63, is given id `k` and leaves the decimal
text of `k` as counter entry, whatever reads, deletions and failures came
before. -/
theorem C2_sequential_ids (tr : Trace) (ctx : Ctx) (a : Args) (n : Int) (s' : Store)
    (hbound : createCount tr Store.empty + 1 < 9223372036854775808)
    (hcreate : invoke ctx (.create a) (run tr Store.empty) = (.created n, s')) :
    n = ((createCount tr Store.empty + 1 : Nat) : Int) ∧ s' idCounterKey = some (Itoa n) := by
  have hinv := CounterIs_run tr Store.empty 0 CounterIs_empty
  rw [Nat.zero_add] at hinv
  have := created_after ctx a _ s' _ n hinv hcreate
  rw [wrapInt_small _ hbound] at this
  exact ⟨this.1, this.2.1⟩

set_option maxRecDepth 100000 in
/-- C2 at a sample: after a creation and its deletion by the first caller, the
creation by the second caller is the second successful one and is given id 2. -/
theorem C2_sequential_ids_witness :
    (2 : Int) = ((createCount [(alice, Op.create sampleArgs), (alice, Op.delete 1)]
        Store.empty + 1 : Nat) : Int) ∧
      (invoke bob (.create sampleArgs)
        (run [(alice, Op.create sampleArgs), (alice, Op.delete 1)] Store.empty)).2
          idCounterKey = some (Itoa 2) := by
  have hb : createCount [(alice, Op.create sampleArgs), (alice, Op.delete 1)] Store.empty + 1
      < 9223372036854775808 := by
    have := createCount_le_length [(alice, Op.create sampleArgs), (alice, Op.delete 1)]
      Store.empty
    simp only [List.length_cons, List.length_nil] at this
    omega
  exact C2_sequential_ids [(alice, Op.create sampleArgs), (alice, Op.delete 1)] bob sampleArgs
    2 _ hb rfl

/-- C2 fails as stated: when the first caller records the sample sale
2^63 - 1 times from the empty state, all these creations succeed, and the next
one, the 2^63-th successful creation, is given the id -2^63. -/
theorem C2_counterexample :
    createCount (manyCreates 9223372036854775807) Store.empty = 9223372036854775807 ∧
      (invoke alice (.create sampleArgs)
        (run (manyCreates 9223372036854775807) Store.empty)).1 =
          .created (-9223372036854775808) := by
  have hcount := createCount_manyCreates 9223372036854775807 Store.empty
  refine ⟨hcount, ?_⟩
  have hinv := CounterIs_run (manyCreates 9223372036854775807) Store.empty 0 CounterIs_empty
  rw [hcount] at hinv
  rcases hinv.1 with ⟨h0, _⟩ | ⟨_, hs⟩
  · exact absurd h0 (by decide)
  · rw [alice_create, hs]
    rfl

/-- C3: when the record read under `id` has a `CreatedBy` other than the
caller identity, `DeleteTransaction(id)` fails with the authorization error and
leaves the state as it was (also as committed by the ledger), so that any
later `GetTransaction(id)` answers as it did before. -/
theorem C3_delete_by_other (ctx : Ctx) (id : Int) (s : Store) (t : Transaction)
    (c : GoString) (hrec : GetTransaction ctx id s = .ok t) (hc : ctx.clientID = .ok c)
    (hne : t.CreatedBy ≠ c) :
    DeleteTransaction ctx id s = (.error .notCreator, s) ∧
      invoke ctx (.delete id) s = (.failed .notCreator, s) ∧
      ∀ ctx', GetTransaction ctx' id (DeleteTransaction ctx id s).2 =
        GetTransaction ctx' id s := by
  have h := DeleteTransaction_notCreator ctx id s t c hrec hc hne
  refine ⟨h, ?_, ?_⟩
  · simp only [invoke, h]
  · intro ctx'
    rw [h]

/-- C3 at a sample: the second caller cannot delete the sale the first caller
recorded. -/
theorem C3_delete_by_other_witness :
    DeleteTransaction bob 1 storeOne = (.error .notCreator, storeOne) ∧
      invoke bob (.delete 1) storeOne = (.failed .notCreator, storeOne) ∧
      ∀ ctx', GetTransaction ctx' 1 (DeleteTransaction bob 1 storeOne).2 =
        GetTransaction ctx' 1 storeOne :=
  C3_delete_by_other bob 1 storeOne (sampleArgs.toRecord 1 (ascii "2023-11-14") aliceID) bobID
    (sample_get bob rfl) rfl (by decide)

/-- C6, as the code has it: when the counter entry is absent (`current = 0`)
or holds the decimal text of `current`, with `current + 1` still a machine
integer, and the host's read and write succeed, `getNextID` returns
`current + 1`, leaves its decimal text under the counter key, and leaves every
other key as it was. -/
theorem C6_getNextID (ctx : Ctx) (s : Store) (current : Int)
    (hcounter : (s idCounterKey = none ∧ current = 0) ∨ s idCounterKey = some (Itoa current))
    (hlo : minInt ≤ current) (hhi : current < maxInt)
    (hread : ctx.getStateErr idCounterKey = none)
    (hwrite : ∀ v, ctx.putStateErr idCounterKey v = none) :
    (getNextID ctx s).1 = .ok (current + 1) ∧
      (getNextID ctx s).2 idCounterKey = some (Itoa (current + 1)) ∧
      ∀ k, k ≠ idCounterKey → (getNextID ctx s).2 k = s k := by
  have hnext : nextOf (s idCounterKey) = current + 1 := by
    rcases hcounter with ⟨h0, hc⟩ | h
    · rw [h0, hc]; rfl
    · rw [h]; exact nextOf_Itoa current hlo hhi
  rw [getNextID_ok ctx s hread (hwrite _), hnext]
  exact ⟨rfl, Store.put_same s idCounterKey (Itoa (current + 1)),
    fun k hk => Store.put_other s idCounterKey (Itoa (current + 1)) k hk⟩

/-- C6 at a sample: the counter entry `41` becomes `42`. -/
theorem C6_getNextID_witness :
    (getNextID alice (Store.empty.put idCounterKey (Itoa 41))).1 = .ok (41 + 1) ∧
      (getNextID alice (Store.empty.put idCounterKey (Itoa 41))).2 idCounterKey =
        some (Itoa (41 + 1)) ∧
      ∀ k, k ≠ idCounterKey →
        (getNextID alice (Store.empty.put idCounterKey (Itoa 41))).2 k =
          (Store.empty.put idCounterKey (Itoa 41)) k :=
  C6_getNextID alice (Store.empty.put idCounterKey (Itoa 41)) 41 (Or.inr rfl)
    (by decide) (by decide) rfl (fun _ => rfl)

/-- C6 fails as stated: from the counter entry `9223372036854775807`, the
largest machine integer, `getNextID` returns `-9223372036854775808` and writes
its text, not that of `9223372036854775808`. -/
theorem C6_counterexample :
    (getNextID alice (Store.empty.put idCounterKey (Itoa 9223372036854775807))).1 =
        .ok (-9223372036854775808) ∧
      (getNextID alice (Store.empty.put idCounterKey (Itoa 9223372036854775807))).2
          idCounterKey = some (ascii "-9223372036854775808") ∧
      (-9223372036854775808 : Int) ≠ 9223372036854775807 + 1 := by
  refine ⟨rfl, by decide, by decide⟩

/-- C7 fails on the code: with the counter entry `abc`, which `strconv.Atoi`
rejects, `getNextID` does not fail; it returns 1 and writes `1` over the
entry, and `CreateTransaction` succeeds with id 1. -/
theorem C7_unparseable_counter_reset :
    Atoi (ascii "abc") = (0, some .invalid) ∧
      (getNextID alice (Store.empty.put idCounterKey (ascii "abc"))).1 = .ok 1 ∧
      (getNextID alice (Store.empty.put idCounterKey (ascii "abc"))).2 idCounterKey =
        some (ascii "1") ∧
      (CreateTransaction alice sampleArgs (Store.empty.put idCounterKey (ascii "abc"))).1 =
        .ok 1 := by
  refine ⟨by decide, rfl, by decide, rfl⟩

/-- C8, as the code has it: in an execution from the empty state with fewer
than 2^64 successful creations so far, whatever the next invocation, an id
that `GetTransaction` finds both before and after it has the same stored bytes
and the same record both times. -/
theorem C8_records_immutable (tr : Trace) (ctx : Ctx) (op : Op) (id : Int) (ctx1 ctx2 : Ctx)
    (t1 t2 : Transaction) (hbound : createCount tr Store.empty < 18446744073709551616)
    (hbefore : GetTransaction ctx1 id (run tr Store.empty) = .ok t1)
    (hafter : GetTransaction ctx2 id (invoke ctx op (run tr Store.empty)).2 = .ok t2) :
    (invoke ctx op (run tr Store.empty)).2 (transactionKey id) =
        run tr Store.empty (transactionKey id) ∧ t1 = t2 := by
  have hinv := CounterIs_run tr Store.empty 0 CounterIs_empty
  rw [Nat.zero_add] at hinv
  obtain ⟨_, bs1, hs1, hu1⟩ := GetTransaction_ok ctx1 id _ t1 hbefore
  obtain ⟨_, bs2, hs2, hu2⟩ := GetTransaction_ok ctx2 id _ t2 hafter
  obtain ⟨j, hj1, hj2, hj3⟩ := hinv.2 id (by rw [hs1]; exact fun h => by cases h)
  have hsame : (invoke ctx op (run tr Store.empty)).2 (transactionKey id) =
      run tr Store.empty (transactionKey id) := by
    rcases invoke_cases ctx op (run tr Store.empty) with
      ⟨r, hr, _, _⟩ | ⟨a, t, _, _, hr⟩ | ⟨d, _, hr⟩
    · rw [hr]
    · rw [hr]
      rw [CounterIs_next _ _ hinv]
      have hk : transactionKey id ≠
          transactionKey (wrapInt ((createCount tr Store.empty + 1 : Nat) : Int)) := by
        intro hk
        have := transactionKey_injective _ _ hk
        rw [hj3] at this
        exact wrapInt_fresh j _ hj1 hj2 hbound this
      show ((run tr Store.empty).put idCounterKey _).put _ _ (transactionKey id) = _
      rw [Store.put_other _ _ _ _ hk, Store.put_other _ _ _ _ (transactionKey_ne_counter id)]
    · rw [hr] at hs2 ⊢
      by_cases e : transactionKey id = transactionKey d
      · simp only at hs2
        rw [e, Store.del_same] at hs2
        cases hs2
      · exact Store.del_other _ _ _ e
  refine ⟨hsame, ?_⟩
  rw [hsame, hs1] at hs2
  cases hs2
  rw [hu1] at hu2
  cases hu2
  rfl

set_option maxRecDepth 100000 in
/-- C8 at a sample: the sale the first caller recorded reads the same before
and after a creation by the second caller. -/
theorem C8_records_immutable_witness :
    (invoke bob (.create sampleArgs) (run [(alice, Op.create sampleArgs)] Store.empty)).2
        (transactionKey 1) =
        run [(alice, Op.create sampleArgs)] Store.empty (transactionKey 1) ∧
      sampleArgs.toRecord 1 (ascii "2023-11-14") aliceID =
        sampleArgs.toRecord 1 (ascii "2023-11-14") aliceID := by
  have hb : createCount [(alice, Op.create sampleArgs)] Store.empty
      < 18446744073709551616 := by
    have := createCount_le_length [(alice, Op.create sampleArgs)] Store.empty
    simp only [List.length_cons, List.length_nil] at this
    omega
  exact C8_records_immutable [(alice, Op.create sampleArgs)] bob (.create sampleArgs) 1 alice
    alice _ _ hb (sample_get alice rfl)
    (by
      rw [GetTransaction_congr alice 1 storeOne
        (invoke bob (.create sampleArgs) (run [(alice, Op.create sampleArgs)] Store.empty)).2 rfl]
      exact sample_get alice rfl)

/-- C8 fails as stated: after the first caller has recorded the sample sale
2^64 times from the empty state, the counter entry is back at `0` while the
record of id 1 is still stored; the next creation, by the second caller, is
given id 1 again and replaces that record, `CreatedBy` included. -/
theorem C8_counterexample :
    GetTransaction alice 1 (run (manyCreates 18446744073709551616) Store.empty) =
        .ok (sampleArgs.toRecord 1 (ascii "2023-11-14") aliceID) ∧
      GetTransaction alice 1 (invoke bob (.create sampleArgs)
          (run (manyCreates 18446744073709551616) Store.empty)).2 =
        .ok (sampleArgs.toRecord 1 (ascii "2023-11-14") bobID) ∧
      aliceID ≠ bobID := by
  have hrun : run (manyCreates 18446744073709551616) Store.empty =
      run (manyCreates 18446744073709551615) storeOne :=
    run_manyCreates_succ 18446744073709551615
  have hw := wrap_run 18446744073709551615 storeOne 1 (le_refl 1) (by decide)
    storeOne_counter storeOne_record
  rw [← hrun] at hw
  obtain ⟨hc, hk⟩ := hw
  have hzero : wrapInt ((1 + 18446744073709551615 : Nat) : Int) = 0 := by decide
  rw [hzero] at hc
  refine ⟨?_, ?_, by decide⟩
  · rw [GetTransaction_put_Marshal alice 1 _ _ rfl hk (by decide) (by decide),
      coerce_toRecord _ _ _ _ (by decide) (formatDate_valid _ _) (by decide)]
    rfl
  · have hb : invoke bob (.create sampleArgs)
        (run (manyCreates 18446744073709551616) Store.empty) = _ :=
      hostOK_create bobID (by decide) 1700000100 sampleArgs _
    rw [hb, hc]
    have hn : nextOf (some (Itoa 0)) = 1 := by decide
    rw [hn, GetTransaction_put_Marshal alice 1 _ _ rfl (Store.put_same _ _ _) (by decide)
        (by decide),
      coerce_toRecord _ _ _ _ (by decide) (formatDate_valid _ _) (by decide)]
    rfl

/-- C9: `DeleteTransaction(id)` leaves the counter entry and every key other
than the record key of `id` as they were; when it succeeds the state it leaves
is the given one without the record key of `id`, and when it fails the state
is the given one. -/
theorem C9_delete_frame (ctx : Ctx) (id : Int) (s : Store) :
    (DeleteTransaction ctx id s).2 idCounterKey = s idCounterKey ∧
      (∀ k, k ≠ transactionKey id → (DeleteTransaction ctx id s).2 k = s k) ∧
      ((DeleteTransaction ctx id s).1 = .ok () →
        (DeleteTransaction ctx id s).2 = s.del (transactionKey id)) ∧
      (∀ e, (DeleteTransaction ctx id s).1 = .error e → (DeleteTransaction ctx id s).2 = s) := by
  rcases DeleteTransaction_cases ctx id s with ⟨e, h⟩ | ⟨_, _, h⟩
  · rw [h]
    refine ⟨rfl, fun _ _ => rfl, ?_, fun _ _ => rfl⟩
    intro he
    simp at he
  · rw [h]
    refine ⟨?_, ?_, fun _ => rfl, ?_⟩
    · exact Store.del_other s _ _ (fun hk => transactionKey_ne_counter id hk.symm)
    · intro k hk
      exact Store.del_other s _ k hk
    · intro e he
      simp at he

/-- C10, as the code has it: a `CreateTransaction` invocation that fails with
`e` commits nothing (the ledger discards its writes), and `e` tells what the
method had written by then: nothing when the timestamp was unavailable or
`getNextID` failed; the advanced counter entry when the caller identity was
unavailable or the write of the record failed. -/
theorem C10_failed_create (ctx : Ctx) (a : Args) (s : Store) (e : Error)
    (hfail : (CreateTransaction ctx a s).1 = .error e) :
    invoke ctx (.create a) s = (.failed e, s) ∧
      (((∃ m, e = .timestamp m) ∨ (∃ e', e = .nextID e')) ∧ (CreateTransaction ctx a s).2 = s ∨
       ((∃ m, ctx.clientID = .error m ∧ e = .clientID m) ∨ (∃ m, e = .host m)) ∧
        (CreateTransaction ctx a s).2 =
          s.put idCounterKey (Itoa (nextOf (s idCounterKey)))) := by
  constructor
  · unfold invoke
    simp only
    split
    · next id s1 heq => rw [heq] at hfail; simp at hfail
    · next err s1 heq =>
      rw [heq] at hfail
      simp only [Except.error.injEq] at hfail
      rw [hfail]
  · cases hts : ctx.txTimestamp with
    | error e1 =>
      simp only [CreateTransaction, hts, Except.error.injEq] at hfail ⊢
      exact Or.inl ⟨Or.inl ⟨e1, hfail.symm⟩, trivial⟩
    | ok ts =>
      rcases getNextID_cases ctx s with ⟨e1, _, hg⟩ | ⟨e1, _, _, hg⟩ | ⟨hr, _, hg⟩
      · simp only [CreateTransaction, hts, hg, Except.error.injEq] at hfail ⊢
        exact Or.inl ⟨Or.inr ⟨_, hfail.symm⟩, trivial⟩
      · simp only [CreateTransaction, hts, hg, Except.error.injEq] at hfail ⊢
        exact Or.inl ⟨Or.inr ⟨_, hfail.symm⟩, trivial⟩
      · cases hc : ctx.clientID with
        | error e1 =>
          simp only [CreateTransaction, hts, hg, hc, Except.error.injEq] at hfail ⊢
          exact Or.inr ⟨Or.inl ⟨e1, rfl, hfail.symm⟩, trivial⟩
        | ok c =>
          rw [CreateTransaction_eq ctx a s ts _ _ c hts hg hc] at hfail ⊢
          split at hfail
          · next err heq =>
            simp only [Except.error.injEq] at hfail
            exact Or.inr ⟨Or.inr ⟨err, hfail.symm⟩, rfl⟩
          · simp at hfail

/-- C10 at a sample: a creation without caller identity on the empty state. -/
theorem C10_failed_create_witness :
    invoke anonymous (.create sampleArgs) Store.empty =
        (.failed (.clientID "cannot determine identity"), Store.empty) ∧
      (((∃ m, Error.clientID "cannot determine identity" = .timestamp m) ∨
          (∃ e', Error.clientID "cannot determine identity" = .nextID e')) ∧
          (CreateTransaction anonymous sampleArgs Store.empty).2 = Store.empty ∨
       ((∃ m, anonymous.clientID = .error m ∧
            Error.clientID "cannot determine identity" = .clientID m) ∨
          (∃ m, Error.clientID "cannot determine identity" = .host m)) ∧
        (CreateTransaction anonymous sampleArgs Store.empty).2 =
          Store.empty.put idCounterKey (Itoa (nextOf (Store.empty idCounterKey)))) :=
  C10_failed_create anonymous sampleArgs Store.empty (.clientID "cannot determine identity") rfl

/-- C10 fails as stated: when the caller identity is unavailable,
`CreateTransaction` fails with the identity error after `getNextID` has
written the counter entry `1` into a state that had none. -/
theorem C10_counterexample :
    (CreateTransaction anonymous sampleArgs Store.empty).1 =
        .error (.clientID "cannot determine identity") ∧
      (CreateTransaction anonymous sampleArgs Store.empty).2 idCounterKey = some (ascii "1") ∧
      Store.empty idCounterKey = none := by
  refine ⟨rfl, by decide, by decide⟩

/-- C11: the record keys of two integers are equal only for equal integers, and
no record key is the counter key; hence writing or removing the record key of
`i` leaves the counter entry and the record key of every other `j` as they
were. -/
theorem C11_keys_distinct (i j : Int) :
    (transactionKey i = transactionKey j → i = j) ∧
      transactionKey i ≠ idCounterKey ∧
      ∀ (s : Store) (v : GoString),
        s.put (transactionKey i) v idCounterKey = s idCounterKey ∧
        s.del (transactionKey i) idCounterKey = s idCounterKey ∧
        (i ≠ j →
          s.put (transactionKey i) v (transactionKey j) = s (transactionKey j) ∧
          s.del (transactionKey i) (transactionKey j) = s (transactionKey j)) := by
  refine ⟨transactionKey_injective i j, transactionKey_ne_counter i, ?_⟩
  intro s v
  have hc : idCounterKey ≠ transactionKey i := fun h => transactionKey_ne_counter i h.symm
  refine ⟨Store.put_other s _ v _ hc, Store.del_other s _ _ hc, ?_⟩
  intro hij
  have hk : transactionKey j ≠ transactionKey i :=
    fun h => hij (transactionKey_injective i j h.symm)
  exact ⟨Store.put_other s _ v _ hk, Store.del_other s _ _ hk⟩

/-- C12, as the code has it: after a successful `CreateTransaction` with id
`n`, the counter key holds the decimal text of `n`, the record key of `n` holds
the serialized record, and every other key is as before. The counter entry
always differs from the one before; the record key differs from the one before
unless it already held these very bytes. -/
theorem C12_create_frame (ctx : Ctx) (a : Args) (s s' : Store) (n : Int)
    (hcreate : CreateTransaction ctx a s = (.ok n, s')) :
    ∃ ts c, ctx.txTimestamp = .ok ts ∧ ctx.clientID = .ok c ∧
      s' idCounterKey = some (Itoa n) ∧
      s' (transactionKey n) =
        some (Marshal (a.toRecord n (formatDate (ctx.zoneOffset ts.Seconds) ts.Seconds) c)) ∧
      (∀ k, k ≠ idCounterKey → k ≠ transactionKey n → s' k = s k) ∧
      s' idCounterKey ≠ s idCounterKey ∧
      (s' (transactionKey n) = s (transactionKey n) ↔
        s (transactionKey n) =
          some (Marshal (a.toRecord n (formatDate (ctx.zoneOffset ts.Seconds) ts.Seconds) c))) := by
  obtain ⟨ts, c, hts, hc, _, hn, hs'⟩ := CreateTransaction_ok ctx a s n s' hcreate
  have hcounter : s' idCounterKey = some (Itoa n) := by
    rw [hs', Store.put_other _ _ _ _ (fun hk => transactionKey_ne_counter _ hk.symm),
      Store.put_same]
  have hrec : s' (transactionKey n) =
      some (Marshal (a.toRecord n (formatDate (ctx.zoneOffset ts.Seconds) ts.Seconds) c)) := by
    rw [hs', Store.put_same]
  refine ⟨ts, c, hts, hc, hcounter, hrec, ?_, ?_, ?_⟩
  · intro k hk1 hk2
    rw [hs', Store.put_other _ _ _ _ hk2, Store.put_other _ _ _ _ hk1]
  · rw [hcounter, hn]
    exact Itoa_nextOf_ne _
  · rw [hrec]
    exact ⟨fun h => h.symm, fun h => h.symm⟩

/-- C12 at a sample: the first creation in the empty state. -/
theorem C12_create_frame_witness :
    ∃ ts c, alice.txTimestamp = .ok ts ∧ alice.clientID = .ok c ∧
      storeOne idCounterKey = some (Itoa 1) ∧
      storeOne (transactionKey 1) =
        some (Marshal (sampleArgs.toRecord 1
          (formatDate (alice.zoneOffset ts.Seconds) ts.Seconds) c)) ∧
      (∀ k, k ≠ idCounterKey → k ≠ transactionKey 1 → storeOne k = Store.empty k) ∧
      storeOne idCounterKey ≠ Store.empty idCounterKey ∧
      (storeOne (transactionKey 1) = Store.empty (transactionKey 1) ↔
        Store.empty (transactionKey 1) =
          some (Marshal (sampleArgs.toRecord 1
            (formatDate (alice.zoneOffset ts.Seconds) ts.Seconds) c))) :=
  C12_create_frame alice sampleArgs Store.empty storeOne 1 sample_create

/-- C12 fails as stated: where the record key of id 1 already holds the very
record a creation writes, the creation changes the counter key only. This is
so in a state that holds the sample sale and no counter entry, and in the state
reached from the empty one when the first caller records the sample sale 2^64
times, after which the counter entry is back at `0`. -/
theorem C12_counterexample :
    ((CreateTransaction alice sampleArgs storeNoCounter).1 = .ok 1 ∧
      ∀ k, k ≠ idCounterKey →
        (CreateTransaction alice sampleArgs storeNoCounter).2 k = storeNoCounter k) ∧
    ((CreateTransaction alice sampleArgs
        (run (manyCreates 18446744073709551616) Store.empty)).1 = .ok 1 ∧
      ∀ k, k ≠ idCounterKey →
        (CreateTransaction alice sampleArgs
          (run (manyCreates 18446744073709551616) Store.empty)).2 k =
          run (manyCreates 18446744073709551616) Store.empty k) := by
  constructor
  · apply recreate_same
    · rfl
    · show storeOne.del idCounterKey (transactionKey 1) = _
      rw [Store.del_other _ _ _ (transactionKey_ne_counter 1)]
      exact storeOne_record
  · have hrun : run (manyCreates 18446744073709551616) Store.empty =
        run (manyCreates 18446744073709551615) storeOne :=
      run_manyCreates_succ 18446744073709551615
    have hw := wrap_run 18446744073709551615 storeOne 1 (le_refl 1) (by decide)
      storeOne_counter storeOne_record
    rw [← hrun] at hw
    obtain ⟨hc, hk⟩ := hw
    have hzero : wrapInt ((1 + 18446744073709551615 : Nat) : Int) = 0 := by decide
    rw [hzero] at hc
    apply recreate_same _ _ hk
    rw [hc]
    decide

/-- C13, as the code has it: for a timestamp whose local time lies in the
years 0000 to 9999, the `FechaAdquisicion` of the record a successful
`CreateTransaction` stores is the `YYYY-MM-DD` text of the calendar date that
contains the timestamp's seconds in the local time zone of the host process:
a date `y-m-d` of the proleptic Gregorian calendar whose day number, counted
from 1 January 1970, is the whole number of days in the seconds plus the zone
offset, and the only such date. It is a function of the seconds and the offset
alone, so it does not depend on the nanoseconds, and it is the UTC date when
the zone is UTC. -/
theorem C13_date_local (ctx ctx' : Ctx) (a : Args) (s s' : Store) (n : Int)
    (ts : Timestamp) (hts : ctx.txTimestamp = .ok ts)
    (hcreate : CreateTransaction ctx a s = (.ok n, s'))
    (hread : ctx'.getStateErr (transactionKey n) = none)
    (hlo : -62167219200 ≤ ts.Seconds + ctx.zoneOffset ts.Seconds)
    (hhi : ts.Seconds + ctx.zoneOffset ts.Seconds < 253402300800) :
    ∃ (t : Transaction) (y m d : Nat),
      GetTransaction ctx' n s' = .ok t ∧
      t.FechaAdquisicion = formatDate (ctx.zoneOffset ts.Seconds) ts.Seconds ∧
      t.FechaAdquisicion = isoDate y m d ∧
      y ≤ 9999 ∧ 1 ≤ m ∧ m ≤ 12 ∧ 1 ≤ d ∧ (d : Int) ≤ daysInMonth y m ∧
      civilDay y m d = (ts.Seconds + ctx.zoneOffset ts.Seconds) / 86400 ∧
      (ctx.zoneOffset ts.Seconds = 0 → civilDay y m d = ts.Seconds / 86400) ∧
      (∀ (y' : Int) (m' d' : Nat), 1 ≤ m' → m' ≤ 12 → 1 ≤ d' →
        (d' : Int) ≤ daysInMonth y' m' →
        civilDay y' m' d' = (ts.Seconds + ctx.zoneOffset ts.Seconds) / 86400 →
        y' = (y : Int) ∧ m' = m ∧ d' = d) := by
  obtain ⟨ts', c, hts', hc, _, _, _⟩ := CreateTransaction_ok ctx a s n s' hcreate
  rw [hts] at hts'
  cases hts'
  have hget := GetTransaction_after_create ctx ctx' a s s' n ts c hts hc hcreate hread
  have hdate : (a.toRecord n (formatDate (ctx.zoneOffset ts.Seconds) ts.Seconds)
      c).coerce.FechaAdquisicion = formatDate (ctx.zoneOffset ts.Seconds) ts.Seconds :=
    toValidUTF8_of_valid _ (formatDate_valid _ _)
  obtain ⟨y, m, d, hy, hm1, hm12, hd1, hd, hday, hiso⟩ :=
    formatDate_civil (ctx.zoneOffset ts.Seconds) ts.Seconds hlo hhi
  refine ⟨_, y, m, d, hget, hdate, hdate.trans hiso, hy, hm1, hm12, hd1, hd, hday, ?_, ?_⟩
  · intro h0
    rw [hday, h0, add_zero]
  · intro y' m' d' h1 h2 h3 h4 h5
    exact civilDay_unique y' y m' d' m d h1 h2 h3 h4 hm1 hm12 hd1 hd (h5.trans hday.symm)

/-- C13 at a sample: on a host in UTC the sale of 14 November 2023, 22:13:20
UTC, is dated by the calendar date of that day. -/
theorem C13_date_local_witness :
    ∃ (t : Transaction) (y m d : Nat),
      GetTransaction bob 1 storeOne = .ok t ∧
      t.FechaAdquisicion = formatDate (alice.zoneOffset 1700000000) 1700000000 ∧
      t.FechaAdquisicion = isoDate y m d ∧
      y ≤ 9999 ∧ 1 ≤ m ∧ m ≤ 12 ∧ 1 ≤ d ∧ (d : Int) ≤ daysInMonth y m ∧
      civilDay y m d = (1700000000 + alice.zoneOffset 1700000000) / 86400 ∧
      (alice.zoneOffset 1700000000 = 0 → civilDay y m d = 1700000000 / 86400) ∧
      (∀ (y' : Int) (m' d' : Nat), 1 ≤ m' → m' ≤ 12 → 1 ≤ d' →
        (d' : Int) ≤ daysInMonth y' m' →
        civilDay y' m' d' = (1700000000 + alice.zoneOffset 1700000000) / 86400 →
        y' = (y : Int) ∧ m' = m ∧ d' = d) :=
  C13_date_local alice bob sampleArgs Store.empty storeOne 1 ⟨1700000000, 0⟩ rfl
    sample_create rfl (by decide) (by decide)

/-- C13 fails as stated: for the timestamp 1735689600, which is
2025-01-01T00:00:00 UTC, a host whose process runs five hours behind UTC stores
the date `2024-12-31`. And also in UTC the text is not of the form
`YYYY-MM-DD` outside the years 0000 to 9999: one second before the year 0 it
is `-0001-12-31`, and at the first second of the year 10000 it is
`10000-01-01`. -/
theorem C13_counterexample :
    (CreateTransaction aliceInLima sampleArgs Store.empty).1 = .ok 1 ∧
      (∃ t, GetTransaction alice 1 (CreateTransaction aliceInLima sampleArgs Store.empty).2 =
          .ok t ∧ t.FechaAdquisicion = ascii "2024-12-31") ∧
      formatDate 0 1735689600 = ascii "2025-01-01" ∧
      formatDate 0 (-62167219201) = ascii "-0001-12-31" ∧
      formatDate 0 253402300800 = ascii "10000-01-01" := by
  refine ⟨rfl, ⟨_, GetTransaction_after_create aliceInLima alice sampleArgs Store.empty _ 1
    ⟨1735689600, 0⟩ aliceID rfl rfl rfl rfl, ?_⟩, by decide, by decide, by decide⟩
  decide

/-- C14, as the code has it: `GetTransaction(id)` fails with the read error
when the host's read fails, with the not-found error when the record key is
absent, and with the format error when the stored bytes do not decode;
otherwise it returns the record `json.Unmarshal` decodes from the stored bytes.
A record is never returned for an absent key, and the bytes `CreateTransaction`
writes for a record decode to that record. -/
theorem C14_get_outcomes (ctx : Ctx) (id : Int) (s : Store) :
    (∀ e, ctx.getStateErr (transactionKey id) = some e →
      GetTransaction ctx id s = .error (.getState id e)) ∧
    (ctx.getStateErr (transactionKey id) = none → s (transactionKey id) = none →
      GetTransaction ctx id s = .error (.notFound id)) ∧
    (ctx.getStateErr (transactionKey id) = none →
      ∀ bs, s (transactionKey id) = some bs → Unmarshal bs = none →
        GetTransaction ctx id s = .error .unmarshal) ∧
    (∀ t, GetTransaction ctx id s = .ok t →
      ∃ bs, s (transactionKey id) = some bs ∧ Unmarshal bs = some t) ∧
    (ctx.getStateErr (transactionKey id) = none →
      ∀ t, minInt ≤ t.ID → t.ID ≤ maxInt → s (transactionKey id) = some (Marshal t) →
        GetTransaction ctx id s = .ok t.coerce ∧ t.coerce.ID = t.ID) := by
  refine ⟨?_, ?_, ?_, ?_, ?_⟩
  · intro e he
    simp only [GetTransaction, GetState, he]
  · intro hg hs
    rw [GetTransaction_eq ctx id s hg, hs]
  · intro hg bs hs hu
    rw [GetTransaction_eq ctx id s hg, hs]
    simp only [hu]
  · intro t ht
    exact (GetTransaction_ok ctx id s t ht).2
  · intro hg t hlo hhi hs
    exact ⟨GetTransaction_put_Marshal ctx id s t hg hs hlo hhi, rfl⟩

/-- C14 fails as stated: with the bytes `{}` stored under the record key of id
7, `GetTransaction(7)` succeeds and returns the zero-valued record, whose ID is
0. -/
theorem C14_counterexample :
    GetTransaction alice 7 (Store.empty.put (transactionKey 7) (ascii "\x7b\x7d")) =
        .ok Transaction.zero ∧
      Transaction.zero.ID ≠ 7 := by
  refine ⟨rfl, by decide⟩

/-- C15, as the code has it: when the counter entry is absent (value 0) or
holds the decimal text of an integer below the largest machine integer, the
value it stands for after any one invocation, as committed by the ledger or as
left by the method itself, succeeding or failing, is not smaller than before. -/
theorem C15_counter_monotone (ctx : Ctx) (op : Op) (s : Store) (c : Int)
    (hc : CounterHolds s c) (hmax : c < maxInt) :
    (∃ c', CounterHolds (invoke ctx op s).2 c' ∧ c ≤ c') ∧
      (∀ a, ∃ c', CounterHolds (CreateTransaction ctx a s).2 c' ∧ c ≤ c') ∧
      (∀ id, CounterHolds (DeleteTransaction ctx id s).2 c) := by
  have hnext := CounterHolds_next s c hc hmax
  have hput : ∀ v : GoString,
      CounterHolds ((s.put idCounterKey (Itoa (nextOf (s idCounterKey)))).put
        (transactionKey (nextOf (s idCounterKey))) v) (nextOf (s idCounterKey)) := by
    intro v
    right
    rw [Store.put_other _ _ _ _ (fun hk => transactionKey_ne_counter _ hk.symm),
      Store.put_same]
  have hdel : ∀ id, CounterHolds (s.del (transactionKey id)) c := by
    intro id
    unfold CounterHolds
    rw [Store.del_other _ _ _ (fun hk => transactionKey_ne_counter _ hk.symm)]
    exact hc
  refine ⟨?_, ?_, ?_⟩
  · rcases invoke_cases ctx op s with ⟨r, hr, _, _⟩ | ⟨a, t, _, _, hr⟩ | ⟨id, _, hr⟩
    · rw [hr]
      exact ⟨c, hc, le_refl c⟩
    · rw [hr]
      exact ⟨_, hput _, hnext⟩
    · rw [hr]
      exact ⟨c, hdel id, le_refl c⟩
  · intro a
    cases h : CreateTransaction ctx a s with
    | mk r s' =>
      cases r with
      | error e =>
        rcases CreateTransaction_error ctx a s e s' h with h1 | h1
        · simp only
          rw [h1]
          exact ⟨c, hc, le_refl c⟩
        · simp only
          rw [h1]
          exact ⟨_, Or.inr (Store.put_same _ _ _), hnext⟩
      | ok n =>
        obtain ⟨_, _, _, _, _, hn, hs'⟩ := CreateTransaction_ok ctx a s n s' h
        simp only
        rw [hs', hn]
        exact ⟨_, hput _, hnext⟩
  · intro id
    rcases DeleteTransaction_cases ctx id s with ⟨e, h⟩ | ⟨_, _, h⟩
    · rw [h]
      exact hc
    · rw [h]
      exact hdel id

/-- C15 at a sample: from the counter entry `41`. -/
theorem C15_counter_monotone_witness :
    (∃ c', CounterHolds (invoke alice (.create sampleArgs)
        (Store.empty.put idCounterKey (Itoa 41))).2 c' ∧ (41 : Int) ≤ c') ∧
      (∀ a, ∃ c', CounterHolds (CreateTransaction alice a
        (Store.empty.put idCounterKey (Itoa 41))).2 c' ∧ (41 : Int) ≤ c') ∧
      (∀ id, CounterHolds (DeleteTransaction alice id
        (Store.empty.put idCounterKey (Itoa 41))).2 41) :=
  C15_counter_monotone alice (.create sampleArgs) (Store.empty.put idCounterKey (Itoa 41)) 41
    (Or.inr rfl) (by decide)

/-- C15 fails as stated: from the counter entry `9223372036854775807`, the
largest machine integer, a successful creation leaves the counter entry
`-9223372036854775808`. -/
theorem C15_counterexample :
    (invoke alice (.create sampleArgs)
        (Store.empty.put idCounterKey (ascii "9223372036854775807"))).1 =
        .created (-9223372036854775808) ∧
      (invoke alice (.create sampleArgs)
        (Store.empty.put idCounterKey (ascii "9223372036854775807"))).2 idCounterKey =
        some (ascii "-9223372036854775808") ∧
      (-9223372036854775808 : Int) < 9223372036854775807 := by
  refine ⟨rfl, by decide, by decide⟩

/-- C16: `CreateTransaction` does not look at its nine strings. On a host that
treats the write of the record alike for two choices of the strings, the two
calls succeed with the same id or fail with the same error; and a failure is
always that of the timestamp, of the read or write of the counter entry, of
the caller identity or of the write of the record. -/
theorem C16_no_validation (ctx : Ctx) (s : Store) (a a' : Args)
    (hhost : ∀ (n : Int) (d c : GoString),
      ctx.putStateErr (transactionKey n) (Marshal (a.toRecord n d c)) =
        ctx.putStateErr (transactionKey n) (Marshal (a'.toRecord n d c))) :
    (CreateTransaction ctx a s).1 = (CreateTransaction ctx a' s).1 ∧
      ∀ e, (CreateTransaction ctx a s).1 = .error e →
        (∃ m, ctx.txTimestamp = .error m ∧ e = .timestamp m) ∨
        (∃ m, ctx.getStateErr idCounterKey = some m ∧ e = .nextID (.counterRead m)) ∨
        (∃ m v, ctx.putStateErr idCounterKey v = some m ∧ e = .nextID (.counterWrite m)) ∨
        (∃ m, ctx.clientID = .error m ∧ e = .clientID m) ∨
        (∃ m k v, ctx.putStateErr k v = some m ∧ e = .host m) := by
  cases hts : ctx.txTimestamp with
  | error m =>
    refine ⟨by simp only [CreateTransaction, hts], ?_⟩
    intro e he
    simp only [CreateTransaction, hts, Except.error.injEq] at he
    exact Or.inl ⟨m, rfl, he.symm⟩
  | ok ts =>
    rcases getNextID_cases ctx s with ⟨m, hr, hg⟩ | ⟨m, _, hw, hg⟩ | ⟨_, _, hg⟩
    · refine ⟨by simp only [CreateTransaction, hts, hg], ?_⟩
      intro e he
      simp only [CreateTransaction, hts, hg, Except.error.injEq] at he
      exact Or.inr (Or.inl ⟨m, hr, he.symm⟩)
    · refine ⟨by simp only [CreateTransaction, hts, hg], ?_⟩
      intro e he
      simp only [CreateTransaction, hts, hg, Except.error.injEq] at he
      exact Or.inr (Or.inr (Or.inl ⟨m, _, hw, he.symm⟩))
    · cases hc : ctx.clientID with
      | error m =>
        refine ⟨by simp only [CreateTransaction, hts, hg, hc], ?_⟩
        intro e he
        simp only [CreateTransaction, hts, hg, hc, Except.error.injEq] at he
        exact Or.inr (Or.inr (Or.inr (Or.inl ⟨m, rfl, he.symm⟩)))
      | ok c =>
        rw [CreateTransaction_eq ctx a s ts _ _ c hts hg hc,
          CreateTransaction_eq ctx a' s ts _ _ c hts hg hc, hhost]
        cases hp : ctx.putStateErr (transactionKey (nextOf (s idCounterKey)))
            (Marshal (a'.toRecord (nextOf (s idCounterKey))
              (formatDate (ctx.zoneOffset ts.Seconds) ts.Seconds) c)) with
        | some m =>
          refine ⟨rfl, ?_⟩
          intro e he
          simp only [Except.error.injEq] at he
          exact Or.inr (Or.inr (Or.inr (Or.inr ⟨m, _, _, hp, he.symm⟩)))
        | none =>
          refine ⟨rfl, ?_⟩
          intro e he
          simp at he

/-- C16 at a sample: the sample sale and the sale with a malformed registry
entry have the same outcome. -/
theorem C16_no_validation_witness :
    (CreateTransaction alice sampleArgs storeOne).1 =
        (CreateTransaction alice rawArgs storeOne).1 ∧
      ∀ e, (CreateTransaction alice sampleArgs storeOne).1 = .error e →
        (∃ m, alice.txTimestamp = .error m ∧ e = .timestamp m) ∨
        (∃ m, alice.getStateErr idCounterKey = some m ∧ e = .nextID (.counterRead m)) ∨
        (∃ m v, alice.putStateErr idCounterKey v = some m ∧ e = .nextID (.counterWrite m)) ∨
        (∃ m, alice.clientID = .error m ∧ e = .clientID m) ∨
        (∃ m k v, alice.putStateErr k v = some m ∧ e = .host m) :=
  C16_no_validation alice storeOne sampleArgs rawArgs (fun _ _ _ => rfl)

/-- C17, as the code has it: when the counter entry is present and
`strconv.Atoi` fails on it with a syntax error (the entry is empty or a lone
sign, or a byte that is not a decimal digit is met before the digits read so
far exceed 64 bits), and the host's calls succeed, `getNextID` returns 1 and
writes `1` as counter entry; a `CreateTransaction` in that state is given id 1
and writes its record under the record key of id 1, whatever that key held. -/
theorem C17_reset_to_one (ctx : Ctx) (s : Store) (bs : GoString) (a : Args) (ts : Timestamp)
    (c : GoString) (hcounter : s idCounterKey = some bs)
    (hbad : (Atoi bs).2 = some .invalid)
    (hread : ctx.getStateErr idCounterKey = none)
    (hwrite : ∀ k v, ctx.putStateErr k v = none)
    (hts : ctx.txTimestamp = .ok ts) (hc : ctx.clientID = .ok c) :
    getNextID ctx s = (.ok 1, s.put idCounterKey (ascii "1")) ∧
      CreateTransaction ctx a s =
        (.ok 1, (s.put idCounterKey (ascii "1")).put (transactionKey 1)
          (Marshal (a.toRecord 1 (formatDate (ctx.zoneOffset ts.Seconds) ts.Seconds) c))) := by
  have hnext : nextOf (s idCounterKey) = 1 := by
    rw [hcounter]
    show wrapInt ((Atoi bs).1 + 1) = 1
    rw [Atoi_invalid bs hbad]
    decide
  have hg : getNextID ctx s = (.ok 1, s.put idCounterKey (ascii "1")) := by
    rw [getNextID_ok ctx s hread (hwrite _ _), hnext]
    rfl
  refine ⟨hg, ?_⟩
  rw [CreateTransaction_eq ctx a s ts 1 _ c hts hg hc, hwrite]

/-- C17 at a sample: with the counter entry `abc` over the state that holds
the first caller's sale under id 1, the second caller's creation is given id 1. -/
theorem C17_reset_to_one_witness :
    getNextID bob (storeOne.put idCounterKey (ascii "abc")) =
        (.ok 1, (storeOne.put idCounterKey (ascii "abc")).put idCounterKey (ascii "1")) ∧
      CreateTransaction bob sampleArgs (storeOne.put idCounterKey (ascii "abc")) =
        (.ok 1, ((storeOne.put idCounterKey (ascii "abc")).put idCounterKey (ascii "1")).put
          (transactionKey 1)
          (Marshal (sampleArgs.toRecord 1 (formatDate (bob.zoneOffset 1700000100) 1700000100)
            bobID))) :=
  C17_reset_to_one bob (storeOne.put idCounterKey (ascii "abc")) (ascii "abc") sampleArgs
    ⟨1700000100, 0⟩ bobID (Store.put_same _ _ _) (by decide) rfl (fun _ _ => rfl) rfl rfl

/-- C17 fails as stated: on a counter entry that `strconv.Atoi` cannot parse
because the digits do not fit, it reports a range error and yields the largest
machine integer, and `getNextID` then returns `-9223372036854775808`, not 1.
This is so for `9223372036854775808`, and also for `99999999999999999999x`,
which is no decimal text at all: the range error is returned before the last
byte is read. -/
theorem C17_counterexample :
    (Atoi (ascii "9223372036854775808") = (9223372036854775807, some .outOfRange) ∧
      (getNextID alice (Store.empty.put idCounterKey (ascii "9223372036854775808"))).1 =
        .ok (-9223372036854775808) ∧
      (getNextID alice (Store.empty.put idCounterKey (ascii "9223372036854775808"))).2
        idCounterKey = some (ascii "-9223372036854775808")) ∧
    (Atoi (ascii "99999999999999999999x") = (9223372036854775807, some .outOfRange) ∧
      (getNextID alice (Store.empty.put idCounterKey (ascii "99999999999999999999x"))).1 =
        .ok (-9223372036854775808) ∧
      (getNextID alice (Store.empty.put idCounterKey (ascii "99999999999999999999x"))).2
        idCounterKey = some (ascii "-9223372036854775808")) := by
  refine ⟨⟨by decide, rfl, by decide⟩, ⟨by decide, rfl, by decide⟩⟩

/-- C18, as the code has it: in every state reached from the empty state by
committed invocations, every stored record key `"TRANSACTION"+k` holds bytes
that deserialize to a record whose ID is `k`, so that `GetTransaction` never
returns the deserialization error and a record it returns under `k` has ID
`k`; and while fewer than 2^63 creations have succeeded, `1 ≤ k` and `k` is at
most the value of the counter entry, the number of creations so far. -/
theorem C18_stored_records (tr : Trace) :
    (∀ (k : Int) (bs : GoString), run tr Store.empty (transactionKey k) = some bs →
        ∃ t, Unmarshal bs = some t ∧ t.ID = k) ∧
      (∀ (ctx : Ctx) (k : Int), GetTransaction ctx k (run tr Store.empty) ≠ .error .unmarshal ∧
        ∀ t, GetTransaction ctx k (run tr Store.empty) = .ok t → t.ID = k) ∧
      (createCount tr Store.empty < 9223372036854775808 →
        ∀ k : Int, run tr Store.empty (transactionKey k) ≠ none →
          run tr Store.empty idCounterKey = some (Itoa (createCount tr Store.empty : Nat)) ∧
            1 ≤ k ∧ k ≤ ((createCount tr Store.empty : Nat) : Int)) := by
  have hrec := RecordsOk_run tr Store.empty RecordsOk_empty
  refine ⟨hrec, fun ctx k => RecordsOk_get ctx k _ hrec, ?_⟩
  intro hc k hk
  have hinv := CounterIs_run tr Store.empty 0 CounterIs_empty
  rw [Nat.zero_add] at hinv
  obtain ⟨h1, h2⟩ := CounterIs_small _ _ hinv hc
  have hk' := h2 k hk
  refine ⟨?_, hk'⟩
  rcases h1 with ⟨h0, _⟩ | ⟨_, hs⟩
  · rw [h0] at hk'
    omega
  · exact hs

/-- C18 fails as stated: after the first caller has recorded the sample sale
2^63 times from the empty state, the record key of `-9223372036854775808` is
stored, an id below 1. -/
theorem C18_counterexample :
    createCount (manyCreates 9223372036854775808) Store.empty = 9223372036854775808 ∧
      run (manyCreates 9223372036854775808) Store.empty
        (transactionKey (-9223372036854775808)) ≠ none ∧
      ¬ (1 : Int) ≤ -9223372036854775808 := by
  refine ⟨createCount_manyCreates _ _, ?_, by decide⟩
  obtain ⟨n, h1, h2⟩ := last_create 9223372036854775808 Store.empty (by decide)
  rw [counter_manyCreates 9223372036854775808 (by decide)] at h1
  simp only [Option.some.injEq] at h1
  have hn := Itoa_injective _ _ h1
  have hw : wrapInt ((9223372036854775808 : Nat) : Int) = -9223372036854775808 := by decide
  rw [hw] at hn
  rw [hn]
  exact h2

/-- C19, as the code has it: in every state reached from the empty state by
committed invocations, the counter entry is absent (exactly when no creation
has succeeded) or is the text `strconv.Itoa` gives for a machine integer `n`,
the wrapped number of creations so far; `strconv.Atoi` of the entry returns
`n` with no error, so the branch of `getNextID` that ignores the error is not
taken; and while fewer than 2^63 creations have succeeded `n` is that number,
a positive integer. -/
theorem C19_counter_canonical (tr : Trace) :
    (createCount tr Store.empty = 0 ∧ run tr Store.empty idCounterKey = none) ∨
      ∃ n : Int, minInt ≤ n ∧ n ≤ maxInt ∧
        run tr Store.empty idCounterKey = some (Itoa n) ∧
        Atoi (Itoa n) = (n, none) ∧
        n = wrapInt ((createCount tr Store.empty : Nat) : Int) ∧
        (createCount tr Store.empty < 9223372036854775808 →
          0 < n ∧ n = ((createCount tr Store.empty : Nat) : Int)) := by
  rcases counter_run tr with h | ⟨hpos, hs⟩
  · exact Or.inl h
  · refine Or.inr ⟨_, (wrapInt_range _).1, (wrapInt_range _).2, hs,
      Atoi_Itoa _ (wrapInt_range _).1 (wrapInt_range _).2, rfl, ?_⟩
    intro hc
    rw [wrapInt_small _ hc]
    exact ⟨by omega, rfl⟩

/-- C19 fails as stated: after the first caller has recorded the sample sale
2^63 times from the empty state the counter entry is `-9223372036854775808`,
the text of a negative integer. -/
theorem C19_counterexample :
    createCount (manyCreates 9223372036854775808) Store.empty = 9223372036854775808 ∧
      run (manyCreates 9223372036854775808) Store.empty idCounterKey =
        some (ascii "-9223372036854775808") ∧
      Atoi (ascii "-9223372036854775808") = (-9223372036854775808, none) := by
  refine ⟨createCount_manyCreates _ _, ?_, by decide⟩
  rw [counter_manyCreates 9223372036854775808 (by decide)]
  decide

end Chaincode
